import Mathlib

/-!
# Gobase: channels, condition queue and contexts

A shallow embedding of the concurrency demonstrations of the repository
(`Syntactic Sugar/concurrent1/{channnel,selectandlock,context}/main.go`).

The demonstration functions are translated statement by statement.  The Go
primitives they call (`make(chan int, n)`, `ch <- v`, `<-ch`, `close`, `select`,
`sync.Mutex`, `sync.Cond`, `context.With*`) are given the semantics of the Go
language specification and of the package documentation, which the summary
comments at the end of each source file repeat.
-/

namespace Gobase

/-! ## Channels (`channnel/main.go`, `selectandlock/main.go`) -/

/-- Result of letting one goroutine attempt one operation: it completes with a
value, it parks because the operation cannot proceed yet, or it panics. -/
inductive Op (α : Type) where
  | done : α → Op α
  | blocks : Op α
  | panics : Op α
  deriving DecidableEq, Repr

/-- Sequencing of operations of one goroutine. -/
def Op.bind {α β : Type} : Op α → (α → Op β) → Op β
  | .done a, f => f a
  | .blocks, _ => .blocks
  | .panics, _ => .panics

instance : Monad Op where
  pure := Op.done
  bind := Op.bind

/-- A Go `chan int`: its capacity, the buffered values (oldest first), the
closed flag, and the values of the goroutines parked in `ch <- v` on it, oldest
first (the `sendq` of the runtime). -/
structure Chan where
  cap : Nat
  buf : List Int
  closed : Bool
  sendq : List Int
  deriving DecidableEq, Repr

/-- Go `make(chan int, cap)`. -/
def makeChan (cap : Nat) : Chan := ⟨cap, [], false, []⟩

/-- The channel once a goroutine whose `ch <- v` cannot proceed has parked on
it. -/
def Chan.park (ch : Chan) (v : Int) : Chan := { ch with sendq := ch.sendq ++ [v] }

/-- Go `len(ch)`. -/
def Chan.len (ch : Chan) : Nat := ch.buf.length

/-- Go `ch <- v` with no receiver parked on the channel: panics on a closed
channel ("向已关闭管道写入数据会导致panic"), appends at the tail while there is
room, blocks when the buffer is full ("缓冲区满时发送阻塞"); the goroutine then
parks, which `Chan.park` records. -/
def send (ch : Chan) (v : Int) : Op Chan :=
  if ch.closed then .panics
  else if ch.buf.length < ch.cap then .done { ch with buf := ch.buf ++ [v] }
  else .blocks

/-- Go `v, ok := <-ch`, in the order of the runtime.  On a closed channel: the
head of the buffer, or `(0, false)` once it is empty
("已关闭管道可继续读取剩余数据").  On an open channel with a sender parked: the
oldest parked sender is released, its value being received directly when the
buffer is empty, and put at the tail of the buffer, whose head is received,
otherwise.  On an open channel with no sender parked: the head of the buffer,
and the receiver blocks when it is empty ("空时接收阻塞"). -/
def recv (ch : Chan) : Op ((Int × Bool) × Chan) :=
  if ch.closed then
    match ch.buf with
    | [] => .done ((0, false), ch)
    | v :: rest => .done ((v, true), { ch with buf := rest })
  else
    match ch.sendq, ch.buf with
    | s :: more, [] => .done ((s, true), { ch with sendq := more })
    | s :: more, v :: rest =>
      .done ((v, true), { ch with buf := rest ++ [s], sendq := more })
    | [], v :: rest => .done ((v, true), { ch with buf := rest })
    | [], [] => .blocks

/-- Go `close(ch)`: panics when the channel is already closed
("重复关闭管道会导致panic"); the senders parked on the channel are woken (and
panic), so none stays parked. -/
def close (ch : Chan) : Op Chan :=
  if ch.closed then .panics else .done { ch with closed := true, sendq := [] }

/-- Sends the values of a list one after the other, `ch <- v1; ch <- v2; ...`. -/
def sendAll (ch : Chan) : List Int → Op Chan
  | [] => .done ch
  | v :: vs => (send ch v).bind (fun ch1 => sendAll ch1 vs)

/-- Receives `n` times in a row, collecting each `(value, ok)`. -/
def recvN (ch : Chan) : Nat → Op (List (Int × Bool) × Chan)
  | 0 => .done ([], ch)
  | n + 1 =>
    (recv ch).bind (fun r =>
      (recvN r.2 n).bind (fun rs => .done (r.1 :: rs.1, rs.2)))

/-- What `bufferedChannelDemo` prints: `len(ch)`, `cap(ch)` after the three
sends, and the three values read. -/
structure BufferedDemoOut where
  len : Nat
  cap : Nat
  reads : List Int
  deriving DecidableEq, Repr

/-- `bufferedChannelDemo` (channnel/main.go 35-53); the deferred `close(ch)` runs
last. -/
def bufferedChannelDemo : Op (BufferedDemoOut × Chan) := do
  let ch := makeChan 3
  let ch ← send ch 1
  let ch ← send ch 2
  let ch ← send ch 3
  let l := ch.len
  let c := ch.cap
  let (r1, ch) ← recv ch
  let (r2, ch) ← recv ch
  let (r3, ch) ← recv ch
  let ch ← close ch
  pure (⟨l, c, [r1.1, r2.1, r3.1]⟩, ch)

/-- Section 6.2 of `channelRangeDemo` (channnel/main.go 164-175): the four
`(value, ok)` pairs printed by the loop over the closed channel `ch2`. -/
def channelRangeDemoClosed : Op (List (Int × Bool) × Chan) := do
  let ch2 := makeChan 3
  let ch2 ← send ch2 1
  let ch2 ← send ch2 2
  let ch2 ← close ch2
  recvN ch2 4

/-- `trySend` (selectandlock/main.go 362-369): a `select` with one send case and
a `default`.  The send case is chosen whenever the send can proceed (on a closed
channel it proceeds to the panic); `default` is chosen when it would block. -/
def trySend (ch : Chan) (value : Int) : Op (Bool × Chan) :=
  match send ch value with
  | .done ch1 => .done (true, ch1)
  | .blocks => .done (false, ch)
  | .panics => .panics

/-- `tryRecv` (selectandlock/main.go 372-379): a `select` with one receive case
and a `default` returning `(0, false)`.  The receive case is chosen whenever
the receive can proceed (a buffered value, a parked sender, or a closed
channel); `default` is chosen when it would block. -/
def tryRecv (ch : Chan) : Op ((Int × Bool) × Chan) :=
  match recv ch with
  | .done r => .done r
  | .blocks => .done ((0, false), ch)
  | .panics => .panics

/-- `utilityFunctions` (selectandlock/main.go 339-359): the result of `trySend`,
the result of `tryRecv`, and the channel after `close`. -/
def utilityFunctions : Op ((Bool × (Int × Bool)) × Chan) := do
  let ch := makeChan 1
  let (sent, ch) ← trySend ch 100
  let (got, ch) ← tryRecv ch
  let ch ← close ch
  pure ((sent, got), ch)

/-- The two goroutines of section 6.1 of `channelRangeDemo`: the anonymous
sender and the main goroutine running `for value := range ch`. -/
inductive RangeActor where
  | sender
  | main
  deriving DecidableEq, Repr

/-- State of section 6.1 of `channelRangeDemo` (channnel/main.go 150-162). -/
structure RangeState where
  /-- the channel `ch := make(chan int, 5)` -/
  ch : Chan
  /-- loop variable `i` of the sending goroutine -/
  i : Nat
  /-- the sending goroutine has executed `close(ch)` and returned -/
  senderDone : Bool
  /-- the values printed by `fmt.Println("遍历读取:", value)`, in order -/
  out : List Int
  /-- the `range` loop has ended -/
  mainDone : Bool
  deriving DecidableEq, Repr

/-- State right after `ch := make(chan int, 5)` and the `go` statement. -/
def rangeInit : RangeState := ⟨makeChan 5, 0, false, [], false⟩

/-- One step of one goroutine of section 6.1.  The sender executes `ch <- i`
while `i < 5` and then `close(ch)`; the main goroutine receives, printing the
value when `ok` and leaving the loop otherwise.  `blocks` means the goroutine
has no step in this state. -/
def rangeStep (s : RangeState) : RangeActor → Op RangeState
  | .sender =>
    if s.senderDone then .blocks
    else if s.i < 5 then
      (send s.ch (Int.ofNat s.i)).bind (fun c => .done { s with ch := c, i := s.i + 1 })
    else
      (close s.ch).bind (fun c => .done { s with ch := c, senderDone := true })
  | .main =>
    if s.mainDone then .blocks
    else
      (recv s.ch).bind (fun r =>
        if r.1.2 then .done { s with ch := r.2, out := s.out ++ [r.1.1] }
        else .done { s with ch := r.2, mainDone := true })

/-- Runs an interleaving, given as the list of goroutines taking the steps. -/
def rangeRun (s : RangeState) : List RangeActor → Op RangeState
  | [] => .done s
  | a :: rest => (rangeStep s a).bind (fun s1 => rangeRun s1 rest)

/-- Invariant of section 6.1 of `channelRangeDemo` after `n` steps. -/
structure RangeInv (s : RangeState) (n : Nat) : Prop where
  cap : s.ch.cap = 5
  bound : s.i ≤ 5
  fifo : s.out ++ s.ch.buf = (List.range s.i).map Int.ofNat
  closed : s.ch.closed = s.senderDone
  sent : s.senderDone = true → s.i = 5
  ended : s.mainDone = true → s.senderDone = true ∧ s.ch.buf = []
  steps : n = s.i + (if s.senderDone then 1 else 0) + s.out.length
            + (if s.mainDone then 1 else 0)
  nosend : s.ch.sendq = []

/-! ## `select` -/

/-- Outcome of a Go `select`: the index of the communication case that runs,
the `default` branch, or the goroutine parks. -/
inductive Selected where
  | case (i : Nat)
  | dflt
  | parks
  deriving DecidableEq, Repr

/-- Indices of the cases that can proceed. -/
def readyCases (ready : List Bool) : List Nat :=
  (List.range ready.length).filter (fun i => ready.getD i false)

/-- Go `select`: when one or more cases can proceed, one of them is chosen by a
uniform pseudo-random pick ("多个case就绪时随机选择一个执行"), here the number
`pick`; otherwise `default` runs if present, else the goroutine parks. -/
def goSelect (ready : List Bool) (hasDefault : Bool) (pick : Nat) : Selected :=
  match readyCases ready with
  | [] => if hasDefault then .dflt else .parks
  | c :: cs => .case ((c :: cs).getD (pick % (c :: cs).length) c)

/-! ## The condition-variable queue (`condDemo`, selectandlock/main.go 266-336) -/

/-- The four goroutines started by `condDemo`. -/
inductive Gor where
  | producer1
  | producer2
  | consumer1
  | consumer2
  deriving DecidableEq, Repr

/-- Whether the goroutine runs `producer` (otherwise it runs `consumer`). -/
def Gor.isProducer : Gor → Bool
  | .producer1 => true
  | .producer2 => true
  | .consumer1 => false
  | .consumer2 => false

/-- Program points of `producer` and `consumer`, whose bodies have the same
shape. -/
inductive Pc where
  /-- top of the loop body: sleeping, then calling `cond.L.Lock()` -/
  | idle
  /-- holds the lock, about to evaluate the condition of the wait loop -/
  | check
  /-- parked inside `cond.Wait()`, lock released -/
  | waiting
  /-- notified inside `cond.Wait()`, about to re-acquire the lock -/
  | woken
  /-- holds the lock, left the wait loop, about to append / remove -/
  | body
  /-- holds the lock, about to call `cond.L.Unlock()` -/
  | unlock
  /-- about to call `cond.Broadcast()` -/
  | bcast
  /-- returned; the deferred `wg.Done()` has run -/
  | finished
  deriving DecidableEq, Repr

/-- Program points at which the goroutine holds `cond.L`. -/
def Pc.holds : Pc → Bool
  | .check => true
  | .body => true
  | .unlock => true
  | _ => false

/-- State of `condDemo`.  `produced` and `consumed` record the lines printed by
"生产者%d: 生产 %d" and "消费者%d: 消费 %d". -/
structure CondState where
  queue : List Int
  locked : Bool
  pc : Gor → Pc
  iter : Gor → Nat
  produced : List (Gor × Int)
  consumed : List (Gor × Int)

/-- State of `condDemo` when the four goroutines have been started. -/
def condInit : CondState :=
  { queue := [], locked := false, pc := fun _ => .idle, iter := fun _ => 0,
    produced := [], consumed := [] }

/-- An action of the scheduler: let a goroutine run its next statement, or wake
a goroutine parked in `cond.Wait()` without any `Broadcast` (spurious wake-up). -/
inductive CondAct where
  | run (g : Gor)
  | spurious (g : Gor)
  deriving DecidableEq, Repr

/-- Moves goroutine `g` to program point `p`. -/
def CondState.goto (s : CondState) (g : Gor) (p : Pc) : CondState :=
  { s with pc := Function.update s.pc g p }

/-- `cond.Broadcast()`: every goroutine parked in `Wait` is notified. -/
def wakeAll (pc : Gor → Pc) : Gor → Pc :=
  fun h => if pc h = .waiting then .woken else pc h

/-- One statement of goroutine `g` (`producer` 291-312, `consumer` 314-336) with
`capacity` as passed by `condDemo`.  `blocks`: the goroutine cannot run now. -/
def condStepRun (capacity : Nat) (s : CondState) (g : Gor) : Op CondState :=
  match s.pc g with
  | .idle =>
    -- time.Sleep(...); cond.L.Lock()
    if s.locked then .blocks else .done ({ s with locked := true }.goto g .check)
  | .check =>
    -- for len(*queue) >= capacity { cond.Wait() }   resp.   for len(*queue) == 0 { ... }
    if (if g.isProducer then decide (capacity ≤ s.queue.length) else decide (s.queue.length = 0)) then
      .done ({ s with locked := false }.goto g .waiting)
    else .done (s.goto g .body)
  | .waiting => .blocks
  | .woken =>
    -- cond.Wait() re-acquires the lock before returning
    if s.locked then .blocks else .done ({ s with locked := true }.goto g .check)
  | .body =>
    if g.isProducer then
      -- *queue = append(*queue, i)
      .done ({ s with queue := s.queue ++ [(s.iter g : Int)],
                      produced := s.produced ++ [(g, (s.iter g : Int))] }.goto g .unlock)
    else
      -- item := (*queue)[0]; *queue = (*queue)[1:]
      match s.queue with
      | [] => .panics
      | item :: rest =>
        .done ({ s with queue := rest, consumed := s.consumed ++ [(g, item)] }.goto g .unlock)
  | .unlock =>
    -- cond.L.Unlock()
    if s.locked then .done ({ s with locked := false }.goto g .bcast) else .panics
  | .bcast =>
    -- cond.Broadcast(); i++; loop test `i < 5`
    .done { s with pc := Function.update (wakeAll s.pc) g (if s.iter g + 1 < 5 then .idle else .finished),
                   iter := Function.update s.iter g (s.iter g + 1) }
  | .finished => .blocks

/-- One scheduler action. -/
def condStep (capacity : Nat) (s : CondState) : CondAct → Op CondState
  | .run g => condStepRun capacity s g
  | .spurious g => if s.pc g = .waiting then .done (s.goto g .woken) else .blocks

/-- Runs a schedule from a state. -/
def condRun (capacity : Nat) (s : CondState) : List CondAct → Op CondState
  | [] => .done s
  | a :: rest => (condStep capacity s a).bind (fun s1 => condRun capacity s1 rest)

/-- The `capacity` of `condDemo`. -/
def condCapacity : Nat := 3

/-- All four goroutines of `condDemo` have returned. -/
def CondState.allFinished (s : CondState) : Bool :=
  [Gor.producer1, Gor.producer2, Gor.consumer1, Gor.consumer2].all
    (fun g => decide (s.pc g = .finished))

/-- The values, in order of removal, of the removed items that goroutine `p`
had appended: the `k`-th item removed is the `k`-th item appended. -/
def removedOf (s : CondState) (p : Gor) : List Int :=
  (((s.produced.take s.consumed.length).filter (fun e => decide (e.1 = p))).map Prod.snd)

/-- Number of completed appends / removals of the current iteration: 1 between
the append / removal and the end of the iteration. -/
def Pc.extra : Pc → Nat
  | .unlock => 1
  | .bcast => 1
  | _ => 0

/-- Invariant of `condDemo` for a given capacity. -/
structure CondInv (capacity : Nat) (s : CondState) : Prop where
  mutex : ∀ g h, (s.pc g).holds = true → (s.pc h).holds = true → g = h
  lockedIff : s.locked = true ↔ ∃ g, (s.pc g).holds = true
  cap : s.queue.length ≤ capacity
  prodBody : ∀ g, g.isProducer = true → s.pc g = .body → s.queue.length < capacity
  consBody : ∀ g, g.isProducer = false → s.pc g = .body → s.queue ≠ []
  fifo : s.produced.map Prod.snd = s.consumed.map Prod.snd ++ s.queue
  prodLog : ∀ g, (s.produced.filter (fun e => decide (e.1 = g))).map Prod.snd
      = if g.isProducer then (List.range (s.iter g + (s.pc g).extra)).map Int.ofNat else []
  consLog : ∀ g, (s.consumed.filter (fun e => decide (e.1 = g))).length
      = if g.isProducer then 0 else s.iter g + (s.pc g).extra
  iterEnd : ∀ g, s.pc g = .finished → s.iter g = 5
  iterRun : ∀ g, s.pc g ≠ .finished → s.iter g < 5

/-- A goroutine schedule in which every goroutine runs its five iterations:
five times an iteration of producer 1 then of consumer 1, then the same for
producer 2 and consumer 2.  One iteration is five statements. -/
def condSequentialSchedule : List CondAct :=
  ((List.replicate 5 (List.replicate 5 (CondAct.run .producer1)
      ++ List.replicate 5 (CondAct.run .consumer1))).flatten)
  ++ ((List.replicate 5 (List.replicate 5 (CondAct.run .producer2)
      ++ List.replicate 5 (CondAct.run .consumer2))).flatten)

/-- A schedule with a consumer that waits on the empty queue, is woken
spuriously, waits again and is then woken by the producer's broadcast. -/
def condWaitingSchedule : List CondAct :=
  [.run .consumer1, .run .consumer1, .spurious .consumer1, .run .consumer1, .run .consumer1,
   .run .producer1, .run .producer1, .run .producer1, .run .producer1, .run .producer1,
   .run .consumer1, .run .consumer1, .run .consumer1, .run .consumer1, .run .consumer1]

/-! ## Contexts (`context/main.go`) -/

/-- The two non-nil results of `ctx.Err()`: `context.Canceled` and
`context.DeadlineExceeded`. -/
inductive CtxErr where
  | canceled
  | deadlineExceeded
  deriving DecidableEq, Repr

/-- A key passed to `WithValue` / `Value`.  Go compares keys as interface
values, by dynamic type and by value: the constants `userKey` and `requestIDKey`
have type `keyType`, the literal `"nonexistent"` has type `string`. -/
inductive Key where
  | keyType (s : String)
  | str (s : String)
  deriving DecidableEq, Repr

/-- `userKey keyType = "user"` (context/main.go 38). -/
def userKey : Key := .keyType "user"

/-- `requestIDKey keyType = "requestID"` (context/main.go 39). -/
def requestIDKey : Key := .keyType "requestID"

/-- A `context.Context` value.  A value context and a cancellable context wrap
their parent; the mutable part of a cancellable context (`cancelCtx`,
`timerCtx`) lives in the world under the index `id`. -/
inductive Ctx where
  | background
  | withValue (parent : Ctx) (key : Key) (val : String)
  | cancelable (parent : Ctx) (id : Nat)
  deriving DecidableEq, Repr

/-- Mutable part of a `cancelCtx` / `timerCtx`. -/
structure CNode where
  /-- `c.err`: `none` while the context is pending -/
  err : Option CtxErr
  /-- `c.children`: the cancellable contexts that registered with this one -/
  children : List Nat
  /-- the cancellable ancestor this context registered with, if any -/
  parent : Option Nat
  /-- the deadline of a `timerCtx`, in milliseconds -/
  deadline : Option Nat
  deriving DecidableEq, Repr

/-- A pending timer: at `time` it cancels context `id` with `cause`.  It is the
timer of a `timerCtx` (cause `deadlineExceeded`) or a `time.AfterFunc` whose
function is a `cancel` (cause `canceled`). -/
structure Timer where
  time : Nat
  id : Nat
  cause : CtxErr
  deriving DecidableEq, Repr

/-- The clock (milliseconds), the cancellable contexts created so far and the
pending timers ordered by firing time. -/
structure World where
  now : Nat
  nodes : List CNode
  timers : List Timer
  deriving DecidableEq, Repr

/-- The world at program start. -/
def World.start : World := ⟨0, [], []⟩

/-- `c.cancel(false, err)` of `cancelCtx`: nothing when already cancelled,
otherwise sets `err`, cancels every registered child with the same error and
drops the children.  The recursion depth is bounded by `fuel`. -/
def cancelAux : Nat → List CNode → Nat → CtxErr → List CNode
  | 0, ns, _, _ => ns
  | fuel + 1, ns, id, e =>
    match ns[id]? with
    | none => ns
    | some n =>
      if n.err.isSome then ns
      else
        n.children.foldl (fun acc c => cancelAux fuel acc c e)
          (ns.set id { n with err := some e, children := [] })

/-- `removeChild(parent, c)`: unregisters `id` from the context it registered
with. -/
def removeChild (ns : List CNode) (id : Nat) : List CNode :=
  match ns[id]? with
  | none => ns
  | some n =>
    match n.parent with
    | none => ns
    | some p =>
      match ns[p]? with
      | none => ns
      | some pn => ns.set p { pn with children := pn.children.filter (fun c => c ≠ id) }

/-- `c.cancel(true, err)`: what a `CancelFunc` and a firing timer run.  The
number of contexts bounds the depth of the tree. -/
def cancelTop (ns : List CNode) (id : Nat) (e : CtxErr) : List CNode :=
  match ns[id]? with
  | none => ns
  | some n =>
    if n.err.isSome then ns
    else removeChild (cancelAux ns.length ns id e) id

/-- Fires, in order, the pending timers whose time has come. -/
def fire (now : Nat) : List Timer → List CNode → List Timer × List CNode
  | [], ns => ([], ns)
  | tm :: rest, ns =>
    if tm.time ≤ now then fire now rest (cancelTop ns tm.id tm.cause)
    else (tm :: rest, ns)

/-- Lets the clock reach `t` (it never runs backwards); timers due by then have
fired, the earliest first. -/
def World.advance (w : World) (t : Nat) : World :=
  let now := max w.now t
  let r := fire now w.timers w.nodes
  ⟨now, r.2, r.1⟩

/-- `time.Sleep(d)` seen from the world. -/
def World.sleep (w : World) (d : Nat) : World := w.advance (w.now + d)

/-- Schedules a timer, keeping the pending timers ordered by time. -/
def addTimer (t : Timer) : List Timer → List Timer
  | [] => [t]
  | u :: us => if t.time < u.time then t :: u :: us else u :: addTimer t us

/-- The `CancelFunc` returned with context `id`. -/
def World.cancel (w : World) (id : Nat) : World :=
  { w with nodes := cancelTop w.nodes id .canceled }

/-- `time.AfterFunc(d, func() { cancel() })` for the `cancel` of context `id`. -/
def World.afterFuncCancel (w : World) (d : Nat) (id : Nat) : World :=
  { w with timers := addTimer ⟨w.now + d, id, .canceled⟩ w.timers }

/-- The nearest cancellable context at or above a context (`parentCancelCtx`). -/
def cancelerOf : Ctx → Option Nat
  | .background => none
  | .withValue p _ _ => cancelerOf p
  | .cancelable _ id => some id

/-- `ctx.Err()`. -/
def Err (w : World) : Ctx → Option CtxErr
  | .background => none
  | .withValue p _ _ => Err w p
  | .cancelable _ id => (w.nodes[id]?).bind (fun n => n.err)

/-- Whether a receive from `ctx.Done()` can proceed: the channel is closed
exactly when `Err` is non-nil. -/
def isDone (w : World) (ctx : Ctx) : Bool := (Err w ctx).isSome

/-- `ctx.Deadline()`: the deadline of the nearest `timerCtx`. -/
def Deadline (w : World) : Ctx → Option Nat
  | .background => none
  | .withValue p _ _ => Deadline w p
  | .cancelable p id =>
    match (w.nodes[id]?).bind (fun n => n.deadline) with
    | some d => some d
    | none => Deadline w p

/-- `ctx.Value(key)`: a value context answers for its own key and otherwise
asks its parent; the other contexts ask their parent; `Background` has no
value (`nil`, here `none`). -/
def Value : Ctx → Key → Option String
  | .background, _ => none
  | .withValue p k v, q => if q = k then some v else Value p q
  | .cancelable p _, q => Value p q

/-- `context.WithValue(parent, key, val)`. -/
def WithValue (parent : Ctx) (key : Key) (val : String) : Ctx :=
  .withValue parent key val

/-- Creates the mutable part of a new cancellable child of `parent` and runs
`propagateCancel`: the child of an already cancelled context is cancelled at
once with the same error, the child of a pending one is registered with it. -/
def newChild (w : World) (parent : Ctx) (deadline : Option Nat) : Nat × World :=
  let id := w.nodes.length
  match cancelerOf parent with
  | none => (id, { w with nodes := w.nodes ++ [⟨none, [], none, deadline⟩] })
  | some p =>
    match w.nodes[p]? with
    | none => (id, { w with nodes := w.nodes ++ [⟨none, [], none, deadline⟩] })
    | some pn =>
      match pn.err with
      | some e => (id, { w with nodes := w.nodes ++ [⟨some e, [], some p, deadline⟩] })
      | none =>
        (id, { w with nodes :=
          (w.nodes.set p { pn with children := pn.children ++ [id] }) ++ [⟨none, [], some p, deadline⟩] })

/-- `context.WithCancel(parent)`: the new context, the index its `cancel`
acts on, and the new world. -/
def WithCancel (w : World) (parent : Ctx) : (Ctx × Nat) × World :=
  let r := newChild w parent none
  ((.cancelable parent r.1, r.1), r.2)

/-- The `timerCtx` branch of `WithDeadline`: registers the child, cancels it at
once with `DeadlineExceeded` when `d` has passed, else arms its timer unless
the child was already cancelled by its parent. -/
def newTimerCtx (w : World) (parent : Ctx) (d : Nat) : (Ctx × Nat) × World :=
  let r := newChild w parent (some d)
  if d ≤ w.now then
    ((.cancelable parent r.1, r.1), { r.2 with nodes := cancelTop r.2.nodes r.1 .deadlineExceeded })
  else if (r.2.nodes[r.1]?).bind (fun n => n.err) = none then
    ((.cancelable parent r.1, r.1), { r.2 with timers := addTimer ⟨d, r.1, .deadlineExceeded⟩ r.2.timers })
  else ((.cancelable parent r.1, r.1), r.2)

/-- `context.WithDeadline(parent, d)`: a plain cancellable child when the parent
expires earlier, otherwise a `timerCtx`. -/
def WithDeadline (w : World) (parent : Ctx) (d : Nat) : (Ctx × Nat) × World :=
  match Deadline w parent with
  | some cur => if cur < d then WithCancel w parent else newTimerCtx w parent d
  | none => newTimerCtx w parent d

/-- `context.WithTimeout(parent, d)` is `WithDeadline(parent, time.Now().Add(d))`. -/
def WithTimeout (w : World) (parent : Ctx) (d : Nat) : (Ctx × Nat) × World :=
  WithDeadline w parent (w.now + d)

/-- The bindings on the chain of a context, nearest first. -/
def bindings : Ctx → List (Key × String)
  | .background => []
  | .withValue p k v => (k, v) :: bindings p
  | .cancelable p _ => bindings p

/-- `processRequest` (context/main.go 52-62): the three values it prints,
`user`, `requestID` and `notFound`. -/
def processRequest (ctx : Ctx) : (Option String × Option String) × Option String :=
  let user := Value ctx userKey
  let requestID := Value ctx requestIDKey
  let notFound := Value ctx (.str "nonexistent")
  ((user, requestID), notFound)

/-- The context built by `valueContextDemo` (context/main.go 46-47). -/
def valueContextDemoCtx : Ctx :=
  let ctx := WithValue .background userKey "Alice"
  WithValue ctx requestIDKey "12345"

/-- `valueContextDemo` (context/main.go 42-50). -/
def valueContextDemo : (Option String × Option String) × Option String :=
  processRequest valueContextDemoCtx

/-- What a worker prints or does, in order. -/
inductive WEvent where
  /-- "工作中..." of `worker` -/
  | working
  /-- "运行中" of `nestedWorker` -/
  | running
  /-- "步骤 i" of `processWithTimeout` -/
  | step (i : Nat)
  /-- the line of the `Done` branch, with the printed `ctx.Err()` -/
  | stopped (err : Option CtxErr)
  /-- "任务完成" of `processWithTimeout` -/
  | completed
  /-- the deferred `wg.Done()` -/
  | wgDone
  deriving DecidableEq, Repr

/-- The `select` of `worker` and of `processWithTimeout`: case 0 is
`<-ctx.Done()`, and there is a `default`. -/
def workerSelect (done : Bool) (pick : Nat) : Selected :=
  goSelect [done] true pick

/-- The `select` of `nestedWorker`: case 0 is `<-ctx.Done()`, case 1 is
`<-ticker.C`, no `default`. -/
def nestedWorkerSelect (done tick : Bool) (pick : Nat) : Selected :=
  goSelect [done, tick] false pick

/-- The `for` loop of `worker` (context/main.go 89-98), `k` counting the
iterations.  `sleeps k` is how long the `k`-th `time.Sleep(500ms)` really
lasts and `pick k` the pseudo-random pick of the `k`-th `select`. -/
def workerLoop (ctx : Ctx) (sleeps : Nat → Nat) (pick : Nat → Nat) :
    Nat → Nat → World → Option (List WEvent × World)
  | 0, _, _ => none
  | fuel + 1, k, w =>
    match workerSelect (isDone w ctx) (pick k) with
    | .case _ => some ([.stopped (Err w ctx)], w)
    | .dflt =>
      (workerLoop ctx sleeps pick fuel (k + 1) (w.sleep (sleeps k))).map
        (fun r => (.working :: r.1, r.2))
    | .parks => none

/-- `worker` (context/main.go 86-99): the loop, then the deferred `wg.Done()`. -/
def worker (ctx : Ctx) (sleeps : Nat → Nat) (pick : Nat → Nat) (fuel : Nat) (w : World) :
    Option (List WEvent × World) :=
  (workerLoop ctx sleeps pick fuel 0 w).map (fun r => (r.1 ++ [.wgDone], r.2))

/-- The `for` loop of `nestedWorker` (context/main.go 134-142) for a goroutine
that reacts at once.  The ticker was created at `start`; `n` ticks have been
received, so the next one arrives at `start + 300 * (n + 1)`.  The goroutine is
parked in `select` until `ctx.Done()` is closed or the tick arrives: when the
context is done before the tick, only case 0 can proceed; when the tick arrives,
case 1 can proceed, and case 0 too if the context became done at that instant. -/
def nestedWorkerLoop (ctx : Ctx) (start : Nat) (pick : Nat → Nat) :
    Nat → Nat → World → Option (List WEvent × World)
  | 0, _, _ => none
  | fuel + 1, n, w =>
    let early := w.advance (start + 300 * (n + 1) - 1)
    if isDone early ctx then
      match nestedWorkerSelect true false (pick n) with
      | .case 0 => some ([.stopped (Err early ctx)], early)
      | _ => none
    else
      let atTick := w.advance (start + 300 * (n + 1))
      match nestedWorkerSelect (isDone atTick ctx) true (pick n) with
      | .case 0 => some ([.stopped (Err atTick ctx)], atTick)
      | .case _ =>
        (nestedWorkerLoop ctx start pick fuel (n + 1) atTick).map
          (fun r => (.running :: r.1, r.2))
      | _ => none

/-- `nestedWorker` (context/main.go 128-143): the ticker is created on entry, the
deferred `ticker.Stop()` and `wg.Done()` run on return. -/
def nestedWorker (ctx : Ctx) (pick : Nat → Nat) (fuel : Nat) (w : World) :
    Option (List WEvent × World) :=
  (nestedWorkerLoop ctx w.now pick fuel 0 w).map (fun r => (r.1 ++ [.wgDone], r.2))

/-- The loop of `processWithTimeout` (context/main.go 178-188): `rem` iterations
are left, `i` is the loop variable, `sleeps i` is how long the
`time.Sleep(800ms)` of step `i` really lasts. -/
def processWithTimeoutLoop (ctx : Ctx) (sleeps : Nat → Nat) (pick : Nat → Nat) :
    Nat → Nat → World → List WEvent × World
  | 0, _, w => ([.completed], w)
  | rem + 1, i, w =>
    match workerSelect (isDone w ctx) (pick i) with
    | .case _ => ([.stopped (Err w ctx)], w)
    | _ =>
      let r := processWithTimeoutLoop ctx sleeps pick rem (i + 1) (w.sleep (sleeps i))
      (.step i :: r.1, r.2)

/-- `processWithTimeout` (context/main.go 177-189): `for i := 1; i <= 5; i++`. -/
def processWithTimeout (ctx : Ctx) (sleeps : Nat → Nat) (pick : Nat → Nat) (w : World) :
    List WEvent × World :=
  processWithTimeoutLoop ctx sleeps pick 5 1 w

/-- `cancelContextDemo` (context/main.go 65-84): the trace of `worker1` and the
world when `wg.Wait()` returns.  The main goroutine only arms the 3 s
`AfterFunc` and waits. -/
def cancelContextDemo (sleeps : Nat → Nat) (pick : Nat → Nat) (fuel : Nat) :
    Option (List WEvent × World) :=
  let w := World.start
  let r := WithCancel w .background
  let ctx := r.1.1
  let cancel := r.1.2
  let w := r.2.afterFuncCancel 3000 cancel
  worker ctx sleeps pick fuel w

/-- The contexts and the world of `nestedCancelDemo` (context/main.go 106-122)
once the three contexts exist and the 2 s `AfterFunc` is armed: `rootCtx`,
`childCtx1`, `childCtx2`. -/
def nestedCancelSetup : (Ctx × Ctx × Ctx) × World :=
  let w := World.start
  let r := WithCancel w .background
  let rootCtx := r.1.1
  let cancel := r.1.2
  let c1 := WithCancel r.2 rootCtx
  let c2 := WithCancel c1.2 rootCtx
  let w := c2.2.afterFuncCancel 2000 cancel
  ((rootCtx, c1.1.1, c2.1.1), w)

/-- The worlds `nestedCancelDemo` goes through: after each `WithCancel`, after
arming the `AfterFunc`, at every millisecond up to `horizon`, the timer firing
`cancel()` at 2000 ms. -/
def nestedCancelWorlds (horizon : Nat) : List World :=
  let w := World.start
  let r := WithCancel w .background
  let c1 := WithCancel r.2 r.1.1
  let c2 := WithCancel c1.2 r.1.1
  [w, r.2, c1.2, c2.2] ++ (List.range (horizon + 1)).map (fun t => nestedCancelSetup.2.advance t)

/-- `nestedCancelDemo` (context/main.go 102-126): the traces of `root-worker`,
`child1-worker` and `child2-worker` when `wg.Wait()` returns. -/
def nestedCancelDemo (pick : Nat → Nat) (fuel : Nat) : Option (List (List WEvent)) :=
  let ctxs := nestedCancelSetup.1
  let w := nestedCancelSetup.2
  match nestedWorker ctxs.1 pick fuel w, nestedWorker ctxs.2.1 pick fuel w,
      nestedWorker ctxs.2.2 pick fuel w with
  | some r0, some r1, some r2 => some [r0.1, r1.1, r2.1]
  | _, _, _ => none

/-- What `timeoutContextDemo` leaves behind. -/
structure TimeoutDemoOut where
  /-- trace of `timeout-task` -/
  task1 : List WEvent
  /-- trace of `deadline-task` -/
  task2 : List WEvent
  timeoutCtx : Ctx
  deadlineCtx : Ctx
  /-- the world when the second `wg.Wait()` returns -/
  beforeDefers : World
  /-- the world after the deferred `cancel2()` and `cancel()` -/
  final : World

/-- `timeoutContextDemo` (context/main.go 146-175).  Each goroutine runs while
the main goroutine is parked in `wg.Wait()`; the deferred `cancel2()` and
`cancel()` run last, in that order. -/
def timeoutContextDemo (sleeps1 sleeps2 : Nat → Nat) (pick : Nat → Nat) : TimeoutDemoOut :=
  let w := World.start
  let r1 := WithTimeout w .background 2000
  let p1 := processWithTimeout r1.1.1 sleeps1 pick r1.2
  let deadline := p1.2.now + 3000
  let r2 := WithDeadline p1.2 .background deadline
  let p2 := processWithTimeout r2.1.1 sleeps2 pick r2.2
  let w := p2.2.cancel r2.1.2
  let w := w.cancel r1.1.2
  ⟨p1.1, p2.1, r1.1.1, r2.1.1, p2.2, w⟩

/-- No child context is pending while the context it derives from is done:
checked for every cancellable context that has a cancellable ancestor. -/
def World.propagated (w : World) : Bool :=
  w.nodes.all (fun n =>
    match n.parent with
    | none => true
    | some p =>
      match w.nodes[p]? with
      | none => true
      | some pn => !pn.err.isSome || n.err.isSome)

/-- The world of the counterexample to C10: a context whose `cancel` is called
by a timer at 300 ms, the instant of the first tick of the ticker. -/
def tieWorld : (Ctx × Nat) × World :=
  let r := WithCancel World.start .background
  (r.1, r.2.afterFuncCancel 300 r.1.2)

/-- A context whose only way to finish is the one pending timer: no children,
no cancellable parent, still pending before the timer's time `D`. -/
structure Pending (w : World) (id D : Nat) (e : CtxErr) : Prop where
  timers : w.timers = [⟨D, id, e⟩]
  node : ∃ dl, w.nodes[id]? = some ⟨none, [], none, dl⟩
  early : w.now < D

/-- A finished context with no timer left in the world. -/
structure Fired (w : World) (id : Nat) (e : CtxErr) : Prop where
  timers : w.timers = []
  node : ∃ dl, w.nodes[id]? = some ⟨some e, [], none, dl⟩

/-- The world of `nestedCancelDemo` at time `t` before the 2 s timer has fired. -/
def demoPending (t : Nat) : World :=
  ⟨t, [⟨none, [1, 2], none, none⟩, ⟨none, [], some 0, none⟩, ⟨none, [], some 0, none⟩],
    [⟨2000, 0, .canceled⟩]⟩

/-- The world of `nestedCancelDemo` at time `t` after the 2 s timer has fired. -/
def demoFired (t : Nat) : World :=
  ⟨t, [⟨some .canceled, [], none, none⟩, ⟨some .canceled, [], some 0, none⟩,
       ⟨some .canceled, [], some 0, none⟩], []⟩

/-- Well-formedness of the registered parent/child links: a parent is older
than its child, a pending child of a pending parent is registered with it, and
registered children are younger than the context they registered with. -/
structure NodesOk (ns : List CNode) : Prop where
  older : ∀ (c : Nat) (n : CNode) (p : Nat), ns[c]? = some n → n.parent = some p → p < c
  reg : ∀ (c : Nat) (n : CNode) (p : Nat) (pn : CNode), ns[c]? = some n → n.parent = some p → ns[p]? = some pn →
    n.err = none → pn.err = none → c ∈ pn.children
  younger : ∀ (p : Nat) (pn : CNode) (c : Nat), ns[p]? = some pn → c ∈ pn.children → p < c

/-- No context is pending while the context it registered with is done. -/
def Propagated (ns : List CNode) : Prop :=
  ∀ (c : Nat) (n : CNode) (p : Nat) (pn : CNode), ns[c]? = some n → n.parent = some p →
    ns[p]? = some pn → pn.err.isSome = true → n.err.isSome = true

/-- `ns1` is `ns` with some pending contexts finished with error `e`. -/
structure Finishes (e : CtxErr) (ns ns1 : List CNode) : Prop where
  len : ns1.length = ns.length
  node : ∀ (j : Nat) (n : CNode), ns[j]? = some n →
    ns1[j]? = some n ∨ (n.err = none ∧ ns1[j]? = some { n with err := some e, children := [] })

/-- Context `j` exists and is done. -/
def doneAt (ns : List CNode) (j : Nat) : Prop :=
  ∃ m, ns[j]? = some m ∧ m.err.isSome = true

/-- Every context that was pending in `ns` and is done in `ns1` has all its
children done in `ns1`. -/
def Closed (ns ns1 : List CNode) : Prop :=
  ∀ (c : Nat) (n : CNode) (p : Nat) (pn : CNode), ns[c]? = some n → n.parent = some p →
    ns[p]? = some pn → pn.err = none → doneAt ns1 p → doneAt ns1 c

/-- What a program can do to the world of contexts. -/
inductive WorldOp where
  | withCancel (parent : Ctx)
  | withDeadline (parent : Ctx) (d : Nat)
  | withTimeout (parent : Ctx) (d : Nat)
  | cancel (id : Nat)
  | afterFuncCancel (d : Nat) (id : Nat)
  | advance (t : Nat)
  deriving DecidableEq, Repr

/-- The world after one operation. -/
def World.apply (w : World) : WorldOp → World
  | .withCancel parent => (WithCancel w parent).2
  | .withDeadline parent d => (WithDeadline w parent d).2
  | .withTimeout parent d => (WithTimeout w parent d).2
  | .cancel id => w.cancel id
  | .afterFuncCancel d id => w.afterFuncCancel d id
  | .advance t => w.advance t

/-- The world after a sequence of operations. -/
def World.run (w : World) (ops : List WorldOp) : World :=
  ops.foldl World.apply w

/-- The links are well formed and no child is pending under a done parent. -/
def WorldOk (w : World) : Prop := NodesOk w.nodes ∧ Propagated w.nodes

/-- Every context of `ns` is still there in `ns1`, with the same parent link. -/
def Stable (ns ns1 : List CNode) : Prop :=
  ∀ (j : Nat) (n : CNode), ns[j]? = some n → ∃ m, ns1[j]? = some m ∧ m.parent = n.parent

/-! ## Wake-ups of `condDemo` -/

/-- Whether goroutine `g` could leave its wait loop now: the queue has room for
a producer, an item for a consumer. -/
def canProceed (capacity : Nat) (s : CondState) (g : Gor) : Bool :=
  if g.isProducer then decide (s.queue.length < capacity) else decide (s.queue ≠ [])

/-- No lost wake-up: whenever a goroutine is parked in `cond.Wait()` although
the queue would let it proceed, some goroutine has appended or removed an item
and has its `cond.Broadcast()` still ahead. -/
def WakeInv (capacity : Nat) (s : CondState) : Prop :=
  ∀ g, s.pc g = .waiting → canProceed capacity s g = true →
    ∃ h, s.pc h = .unlock ∨ s.pc h = .bcast

/-- A schedule that parks both consumers on the empty queue. -/
def condBothWaitSchedule : List CondAct :=
  [.run .consumer1, .run .consumer1, .run .consumer2, .run .consumer2]

/-! ## Monotonic `Err()` (`practicalExample`, `httpHandler`) -/

/-- Every context that is done in `ns` is still there in `ns1`, done with the
same error. -/
def ErrKept (ns ns1 : List CNode) : Prop :=
  ∀ (j : Nat) (n : CNode) (e : CtxErr), ns[j]? = some n → n.err = some e →
    ∃ m, ns1[j]? = some m ∧ m.err = some e

/-- The operations of `practicalExample` and `httpHandler` (context/main.go
192-237) on contexts, under exact timing: `ctx` with a 5 s timeout, `authCtx`
with 2 s and `dbCtx` with 3 s derived from it; `authenticate` answers at 1 s and
`queryDatabase` at 2 s, when `httpHandler` returns and the deferred `dbCancel()`
and `authCancel()` run, followed by the deferred `cancel()` of
`practicalExample`. -/
def practicalExampleOps : List WorldOp :=
  [.withTimeout .background 5000,
   .withTimeout (.cancelable .background 0) 2000,
   .withTimeout (.cancelable .background 0) 3000,
   .advance 2000, .cancel 2, .cancel 1, .cancel 0]

/-! ## Timed `select` (`selectBasicDemo`, `selectLoopDemo`, `selectTimeoutDemo`) -/

/-- Earliest of a list of instants. -/
def earliest : List Nat → Option Nat
  | [] => none
  | t :: ts =>
    match earliest ts with
    | none => some t
    | some m => some (min t m)

/-- A `select` without `default`, entered before any of its cases can proceed,
whose case `i` can proceed from the instant `readyAt[i]` on.  The goroutine
parks until the first instant at which a case can proceed, and one of the cases
that can proceed at that instant is chosen by `goSelect`.  Yields that instant
and the index of the chosen case. -/
def timedSelect (readyAt : List Nat) (pick : Nat) : Option (Nat × Nat) :=
  match earliest readyAt with
  | none => none
  | some t =>
    match goSelect (readyAt.map (fun r => decide (r ≤ t))) false pick with
    | .case i => some (t, i)
    | _ => none

/-- The branch of the `select` of `selectBasicDemo` that runs, with the value it
prints. -/
inductive BasicBranch where
  /-- prints "从ch1接收到: n" -/
  | ch1 (n : Int)
  /-- prints "从ch2接收到: s" -/
  | ch2 (s : String)
  /-- prints "从ch3接收到: b" -/
  | ch3 (b : Bool)
  /-- prints "所有操作超时" -/
  | timeout
  deriving DecidableEq, Repr

/-- What `selectBasicDemo` does: the instant at which its `select` proceeds, the
branch that runs, the three channels after the deferred function, and the
outcome of the send statement of each of the three goroutines. -/
structure BasicDemoOut where
  time : Nat
  branch : BasicBranch
  ch1 : Chan
  ch2 : Chan
  ch3 : Chan
  /-- outcome of `ch1 <- 100` -/
  send1 : Op Chan
  /-- outcome of `ch2 <- "hello"` -/
  send2 : Op Chan
  /-- outcome of `ch3 <- true` -/
  send3 : Op Chan
  deriving DecidableEq, Repr

/-- `selectBasicDemo` (selectandlock/main.go 11-52).  The goroutines reach their
send statements at `d1`, `d2`, `d3` (after sleeping 100, 200 and 150 ms) and the
`time.After` channel delivers at `dT` (300 ms).  The `select` takes the value of
the goroutine whose case is chosen; the function then returns and its deferred
function closes `ch1`, `ch2` and `ch3`; every other goroutine executes its send
with no receiver, on the channel as the deferred function left it.  Only the
state of `ch2` and `ch3` matters for their sends, whose values are written 0 and
1 on the `chan int` model. -/
def selectBasicDemo (d1 d2 d3 dT : Nat) (pick : Nat) : Op BasicDemoOut :=
  let ch1 := makeChan 0
  let ch2 := makeChan 0
  let ch3 := makeChan 0
  match timedSelect [d1, d2, d3, dT] pick with
  | none => .blocks
  | some (t, i) =>
    (close ch1).bind (fun c1 =>
    (close ch2).bind (fun c2 =>
    (close ch3).bind (fun c3 =>
      .done
        { time := t
          branch := if i = 0 then .ch1 100 else if i = 1 then .ch2 "hello"
            else if i = 2 then .ch3 true else .timeout
          ch1 := c1
          ch2 := c2
          ch3 := c3
          send1 := if i = 0 then .done ch1 else send c1 100
          send2 := if i = 1 then .done ch2 else send c2 0
          send3 := if i = 2 then .done ch3 else send c3 1 })))

/-- The branch of the first `select` of `selectTimeoutDemo` that runs. -/
inductive TimeoutBranch where
  /-- prints "操作成功: n" -/
  | result (n : Int)
  /-- prints "操作超时!" -/
  | timeout
  deriving DecidableEq, Repr

/-- What `selectTimeoutDemo` does: the instant at which the first `select`
proceeds and its branch, whether the non-blocking send wrote, what the
non-blocking receive read, and `dataCh` after `close`. -/
structure TimeoutSelectOut where
  time : Nat
  first : TimeoutBranch
  wrote : Bool
  read : Option Int
  dataCh : Chan
  deriving DecidableEq, Repr

/-- `selectTimeoutDemo` (selectandlock/main.go 116-155).  The goroutine reaches
`ch <- 42` at `dSend` (after sleeping 2 s) and the `time.After` channel delivers
at `dTimer` (1 s).  Section 3.2 is a `select` with one send case and a `default`
and a `select` with one receive case and a `default`. -/
def selectTimeoutDemo (dSend dTimer : Nat) (pick : Nat) : Op TimeoutSelectOut :=
  match timedSelect [dSend, dTimer] pick with
  | none => .blocks
  | some (t, i) =>
    (send (makeChan 2) 1).bind (fun dataCh =>
    (match send dataCh 2 with
      | .done c => Op.done (true, c)
      | .blocks => .done (false, dataCh)
      | .panics => .panics).bind (fun w =>
    (match recv w.2 with
      | .done r => Op.done (some r.1.1, r.2)
      | .blocks => .done (none, w.2)
      | .panics => .panics).bind (fun r =>
    (close r.2).bind (fun c =>
      .done
        { time := t
          first := if i = 0 then .result 42 else .timeout
          wrote := w.1
          read := r.1
          dataCh := c }))))

/-- What a receive case of the consumer of `selectLoopDemo` finds on one of the
unbuffered channels `ch1`, `ch2`. -/
inductive Src where
  /-- open, no sender parked: the case cannot proceed -/
  | empty
  /-- the producer is parked in `ch <- v` -/
  | sender (v : Int)
  /-- closed: the case can always proceed, with `ok = false` -/
  | closed
  deriving DecidableEq, Repr

/-- Whether a receive can proceed. -/
def Src.ready : Src → Bool
  | .empty => false
  | _ => true

/-- Lines printed by the consumer of `selectLoopDemo`. -/
inductive LoopEvent where
  /-- prints "ch1: n" -/
  | ch1 (n : Int)
  /-- prints "ch1已关闭" -/
  | ch1Closed
  /-- prints "ch2: n" -/
  | ch2 (n : Int)
  /-- prints "ch2已关闭" -/
  | ch2Closed
  /-- prints "监控超时" -/
  | timeout
  deriving DecidableEq, Repr

/-- State of `selectLoopDemo`.  `next1` and `next2` are the values the producers
send next; `finished`: the consumer has returned and `done` is closed. -/
structure LoopState where
  ch1 : Src
  ch2 : Src
  next1 : Nat
  next2 : Nat
  ch1Closed : Bool
  ch2Closed : Bool
  finished : Bool
  log : List LoopEvent
  deriving DecidableEq, Repr

/-- State of `selectLoopDemo` when the three goroutines have been started. -/
def loopInit : LoopState := ⟨.empty, .empty, 0, 10, false, false, false, []⟩

/-- The goroutines of `selectLoopDemo`.  The consumer runs one iteration of its
loop; `timer` tells whether the `time.After(500ms)` of that iteration has
delivered and `pick` is the pseudo-random pick of its `select`. -/
inductive LoopActor where
  | producer1
  | producer2
  | consumer (timer : Bool) (pick : Nat)
  deriving DecidableEq, Repr

/-- A producer of `selectLoopDemo` (60-66, 68-74) arriving at its next
statement: `ch <- i` while `i < last`, where it parks until the consumer takes
the value, then `close(ch)`. -/
def producerStep (ch : Src) (next last : Nat) : Op (Src × Nat) :=
  match ch with
  | .empty => if next < last then .done (.sender next, next + 1) else .done (.closed, next)
  | .sender _ => .blocks
  | .closed => .blocks

/-- The exit test of the consumer loop: `if ch1Closed && ch2Closed { return }`. -/
def LoopState.exitTest (s : LoopState) : LoopState :=
  if s.ch1Closed && s.ch2Closed then { s with finished := true } else s

/-- One step of a goroutine of `selectLoopDemo`.  For the consumer (79-107): one
iteration of `for { select { ... } }`.  The case of `time.After` can proceed
only when the timer has delivered, which takes 500 ms parked in the `select` and
so cannot happen while a channel is closed. -/
def loopStep (s : LoopState) : LoopActor → Op LoopState
  | .producer1 =>
    (producerStep s.ch1 s.next1 5).bind (fun r => .done { s with ch1 := r.1, next1 := r.2 })
  | .producer2 =>
    (producerStep s.ch2 s.next2 15).bind (fun r => .done { s with ch2 := r.1, next2 := r.2 })
  | .consumer timer pick =>
    if s.finished then .blocks
    else
      match goSelect [s.ch1.ready, s.ch2.ready,
          timer && decide (s.ch1 ≠ .closed) && decide (s.ch2 ≠ .closed)] false pick with
      | .case 0 =>
        match s.ch1 with
        | .sender n => Op.done (LoopState.exitTest { s with ch1 := .empty, log := s.log ++ [.ch1 n] })
        | .closed => Op.done (LoopState.exitTest { s with ch1Closed := true, log := s.log ++ [.ch1Closed] })
        | .empty => Op.blocks
      | .case 1 =>
        match s.ch2 with
        | .sender n => Op.done (LoopState.exitTest { s with ch2 := .empty, log := s.log ++ [.ch2 n] })
        | .closed => Op.done (LoopState.exitTest { s with ch2Closed := true, log := s.log ++ [.ch2Closed] })
        | .empty => Op.blocks
      | .case _ => Op.done (LoopState.exitTest { s with log := s.log ++ [.timeout] })
      | _ => Op.blocks

/-- Runs a schedule from a state. -/
def loopRun (s : LoopState) : List LoopActor → Op LoopState
  | [] => .done s
  | a :: rest => (loopStep s a).bind (fun s1 => loopRun s1 rest)

/-- A schedule of `selectLoopDemo` in which the first producer sends its five
values and closes `ch1`, the consumer notices it, and the second producer
arrives at `ch2 <- 10`. -/
def loopStallSchedule : List LoopActor :=
  [.producer1, .consumer false 0, .producer1, .consumer false 0, .producer1, .consumer false 0,
   .producer1, .consumer false 0, .producer1, .consumer false 0, .producer1, .consumer false 0,
   .producer2]

/-- The state `loopStallSchedule` leads to: `ch1` is closed and the second
producer is parked in `ch2 <- 10`. -/
def loopStalled : LoopState :=
  ⟨.closed, .sender 10, 5, 11, true, false, false,
   [.ch1 0, .ch1 1, .ch1 2, .ch1 3, .ch1 4, .ch1Closed]⟩

/-! ## `sync.WaitGroup` (`cancelContextDemo`, `nestedCancelDemo`) -/

/-- `wg.Add(delta)`: panics when the counter would become negative. -/
def wgAdd (counter : Int) (delta : Int) : Op Int :=
  if counter + delta < 0 then .panics else .done (counter + delta)

/-- `wg.Done()`, which is `wg.Add(-1)`. -/
def wgDone (counter : Int) : Op Int := wgAdd counter (-1)

/-- `wg.Wait()`: blocks until the counter is zero. -/
def wgWait (counter : Int) : Op Unit :=
  if counter = 0 then .done () else .blocks

/-- Where a worker goroutine is. -/
inductive WorkerPc where
  /-- its `go` statement has not run yet -/
  | unspawned
  /-- inside the `for { select { ... } }` loop -/
  | running
  /-- returned; the deferred `wg.Done()` has run -/
  | returned
  deriving DecidableEq, Repr

/-- State of `cancelContextDemo` and of `nestedCancelDemo` as far as the
`WaitGroup` is concerned.  With `n` workers, `mainPc` counts the statements the
main goroutine has executed: `wg.Add(n)`, then the `n` `go` statements, then
`time.AfterFunc`, then `wg.Wait()`. -/
structure WgState where
  counter : Int
  mainPc : Nat
  workers : List WorkerPc
  /-- the callback of `time.AfterFunc` has called `cancel()` -/
  cancelled : Bool
  deriving DecidableEq, Repr

/-- State on entry of the demo, the `WaitGroup` at its zero value. -/
def wgInit (n : Nat) : WgState := ⟨0, 0, List.replicate n .unspawned, false⟩

/-- The goroutines of the demo.  A worker runs one iteration of its loop: `tick`
tells whether a tick of its ticker is waiting (`nestedWorker` only) and `pick`
is the pseudo-random pick of its `select`. -/
inductive WgActor where
  | main
  | timer
  | worker (i : Nat) (tick : Bool) (pick : Nat)
  deriving DecidableEq, Repr

/-- One step of a goroutine.  `nested` tells whether the workers run
`nestedWorker` (context/main.go 128-143) or `worker` (86-99); both return only
from the `ctx.Done()` branch, and their deferred `wg.Done()` runs then. -/
def wgStep (nested : Bool) (n : Nat) (s : WgState) : WgActor → Op WgState
  | .main =>
    if s.mainPc = 0 then
      -- wg.Add(n)
      (wgAdd s.counter n).bind (fun c => .done { s with counter := c, mainPc := 1 })
    else if s.mainPc ≤ n then
      -- go worker(ctx, &wg, ...)
      .done { s with workers := s.workers.set (s.mainPc - 1) .running, mainPc := s.mainPc + 1 }
    else if s.mainPc = n + 1 then
      -- time.AfterFunc(..., func() { cancel() })
      .done { s with mainPc := n + 2 }
    else if s.mainPc = n + 2 then
      -- wg.Wait()
      (wgWait s.counter).bind (fun _ => .done { s with mainPc := n + 3 })
    else .blocks
  | .timer =>
    if n + 2 ≤ s.mainPc ∧ s.cancelled = false then .done { s with cancelled := true }
    else .blocks
  | .worker i tick pick =>
    match s.workers[i]? with
    | some .running =>
      match (if nested then nestedWorkerSelect s.cancelled tick pick
             else workerSelect s.cancelled pick) with
      | .case 0 =>
        -- return; defer wg.Done()
        (wgDone s.counter).bind
          (fun c => .done { s with counter := c, workers := s.workers.set i .returned })
      | .parks => .blocks
      | _ => .done s
    | _ => .blocks

/-- Runs a schedule from a state. -/
def wgRun (nested : Bool) (n : Nat) (s : WgState) : List WgActor → Op WgState
  | [] => .done s
  | a :: rest => (wgStep nested n s a).bind (fun s1 => wgRun nested n s1 rest)

/-- Invariant of the `WaitGroup` of a demo with `n` workers. -/
structure WgInv (n : Nat) (s : WgState) : Prop where
  len : s.workers.length = n
  pcLe : s.mainPc ≤ n + 3
  later : ∀ i, i < n → s.mainPc ≤ i + 1 → s.workers[i]? = some .unspawned
  total : s.workers.count .unspawned + s.workers.count .running + s.workers.count .returned = n
  unspawned : s.workers.count .unspawned = n - (s.mainPc - 1)
  counter : s.counter = (if s.mainPc = 0 then 0 else (n : Int)) - s.workers.count .returned
  waited : s.mainPc = n + 3 → s.workers.count .returned = n

/-- What holds of the `WaitGroup` in a reachable state of a demo with `n`
workers: the counter is the number of workers announced by `wg.Add` minus the
number of workers that have returned, and is never negative; once every `go`
statement has run it is the number of workers that are running; `wg.Wait()` has
returned only if every worker has returned; a step of a worker changes the
counter only when the worker returns, by exactly one; and a worker that has
returned takes no further step. -/
def WgSafe (nested : Bool) (n : Nat) (s : WgState) : Prop :=
  0 ≤ s.counter ∧
  s.counter = (if s.mainPc = 0 then 0 else (n : Int)) - s.workers.count .returned ∧
  (n + 1 ≤ s.mainPc → s.counter = s.workers.count .running) ∧
  (s.mainPc = n + 3 → s.counter = 0 ∧ ∀ p ∈ s.workers, p = .returned) ∧
  (∀ i tick pick s1, wgStep nested n s (.worker i tick pick) = .done s1 →
    s.workers[i]? = some .running ∧
    ((s1.workers[i]? = some .returned ∧ s1.counter = s.counter - 1) ∨ s1 = s)) ∧
  (∀ i tick pick, s.workers[i]? = some .returned →
    wgStep nested n s (.worker i tick pick) = .blocks)

/-- A schedule of `nestedCancelDemo` that runs to the end: the main goroutine
up to `wg.Wait()`, the timer, each worker once, the main goroutine. -/
def wgNestedSchedule : List WgActor :=
  [.main, .main, .main, .main, .main, .timer,
   .worker 0 false 0, .worker 1 false 0, .worker 2 false 0, .main]

/-! ## Errors (`error/main.go`) -/

/-- A Go error value, by its dynamic type. -/
inductive GoError where
  /-- made by `errors.New`, and by `fmt.Errorf` when the format has no `%w` -/
  | errorString (s : String)
  /-- made by `fmt.Errorf` when the format has a `%w`, whose operand is `err` -/
  | wrapError (msg : String) (err : GoError)
  /-- returned by `os.Open`: operation, path and the underlying error -/
  | pathError (op : String) (path : String) (err : GoError)
  /-- an error number of the operating system -/
  | errno (msg : String)
  deriving DecidableEq, Repr

/-- The method `Error()`. -/
def GoError.Error : GoError → String
  | .errorString s => s
  | .wrapError msg _ => msg
  | .pathError op path err => op ++ " " ++ path ++ ": " ++ err.Error
  | .errno msg => msg

/-- The name of the dynamic type, as `%T` prints it. -/
def GoError.typeName : GoError → String
  | .errorString _ => "*errors.errorString"
  | .wrapError _ _ => "*fmt.wrapError"
  | .pathError _ _ _ => "*fs.PathError"
  | .errno _ => "syscall.Errno"

/-- Go `errors.Unwrap`: the result of the method `Unwrap() error` when the type
has one, else nil. -/
def Unwrap : GoError → Option GoError
  | .wrapError _ err => some err
  | .pathError _ _ err => some err
  | _ => none

/-- The chain of an error: the error, then what `Unwrap` gives, repeatedly. -/
def GoError.chain : GoError → List GoError
  | .errorString s => [.errorString s]
  | .wrapError msg err => .wrapError msg err :: err.chain
  | .pathError op path err => .pathError op path err :: err.chain
  | .errno msg => [.errno msg]

/-- Go `errors.Is`: whether some error of the chain equals the target.  Equality
of Go error values implies equality of type and contents, so a `false` here is a
`false` in Go. -/
def Is (err target : GoError) : Bool := err.chain.contains target

/-- The text `fmt.Errorf` prints for the operands left over when the format is
used up: `type=value`, separated by commas. -/
def extraOperands : List GoError → String
  | [] => ""
  | [e] => e.typeName ++ "=" ++ e.Error
  | e :: rest => e.typeName ++ "=" ++ e.Error ++ ", " ++ extraOperands rest

/-- The printing done by `fmt.Errorf` for error operands: the verbs `%v`, `%s`
and `%w` print the `Error()` of the next operand, `%w` recording it as wrapped;
`%%` prints a percent sign; a verb without operand prints `%!v(MISSING)`; any
other character is copied; operands left over are reported at the end as
`%!(EXTRA type=value)`.  Yields the text and the wrapped operands. -/
def doPrintf : List Char → List GoError → String × List GoError
  | [], [] => ("", [])
  | [], e :: rest => ("%!(EXTRA " ++ extraOperands (e :: rest) ++ ")", [])
  | '%' :: '%' :: fmt, args =>
    let r := doPrintf fmt args
    ("%" ++ r.1, r.2)
  | '%' :: verb :: fmt, args =>
    if verb = 'v' ∨ verb = 's' ∨ verb = 'w' then
      match args with
      | [] =>
        let r := doPrintf fmt []
        ("%!" ++ String.singleton verb ++ "(MISSING)" ++ r.1, r.2)
      | e :: rest =>
        let r := doPrintf fmt rest
        (e.Error ++ r.1, if verb = 'w' then e :: r.2 else r.2)
    else
      match args with
      | [] =>
        let r := doPrintf fmt []
        ("%!" ++ String.singleton verb ++ "(MISSING)" ++ r.1, r.2)
      | e :: rest =>
        let r := doPrintf fmt rest
        ("%!" ++ String.singleton verb ++ "(" ++ e.typeName ++ "=" ++ e.Error ++ ")" ++ r.1, r.2)
  | c :: fmt, args =>
    let r := doPrintf fmt args
    (String.singleton c ++ r.1, r.2)

/-- Go `fmt.Errorf` with error operands: an `errors.New` of the text when no
operand was wrapped by `%w`, a wrapping error when one was.  Formats with
several `%w` are left out (`none`). -/
def Errorf (format : String) (args : List GoError) : Option GoError :=
  match doPrintf format.toList args with
  | (s, []) => some (.errorString s)
  | (s, [e]) => some (.wrapError s e)
  | _ => none

/-- `demoError` (error/main.go 22-28). -/
def demoError : Option GoError :=
  Errorf "外层错误，%w" [.errorString "原始错误"]

/-- What `fileProcessor` does: the error it returns (`none` for nil), the names
it passed to `os.Open`, and whether the deferred `file.Close()` ran. -/
structure FileResult where
  err : Option GoError
  opened : List String
  closed : Bool
  deriving DecidableEq, Repr

/-- `fileProcessor` (error/main.go 92-105).  `osOpen` stands for the file
system: the error `os.Open` returns for a name, `none` when it succeeds. -/
def fileProcessor (osOpen : String → Option GoError) (filename : String) : FileResult :=
  if filename.utf8ByteSize = 0 then
    ⟨some (.errorString "文件名不能为空"), [], false⟩
  else
    match osOpen filename with
    | some err => ⟨Errorf "打开文件失败" [err], [filename], false⟩
    | none => ⟨none, [filename], true⟩

/-- A file system without the file: `os.Open` fails with "no such file or
directory". -/
def noSuchFile (name : String) : Option GoError :=
  some (.pathError "open" name (.errno "no such file or directory"))

/-! ## Generic queue and `FindMax` (`Generics/main.go`) -/

/-- The generic `Queue[T]` (Generics/main.go 88-90): its `items`, oldest first. -/
structure Queue (α : Type) where
  items : List α
  deriving DecidableEq, Repr

/-- `Queue.Enqueue` (92-94): `q.items = append(q.items, item)`. -/
def Queue.Enqueue {α : Type} (q : Queue α) (item : α) : Queue α :=
  ⟨q.items ++ [item]⟩

/-- `Queue.Dequeue` (96-104): the zero value of `T`, written `default`, on an
empty queue; otherwise `q.items[0]`, the queue keeping `q.items[1:]`.  Yields
the returned item and the queue afterwards. -/
def Queue.Dequeue {α : Type} [Inhabited α] (q : Queue α) : α × Queue α :=
  match q.items with
  | [] => (default, q)
  | item :: rest => (item, ⟨rest⟩)

/-- Enqueues the items of a list one after the other. -/
def Queue.enqueueAll {α : Type} (q : Queue α) : List α → Queue α
  | [] => q
  | x :: xs => (q.Enqueue x).enqueueAll xs

/-- Calls `Dequeue` `n` times, collecting the returned items in order. -/
def Queue.dequeueN {α : Type} [Inhabited α] (q : Queue α) : Nat → List α × Queue α
  | 0 => ([], q)
  | n + 1 =>
    let r := q.Dequeue
    let rest := r.2.dequeueN n
    (r.1 :: rest.1, rest.2)

/-- The type `Comparator[T]` (Generics/main.go 145): `func(a, b T) int`. -/
abbrev Comparator (α : Type) := α → α → Int

/-- The loop of `FindMax` (155-159): `max` is replaced by an item that compares
strictly greater. -/
def findMaxLoop {α : Type} (compare : Comparator α) : List α → α → α
  | [], max => max
  | item :: rest, max => findMaxLoop compare rest (if compare item max > 0 then item else max)

/-- `FindMax` (Generics/main.go 148-161): the zero value, written `default`, on
an empty slice; otherwise the loop over `items[1:]` starting from `items[0]`. -/
def FindMax {α : Type} [Inhabited α] (items : List α) (compare : Comparator α) : α :=
  match items with
  | [] => default
  | first :: rest => findMaxLoop compare rest first

/-- Go's `cmp.Compare` on an ordered type: -1, 0 or +1. -/
def cmpCompare {α : Type} [LT α] [DecidableRel (fun (a b : α) => a < b)] (a b : α) : Int :=
  if a < b then -1 else if b < a then 1 else 0

/-- A comparator that is a total preorder: any two values are comparable and
"not greater" is transitive. -/
structure TotalPreorder {α : Type} (compare : Comparator α) : Prop where
  total : ∀ a b, compare a b ≤ 0 ∨ compare b a ≤ 0
  trans : ∀ a b c, compare a b ≤ 0 → compare b c ≤ 0 → compare a c ≤ 0

/-! ## Push iterators and closures (`range/main.go`, `function/Closure.go`) -/

/-- Go's `int` on a 64-bit platform: the value an exact result wraps to. -/
def wrap64 (x : Int) : Int := (x + 9223372036854775808) % 18446744073709551616 - 9223372036854775808

/-- What a consumer saw of one call of an iterator: the consumer's state
afterwards, the values passed to `yield` in order, and whether the call ended
because `yield` returned false. -/
structure Pushed (σ α : Type) where
  consumer : σ
  passed : List α
  stopped : Bool
  deriving DecidableEq, Repr

/-- Puts a value in front of the values passed. -/
def Pushed.cons {σ α : Type} (x : α) (p : Pushed σ α) : Pushed σ α :=
  { p with passed := x :: p.passed }

/-- The body of a `for v := range seq` loop that never breaks and collects the
values, as `slices.Collect` does: `yield` always returns true. -/
def collect {α : Type} (acc : List α) (x : α) : List α × Bool := (acc ++ [x], true)

/-- The type `CustomIterator[T]` (range/main.go 152-154). -/
structure CustomIterator (α : Type) where
  data : List α
  deriving DecidableEq, Repr

/-- `NewCustomIterator` (156-158). -/
def NewCustomIterator {α : Type} (data : List α) : CustomIterator α := ⟨data⟩

/-- The loop `for _, item := range data { if !yield(item) { return } }`. -/
def seqLoop {σ α : Type} (yield : σ → α → σ × Bool) : List α → σ → Pushed σ α
  | [], c => ⟨c, [], false⟩
  | item :: rest, c =>
    if (yield c item).2 then (seqLoop yield rest (yield c item).1).cons item
    else ⟨(yield c item).1, [item], true⟩

/-- `CustomIterator.Seq` (161-169): the iterator called with a `yield` whose
state is `c`. -/
def CustomIterator.Seq {σ α : Type} (ci : CustomIterator α) (yield : σ → α → σ × Bool)
    (c : σ) : Pushed σ α :=
  seqLoop yield ci.data c

/-- The loop of `Filter` (174-180). -/
def filterLoop {σ α : Type} (predicate : α → Bool) (yield : σ → α → σ × Bool) :
    List α → σ → Pushed σ α
  | [], c => ⟨c, [], false⟩
  | item :: rest, c =>
    if predicate item then
      if (yield c item).2 then (filterLoop predicate yield rest (yield c item).1).cons item
      else ⟨(yield c item).1, [item], true⟩
    else filterLoop predicate yield rest c

/-- `CustomIterator.Filter` (172-182): the iterator called with a `yield` whose
state is `c`. -/
def CustomIterator.Filter {σ α : Type} (ci : CustomIterator α) (predicate : α → Bool)
    (yield : σ → α → σ × Bool) (c : σ) : Pushed σ α :=
  filterLoop predicate yield ci.data c

/-- The variables `n`, `a`, `b` captured by the function that `Fibonacci(n)`
returns; they outlive each call of that function. -/
structure FibSeq where
  n : Int
  a : Int
  b : Int
  deriving DecidableEq, Repr

/-- `Fibonacci` (range/main.go 31-41) up to the `return`: `a, b := 0, 1`. -/
def Fibonacci (n : Int) : FibSeq := ⟨n, 0, 1⟩

/-- The loop of the function returned by `Fibonacci` with `k` iterations left:
`if !yield(a) { return }; a, b = b, a+b`. -/
def FibSeq.loop {σ : Type} (yield : σ → Int → σ × Bool) : Nat → FibSeq → σ → FibSeq × Pushed σ Int
  | 0, s, c => (s, ⟨c, [], false⟩)
  | k + 1, s, c =>
    if (yield c s.a).2 then
      let r := FibSeq.loop yield k { s with a := s.b, b := wrap64 (s.a + s.b) } (yield c s.a).1
      (r.1, r.2.cons s.a)
    else (s, ⟨(yield c s.a).1, [s.a], true⟩)

/-- One call of the function returned by `Fibonacci`: `for i := 0; i < n; i++`
makes `max(n, 0)` iterations.  Yields the captured variables afterwards and what
the consumer saw. -/
def FibSeq.run {σ : Type} (s : FibSeq) (yield : σ → Int → σ × Bool) (c : σ) :
    FibSeq × Pushed σ Int :=
  FibSeq.loop yield s.n.toNat s c

/-- The variables `n`, `a`, `b`, `c` captured by the function that
`Fibonaccii(n)` returns. -/
structure FibSeq3 where
  n : Int
  a : Int
  b : Int
  c : Int
  deriving DecidableEq, Repr

/-- `Fibonaccii` (range/main.go 14-25) up to the `return`: `a, b, c := 0, 1, 1`. -/
def Fibonaccii (n : Int) : FibSeq3 := ⟨n, 0, 1, 1⟩

/-- The loop of the function returned by `Fibonaccii` with `k` iterations left:
`if !yield(a) { return }; a, b = b, c; c = a + b`. -/
def FibSeq3.loop {σ : Type} (yield : σ → Int → σ × Bool) :
    Nat → FibSeq3 → σ → FibSeq3 × Pushed σ Int
  | 0, s, c => (s, ⟨c, [], false⟩)
  | k + 1, s, c =>
    if (yield c s.a).2 then
      let r := FibSeq3.loop yield k { s with a := s.b, b := s.c, c := wrap64 (s.b + s.c) }
        (yield c s.a).1
      (r.1, r.2.cons s.a)
    else (s, ⟨(yield c s.a).1, [s.a], true⟩)

/-- One call of the function returned by `Fibonaccii`: `for range n` makes
`max(n, 0)` iterations. -/
def FibSeq3.run {σ : Type} (s : FibSeq3) (yield : σ → Int → σ × Bool) (c : σ) :
    FibSeq3 × Pushed σ Int :=
  FibSeq3.loop yield s.n.toNat s c

/-- A closure returned by `Exp` (function/Closure.go 15-26): the captured `n`
and the heap cell that holds its captured variable `e`. -/
structure ExpClosure where
  n : Int
  cell : Nat
  deriving DecidableEq, Repr

/-- `Exp(n)`: allocates a fresh variable `e := 1` on the heap and returns the
closure over it. -/
def Exp (heap : List Int) (n : Int) : ExpClosure × List Int :=
  (⟨n, heap.length⟩, heap ++ [1])

/-- One call of the closure: `temp := e; e *= n; return temp`. -/
def ExpClosure.call (f : ExpClosure) (heap : List Int) : Int × List Int :=
  (heap.getD f.cell 0, heap.set f.cell (wrap64 (heap.getD f.cell 0 * f.n)))

/-- Calls the closure `k` times in a row, collecting the results. -/
def ExpClosure.callN (f : ExpClosure) : Nat → List Int → List Int × List Int
  | 0, heap => ([], heap)
  | k + 1, heap =>
    let r := f.call heap
    let rest := f.callN k r.2
    (r.1 :: rest.1, rest.2)

/-- A program that makes `f := Exp(n1)` and `g := Exp(n2)` and then calls them
in the order given by `sched` (`true`: a call of `f`, `false`: a call of `g`).
Yields the results of the calls of `f` and of the calls of `g`. -/
def expTwoLoop (f g : ExpClosure) : List Bool → List Int → List Int × List Int
  | [], _ => ([], [])
  | true :: rest, heap =>
    let r := f.call heap
    let out := expTwoLoop f g rest r.2
    (r.1 :: out.1, out.2)
  | false :: rest, heap =>
    let r := g.call heap
    let out := expTwoLoop f g rest r.2
    (out.1, r.1 :: out.2)

/-- The program of `expTwoLoop` from the two calls of `Exp` on. -/
def expTwo (n1 n2 : Int) (sched : List Bool) : List Int × List Int :=
  let f := Exp [] n1
  let g := Exp f.2 n2
  expTwoLoop f.1 g.1 sched g.2

/-! ## A channel as a lock (`channelAsSyncTool`, channnel/main.go 196-215) -/

/-- Program points of one of the five goroutines of section 7.2. -/
inductive LockPc where
  /-- about to run `lock <- struct{}{}` -/
  | start
  /-- holds the lock, about to run `old := counter` -/
  | locked
  /-- holds the lock with `old` read, sleeping, about to run `counter = old + 1` -/
  | read (old : Int)
  /-- holds the lock, printed its line, about to run `<-lock` -/
  | written
  /-- returned -/
  | finished
  deriving DecidableEq, Repr

/-- Program points between `lock <- struct{}{}` and `<-lock`. -/
def LockPc.holds : LockPc → Bool
  | .locked => true
  | .read _ => true
  | .written => true
  | _ => false

/-- Program points after `counter = old + 1`. -/
def LockPc.incremented : LockPc → Bool
  | .written => true
  | .finished => true
  | _ => false

/-- State of section 7.2 while the main goroutine sleeps: the shared `counter`,
the channel `lock` (its values, of type `struct{}`, are written 0) and the
program points of the goroutines. -/
structure LockState where
  counter : Int
  lock : Chan
  pcs : List LockPc
  deriving DecidableEq, Repr

/-- State when the five goroutines have been started: `counter` is 0 and `lock`
is `make(chan struct{}, 1)`. -/
def lockInit : LockState := ⟨0, makeChan 1, List.replicate 5 .start⟩

/-- One statement of goroutine `i` (channnel/main.go 203-210). -/
def lockStep (s : LockState) (i : Nat) : Op LockState :=
  match s.pcs[i]? with
  | some .start =>
    -- lock <- struct{}{}
    (send s.lock 0).bind (fun ch => .done { s with lock := ch, pcs := s.pcs.set i .locked })
  | some .locked =>
    -- old := counter
    .done { s with pcs := s.pcs.set i (.read s.counter) }
  | some (.read old) =>
    -- time.Sleep(10ms); counter = old + 1
    .done { s with counter := wrap64 (old + 1), pcs := s.pcs.set i .written }
  | some .written =>
    -- <-lock
    (recv s.lock).bind (fun r => .done { s with lock := r.2, pcs := s.pcs.set i .finished })
  | some .finished => .blocks
  | none => .blocks

/-- Runs a schedule of goroutine indices from a state. -/
def lockRun (s : LockState) : List Nat → Op LockState
  | [] => .done s
  | i :: rest => (lockStep s i).bind (fun s1 => lockRun s1 rest)

/-- Invariant of section 7.2. -/
structure LockInv (s : LockState) : Prop where
  len : s.pcs.length = 5
  cap : s.lock.cap = 1
  isOpen : s.lock.closed = false
  holders : s.pcs.countP LockPc.holds = s.lock.buf.length
  atMostOne : s.lock.buf.length ≤ 1
  count : s.counter = s.pcs.countP LockPc.incremented
  fresh : ∀ (i : Nat) (old : Int), s.pcs[i]? = some (.read old) → old = s.counter
  nosend : s.lock.sendq = []

/-- A schedule in which the goroutines run one after the other, four
statements each. -/
def lockSequentialSchedule : List Nat :=
  [0, 0, 0, 0, 1, 1, 1, 1, 2, 2, 2, 2, 3, 3, 3, 3, 4, 4, 4, 4]

/-- A schedule in which goroutine 1 tries to take the lock while goroutine 0
holds it. -/
def lockContendedSchedule : List Nat := [0, 0, 1]

/-! # Theorems -/

/-! ## Channels -/

@[simp] theorem bind_done {α β : Type} (a : α) (f : α → Op β) : (Op.done a).bind f = f a := rfl

@[simp] theorem bind_blocks {α β : Type} (f : α → Op β) : (Op.blocks).bind f = .blocks := rfl

@[simp] theorem bind_panics {α β : Type} (f : α → Op β) : (Op.panics).bind f = .panics := rfl

theorem sendAll_fits (xs : List Int) : ∀ (ch : Chan), ch.closed = false →
    ch.buf.length + xs.length ≤ ch.cap →
    sendAll ch xs = .done { ch with buf := ch.buf ++ xs } := by
  induction xs with
  | nil => intro ch _ _; simp [sendAll]
  | cons v vs ih =>
    intro ch hc hl
    simp only [List.length_cons] at hl
    have hlt : ch.buf.length < ch.cap := by omega
    have h := ih { ch with buf := ch.buf ++ [v] } hc (by simp; omega)
    simp only [hc, List.append_assoc, List.singleton_append] at h
    simp [sendAll, send, hc, hlt, h]

theorem recv_unparked (ch : Chan) (hq : ch.sendq = []) :
    recv ch = match ch.buf with
      | v :: rest => .done ((v, true), { ch with buf := rest })
      | [] => if ch.closed then .done ((0, false), ch) else .blocks := by
  obtain ⟨c, buf, cl, q⟩ := ch
  simp only at hq
  subst hq
  cases cl <;> cases buf <;> simp [recv]

theorem recvN_buffered (xs : List Int) : ∀ (c : Nat) (rest : List Int) (cl : Bool),
    recvN ⟨c, xs ++ rest, cl, []⟩ xs.length
      = .done (xs.map (fun v => (v, true)), ⟨c, rest, cl, []⟩) := by
  induction xs with
  | nil => intro c rest cl; simp [recvN]
  | cons v vs ih =>
    intro c rest cl
    cases cl <;> simp [recvN, recv, Op.bind, ih]

theorem recvN_drained (c : Nat) : ∀ (m : Nat),
    recvN ⟨c, [], true, []⟩ m = .done (List.replicate m (0, false), ⟨c, [], true, []⟩) := by
  intro m
  induction m with
  | zero => simp [recvN]
  | succ m ih => simp [recvN, recv, Op.bind, ih, List.replicate_succ]

theorem recvN_add (n m : Nat) : ∀ (ch mid : Chan) (r1 : List (Int × Bool)),
    recvN ch n = .done (r1, mid) →
    recvN ch (n + m) = (recvN mid m).bind (fun rs => .done (r1 ++ rs.1, rs.2)) := by
  induction n with
  | zero =>
    intro ch mid r1 h
    simp only [recvN, Op.done.injEq, Prod.mk.injEq] at h
    obtain ⟨h1, h2⟩ := h
    subst h1; subst h2
    cases hr : recvN ch m <;> simp [Op.bind, hr]
  | succ n ih =>
    intro ch mid r1 h
    rw [Nat.add_right_comm]
    simp only [recvN] at h ⊢
    cases hr : recv ch with
    | blocks => simp [hr, Op.bind] at h
    | panics => simp [hr, Op.bind] at h
    | done r =>
      simp only [hr, Op.bind] at h ⊢
      cases hn : recvN r.2 n with
      | blocks => simp [hn, Op.bind] at h
      | panics => simp [hn, Op.bind] at h
      | done rs =>
        simp only [hn, Op.bind, Op.done.injEq, Prod.mk.injEq] at h
        obtain ⟨h1, h2⟩ := h
        subst h1; subst h2
        rw [ih r.2 rs.2 rs.1 (by rw [hn])]
        cases hm : recvN rs.2 m <;> simp [Op.bind]

/-- C1. Buffered channel FIFO: `k ≤ C` values sent in order to an empty open
channel of capacity `C > 0` all complete, and the next `k` receives return
exactly those values in the order sent, each with `ok = true`.  In
`bufferedChannelDemo` the printed length and capacity are 3 and 3 and the three
receives yield 1, 2, 3. -/
theorem buffered_channel_fifo :
    (∀ (C : Nat) (xs : List Int), 0 < C → xs.length ≤ C →
      ∃ ch, sendAll (makeChan C) xs = .done ch ∧ ch.len = xs.length ∧ ch.cap = C ∧
        recvN ch xs.length = .done (xs.map (fun v => (v, true)), makeChan C)) ∧
    bufferedChannelDemo = .done (⟨3, 3, [1, 2, 3]⟩, ⟨3, [], true, []⟩) := by
  refine ⟨?_, by decide⟩
  intro C xs _ hk
  refine ⟨⟨C, xs, false, []⟩, ?_, rfl, rfl, ?_⟩
  · rw [sendAll_fits xs (makeChan C) rfl (by simpa [makeChan] using hk)]
    simp [makeChan]
  · have h := recvN_buffered xs C [] false
    simpa [makeChan] using h

/-- Witness of C1 at capacity 4 and the values 7, 8, 9. -/
theorem buffered_channel_fifo_witness :
    ∃ ch, sendAll (makeChan 4) [7, 8, 9] = .done ch ∧ ch.len = 3 ∧ ch.cap = 4 ∧
      recvN ch 3 = .done ([(7, true), (8, true), (9, true)], makeChan 4) :=
  buffered_channel_fifo.1 4 [7, 8, 9] (by decide) (by decide)

theorem rangeInv_init : RangeInv rangeInit 0 := by
  constructor <;> simp [rangeInit, makeChan]

theorem rangeInv_length {s : RangeState} {n : Nat} (h : RangeInv s n) :
    s.out.length + s.ch.buf.length = s.i := by
  have := congrArg List.length h.fifo
  simpa using this

theorem rangeInv_step {s : RangeState} {n : Nat} (h : RangeInv s n) (a : RangeActor) :
    match rangeStep s a with
    | .done s1 => RangeInv s1 (n + 1)
    | .blocks => True
    | .panics => False := by
  have hlen := rangeInv_length h
  obtain ⟨hcap, hb, hf, hc, hs, he, hn, hq⟩ := h
  cases a with
  | sender =>
    unfold rangeStep
    cases hsd : s.senderDone with
    | true => simp
    | false =>
      rw [hsd] at hc
      have hmd : s.mainDone = false := by
        cases hm : s.mainDone with
        | false => rfl
        | true => have := (he hm).1; simp [hsd] at this
      simp only [hsd, hmd, Bool.false_eq_true, if_false, Nat.add_zero] at hn
      by_cases hi : s.i < 5
      · have hroom : s.ch.buf.length < s.ch.cap := by omega
        simp only [Bool.false_eq_true, if_false, hi, if_true, send, hc, hroom, bind_done]
        constructor
        · simpa using hcap
        · simp only; omega
        · simp only [← List.append_assoc, hf, List.range_succ, List.map_append,
            List.map_cons, List.map_nil]
        · simp
        · simp
        · simp [hmd]
        · simp only [hmd, Bool.false_eq_true, if_false]; omega
        · simpa using hq
      · have hi5 : s.i = 5 := by omega
        simp only [Bool.false_eq_true, if_false, hi, close, hc, bind_done]
        constructor
        · simpa using hcap
        · simpa using hb
        · simpa using hf
        · simp
        · simpa using hi5
        · simp [hmd]
        · simp only [hmd, Bool.false_eq_true, if_false, if_true]; omega
        · simp
  | main =>
    unfold rangeStep
    cases hmd : s.mainDone with
    | true => simp
    | false =>
      simp only [hmd, Bool.false_eq_true, if_false, Nat.add_zero] at hn
      simp only [Bool.false_eq_true, if_false, recv_unparked s.ch hq]
      cases hbuf : s.ch.buf with
      | cons v rest =>
        simp only [bind_done, if_true]
        rw [hbuf] at hf hlen
        constructor
        · simpa using hcap
        · simpa using hb
        · simpa using hf
        · simpa using hc
        · simpa using hs
        · simp
        · simp only [List.length_append, List.length_singleton, Bool.false_eq_true, if_false]
          omega
        · simpa using hq
      | nil =>
        cases hcl : s.ch.closed with
        | false => simp
        | true =>
          simp only [if_true, bind_done, Bool.false_eq_true, if_false]
          rw [hcl] at hc
          constructor
          · simpa using hcap
          · simpa using hb
          · simpa using hf
          · simpa [hcl] using hc
          · simpa using hs
          · simp [hbuf, ← hc]
          · simp only [if_true]; omega
          · simpa using hq

theorem rangeInv_run (sched : List RangeActor) : ∀ (s : RangeState) (n : Nat), RangeInv s n →
    match rangeRun s sched with
    | .done s1 => RangeInv s1 (n + sched.length)
    | .blocks => True
    | .panics => False := by
  induction sched with
  | nil => intro s n h; simpa [rangeRun] using h
  | cons a rest ih =>
    intro s n h
    have hstep := rangeInv_step h a
    simp only [rangeRun]
    cases hr : rangeStep s a with
    | blocks => simp
    | panics => simp [hr] at hstep
    | done s1 =>
      simp only [hr] at hstep
      have := ih s1 (n + 1) hstep
      simp only [bind_done, List.length_cons]
      rw [show n + (rest.length + 1) = n + 1 + rest.length by omega]
      exact this

theorem rangeInv_progress {s : RangeState} {n : Nat} (h : RangeInv s n)
    (hm : s.mainDone = false) : ∃ a s1, rangeStep s a = .done s1 := by
  have hlen := rangeInv_length h
  obtain ⟨hcap, hb, hf, hc, hs, he, hn, hq⟩ := h
  cases hbuf : s.ch.buf with
  | cons v rest =>
    exact ⟨.main, _, by simp [rangeStep, hm, recv_unparked s.ch hq, hbuf]; rfl⟩
  | nil =>
    cases hsd : s.senderDone with
    | true =>
      rw [hsd] at hc
      exact ⟨.main, _, by simp [rangeStep, hm, recv_unparked s.ch hq, hbuf, hc]; rfl⟩
    | false =>
      rw [hsd] at hc
      rw [hbuf] at hlen
      by_cases hi : s.i < 5
      · have hroom : s.ch.buf.length < s.ch.cap := by rw [hbuf, hcap]; simp
        exact ⟨.sender, _, by simp [rangeStep, hsd, hi, send, hc, hroom]; rfl⟩
      · exact ⟨.sender, _, by simp [rangeStep, hsd, hi, close, hc]; rfl⟩

/-- C2. Close-drain: closing an open channel keeps its buffered items; the
receives after the close return each of them in FIFO order with `ok = true`, and
every later receive returns `(0, false)`.  In section 6.2 of `channelRangeDemo`
the four receives give (1,true), (2,true), (0,false), (0,false).  In section
6.1, in every interleaving of the sender and the `range` loop: nothing panics,
the values printed so far are an initial part of 0,1,2,3,4, the run has at most
12 steps, some goroutine can step as long as the loop has not ended, and when
the loop has ended exactly 0,1,2,3,4 were printed. -/
theorem close_drain :
    (∀ (ch : Chan) (m : Nat), ch.closed = false →
      ∃ ch1, close ch = .done ch1 ∧ ch1.buf = ch.buf ∧
        recvN ch1 (ch.buf.length + m)
          = .done (ch.buf.map (fun v => (v, true)) ++ List.replicate m (0, false),
                   ⟨ch.cap, [], true, []⟩)) ∧
    channelRangeDemoClosed
      = .done ([(1, true), (2, true), (0, false), (0, false)], ⟨3, [], true, []⟩) ∧
    (∀ sched : List RangeActor,
      match rangeRun rangeInit sched with
      | .panics => False
      | .blocks => True
      | .done s =>
        (∃ rest, s.out ++ rest = [0, 1, 2, 3, 4]) ∧
        (s.mainDone = true → s.out = [0, 1, 2, 3, 4]) ∧
        sched.length ≤ 12 ∧
        (s.mainDone = false → ∃ a s1, rangeStep s a = .done s1)) := by
  refine ⟨?_, by decide, ?_⟩
  · intro ch m hc
    refine ⟨{ ch with closed := true, sendq := [] }, by simp [close, hc], rfl, ?_⟩
    have h1 := recvN_buffered ch.buf ch.cap [] true
    simp only [List.append_nil] at h1
    rw [recvN_add _ _ _ _ _ h1, recvN_drained]
    simp
  · intro sched
    have h := rangeInv_run sched rangeInit 0 rangeInv_init
    cases hr : rangeRun rangeInit sched with
    | panics => simp [hr] at h
    | blocks => trivial
    | done s =>
      simp only [hr, Nat.zero_add] at h
      have hlen := rangeInv_length h
      have hprog := fun hm => rangeInv_progress h hm
      obtain ⟨hcap, hb, hf, hc, hs, he, hn, hq⟩ := h
      have hrange : ∀ k, k ≤ 5 → ∃ rest : List Int,
          (List.range k).map Int.ofNat ++ rest = [0, 1, 2, 3, 4] := by
        intro k hk
        interval_cases k
        · exact ⟨[0, 1, 2, 3, 4], by decide⟩
        · exact ⟨[1, 2, 3, 4], by decide⟩
        · exact ⟨[2, 3, 4], by decide⟩
        · exact ⟨[3, 4], by decide⟩
        · exact ⟨[4], by decide⟩
        · exact ⟨[], by decide⟩
      refine ⟨?_, ?_, ?_, hprog⟩
      · obtain ⟨rest, hrest⟩ := hrange s.i hb
        refine ⟨s.ch.buf ++ rest, ?_⟩
        rw [← List.append_assoc, hf]
        exact hrest
      · intro hm
        obtain ⟨hsd, hbuf⟩ := he hm
        have hi := hs hsd
        rw [hbuf, List.append_nil, hi] at hf
        rw [hf]
        decide
      · have : s.out.length ≤ 5 := by omega
        rw [hn]
        split <;> split <;> omega

/-- Witness of C2: a channel holding 5, 6 is closed and read three times. -/
theorem close_drain_witness :
    ∃ ch1, close ⟨2, [5, 6], false, []⟩ = .done ch1 ∧ ch1.buf = [5, 6] ∧
      recvN ch1 (2 + 1) = .done ([(5, true), (6, true), (0, false)], ⟨2, [], true, []⟩) :=
  close_drain.1 ⟨2, [5, 6], false, []⟩ 1 rfl

theorem condInv_init (capacity : Nat) : CondInv capacity condInit := by
  constructor <;> simp [condInit, Pc.holds, Pc.extra]

theorem wakeAll_holds (pc : Gor → Pc) (h : Gor) : (wakeAll pc h).holds = (pc h).holds := by
  unfold wakeAll
  split
  · rename_i hw; rw [hw]; rfl
  · rfl

theorem wakeAll_extra (pc : Gor → Pc) (h : Gor) : (wakeAll pc h).extra = (pc h).extra := by
  unfold wakeAll
  split
  · rename_i hw; rw [hw]; rfl
  · rfl

theorem wakeAll_finished (pc : Gor → Pc) (h : Gor) : wakeAll pc h = .finished ↔ pc h = .finished := by
  unfold wakeAll
  split
  · rename_i hw; rw [hw]; simp
  · rfl

theorem wakeAll_body (pc : Gor → Pc) (h : Gor) : wakeAll pc h = .body ↔ pc h = .body := by
  unfold wakeAll
  split
  · rename_i hw; rw [hw]; simp
  · rfl

/-- Moving a goroutine between two program points that do not hold the lock
and have the same counters keeps the invariant. -/
theorem condInv_goto_free {capacity : Nat} {s : CondState} (h : CondInv capacity s) (g : Gor)
    (p : Pc) (hp : p.holds = false) (hq : (s.pc g).holds = false)
    (he : p.extra = (s.pc g).extra) (hf : p ≠ .finished) (hf2 : s.pc g ≠ .finished) :
    CondInv capacity (s.goto g p) := by
  obtain ⟨h1, h2, h3, h4, h5, h6, h7, h8, h9, h10⟩ := h
  have hb : p ≠ .body := by intro hb; rw [hb] at hp; simp [Pc.holds] at hp
  constructor
  · intro a b ha hb'
    simp only [CondState.goto, Function.update_apply] at ha hb'
    split at ha
    · rw [hp] at ha; simp at ha
    · split at hb'
      · rw [hp] at hb'; simp at hb'
      · exact h1 a b ha hb'
  · simp only [CondState.goto]
    rw [h2]
    constructor
    · rintro ⟨a, ha⟩
      refine ⟨a, ?_⟩
      have : a ≠ g := by rintro rfl; rw [hq] at ha; simp at ha
      simpa [Function.update_apply, this] using ha
    · rintro ⟨a, ha⟩
      refine ⟨a, ?_⟩
      simp only [Function.update_apply] at ha
      split at ha
      · rw [hp] at ha; simp at ha
      · exact ha
  · exact h3
  · intro a ha hpa
    simp only [CondState.goto, Function.update_apply] at hpa
    split at hpa
    · exact absurd hpa hb
    · exact h4 a ha hpa
  · intro a ha hpa
    simp only [CondState.goto, Function.update_apply] at hpa
    split at hpa
    · exact absurd hpa hb
    · exact h5 a ha hpa
  · exact h6
  · intro a
    have hx : (Function.update s.pc g p a).extra = (s.pc a).extra := by
      by_cases hag : a = g
      · subst hag; simp [he]
      · simp [Function.update_apply, hag]
    simp only [CondState.goto, hx]
    exact h7 a
  · intro a
    have hx : (Function.update s.pc g p a).extra = (s.pc a).extra := by
      by_cases hag : a = g
      · subst hag; simp [he]
      · simp [Function.update_apply, hag]
    simp only [CondState.goto, hx]
    exact h8 a
  · intro a hpa
    simp only [CondState.goto, Function.update_apply] at hpa
    split at hpa
    · exact absurd hpa hf
    · exact h9 a hpa
  · intro a hpa
    simp only [CondState.goto, Function.update_apply] at hpa ⊢
    split at hpa
    · rename_i hag; subst hag; exact h10 a hf2
    · exact h10 a hpa

/-- `cond.L.Lock()` succeeding, at the top of the loop body or inside `Wait`. -/
theorem condInv_acquire {capacity : Nat} {s : CondState} (h : CondInv capacity s) (g : Gor)
    (hl : s.locked = false) (hq : (s.pc g).holds = false) (he : (s.pc g).extra = 0)
    (hf2 : s.pc g ≠ .finished) :
    CondInv capacity ({ s with locked := true }.goto g .check) := by
  obtain ⟨h1, h2, h3, h4, h5, h6, h7, h8, h9, h10⟩ := h
  have hnone : ∀ a, (s.pc a).holds = false := by
    intro a
    cases hh : (s.pc a).holds with
    | false => rfl
    | true => have := h2.2 ⟨a, hh⟩; rw [hl] at this; simp at this
  have hex : ∀ a, (Function.update s.pc g Pc.check a).extra = (s.pc a).extra := by
    intro a
    by_cases hag : a = g
    · subst hag; simp only [Function.update_same]; rw [he]; rfl
    · simp [Function.update_apply, hag]
  have hnb : ∀ a, Function.update s.pc g Pc.check a = .body → s.pc a = .body := by
    intro a ha
    by_cases hag : a = g
    · subst hag; simp at ha
    · simpa [Function.update_apply, hag] using ha
  constructor
  · intro a b ha hb
    simp only [CondState.goto, Function.update_apply] at ha hb
    split at ha
    · split at hb
      · rename_i x y; rw [x, y]
      · rw [hnone b] at hb; simp at hb
    · rw [hnone a] at ha; simp at ha
  · simp only [CondState.goto, true_iff]
    exact ⟨g, by simp [Pc.holds]⟩
  · exact h3
  · intro a ha hpa
    exact h4 a ha (hnb a hpa)
  · intro a ha hpa
    exact h5 a ha (hnb a hpa)
  · exact h6
  · intro a
    simp only [CondState.goto, hex]
    exact h7 a
  · intro a
    simp only [CondState.goto, hex]
    exact h8 a
  · intro a hpa
    simp only [CondState.goto, Function.update_apply] at hpa
    split at hpa
    · simp at hpa
    · exact h9 a hpa
  · intro a hpa
    simp only [CondState.goto, Function.update_apply] at hpa ⊢
    split at hpa
    · rename_i hag; subst hag; exact h10 a hf2
    · exact h10 a hpa

/-- The lock holder gives the lock up: `cond.Wait()` parking (`check` to
`waiting`) or `cond.L.Unlock()` (`unlock` to `bcast`). -/
theorem condInv_release {capacity : Nat} {s : CondState} (h : CondInv capacity s) (g : Gor)
    (p : Pc) (hq : (s.pc g).holds = true) (hp : p.holds = false)
    (he : p.extra = (s.pc g).extra) (hf : p ≠ .finished) (hf2 : s.pc g ≠ .finished) :
    CondInv capacity ({ s with locked := false }.goto g p) := by
  obtain ⟨h1, h2, h3, h4, h5, h6, h7, h8, h9, h10⟩ := h
  have hb : p ≠ .body := by intro hb; rw [hb] at hp; simp [Pc.holds] at hp
  have hnone : ∀ a, (Function.update s.pc g p a).holds = false := by
    intro a
    by_cases hag : a = g
    · subst hag; simp [hp]
    · simp only [Function.update_apply, hag, if_false]
      cases hh : (s.pc a).holds with
      | false => rfl
      | true => exact absurd (h1 a g hh hq) hag
  have hex : ∀ a, (Function.update s.pc g p a).extra = (s.pc a).extra := by
    intro a
    by_cases hag : a = g
    · subst hag; simp [he]
    · simp [Function.update_apply, hag]
  have hnb : ∀ a, Function.update s.pc g p a ≠ .body := by
    intro a ha
    have := hnone a
    rw [ha] at this
    simp [Pc.holds] at this
  constructor
  · intro a b ha _
    simp only [CondState.goto] at ha
    rw [hnone a] at ha; simp at ha
  · simp only [CondState.goto, Bool.false_eq_true, false_iff, not_exists]
    intro a
    rw [hnone a]; simp
  · exact h3
  · intro a _ hpa
    exact absurd hpa (hnb a)
  · intro a _ hpa
    exact absurd hpa (hnb a)
  · exact h6
  · intro a
    simp only [CondState.goto, hex]
    exact h7 a
  · intro a
    simp only [CondState.goto, hex]
    exact h8 a
  · intro a hpa
    simp only [CondState.goto, Function.update_apply] at hpa
    split at hpa
    · exact absurd hpa hf
    · exact h9 a hpa
  · intro a hpa
    simp only [CondState.goto, Function.update_apply] at hpa ⊢
    split at hpa
    · rename_i hag; subst hag; exact h10 a hf2
    · exact h10 a hpa

/-- Leaving the wait loop: the condition was just found false under the lock. -/
theorem condInv_enter {capacity : Nat} {s : CondState} (h : CondInv capacity s) (g : Gor)
    (hpc : s.pc g = .check)
    (hprod : g.isProducer = true → s.queue.length < capacity)
    (hcons : g.isProducer = false → s.queue ≠ []) :
    CondInv capacity (s.goto g .body) := by
  obtain ⟨h1, h2, h3, h4, h5, h6, h7, h8, h9, h10⟩ := h
  have hq : (s.pc g).holds = true := by rw [hpc]; rfl
  have hho : ∀ a, (Function.update s.pc g Pc.body a).holds = (s.pc a).holds := by
    intro a
    by_cases hag : a = g
    · subst hag; simp only [Function.update_same]; rw [hq]; rfl
    · simp [Function.update_apply, hag]
  have hex : ∀ a, (Function.update s.pc g Pc.body a).extra = (s.pc a).extra := by
    intro a
    by_cases hag : a = g
    · subst hag; simp only [Function.update_same]; rw [hpc]; rfl
    · simp [Function.update_apply, hag]
  have honly : ∀ a, Function.update s.pc g Pc.body a = .body → a = g := by
    intro a ha
    have := hho a
    rw [ha] at this
    exact h1 a g (by rw [← this]; rfl) hq
  constructor
  · intro a b ha hb
    simp only [CondState.goto, hho] at ha hb
    exact h1 a b ha hb
  · simp only [CondState.goto, hho]
    exact h2
  · exact h3
  · intro a ha hpa
    have := honly a hpa
    subst this
    exact hprod ha
  · intro a ha hpa
    have := honly a hpa
    subst this
    exact hcons ha
  · exact h6
  · intro a
    simp only [CondState.goto, hex]
    exact h7 a
  · intro a
    simp only [CondState.goto, hex]
    exact h8 a
  · intro a hpa
    simp only [CondState.goto, Function.update_apply] at hpa
    split at hpa
    · simp at hpa
    · exact h9 a hpa
  · intro a hpa
    simp only [CondState.goto, Function.update_apply] at hpa ⊢
    split at hpa
    · rename_i hag; subst hag; exact h10 a (by rw [hpc]; simp)
    · exact h10 a hpa

/-- The append of `producer`. -/
theorem condInv_produce {capacity : Nat} {s : CondState} (h : CondInv capacity s) (g : Gor)
    (hpc : s.pc g = .body) (hg : g.isProducer = true) :
    CondInv capacity ({ s with queue := s.queue ++ [(s.iter g : Int)],
                               produced := s.produced ++ [(g, (s.iter g : Int))] }.goto g .unlock) := by
  obtain ⟨h1, h2, h3, h4, h5, h6, h7, h8, h9, h10⟩ := h
  have hq : (s.pc g).holds = true := by rw [hpc]; rfl
  have hho : ∀ a, (Function.update s.pc g Pc.unlock a).holds = (s.pc a).holds := by
    intro a
    by_cases hag : a = g
    · subst hag; simp only [Function.update_same]; rw [hq]; rfl
    · simp [Function.update_apply, hag]
  have hnb : ∀ a, Function.update s.pc g Pc.unlock a ≠ .body := by
    intro a ha
    by_cases hag : a = g
    · subst hag; simp at ha
    · simp only [Function.update_apply, hag, if_false] at ha
      exact hag (h1 a g (by rw [ha]; rfl) hq)
  constructor
  · intro a b ha hb
    simp only [CondState.goto, hho] at ha hb
    exact h1 a b ha hb
  · simp only [CondState.goto, hho]
    exact h2
  · have := h4 g hg hpc
    simp only [CondState.goto, List.length_append, List.length_singleton]
    omega
  · intro a _ hpa
    exact absurd hpa (hnb a)
  · intro a _ hpa
    exact absurd hpa (hnb a)
  · simp only [CondState.goto, List.map_append, List.map_cons, List.map_nil, h6,
      List.append_assoc]
  · intro a
    by_cases hag : a = g
    · subst hag
      have := h7 a
      rw [hpc, hg] at this
      simp only [if_true, Pc.extra, Nat.add_zero] at this
      simp only [CondState.goto, List.filter_append, List.map_append, this, hg, if_true,
        Function.update_same, Pc.extra, List.range_succ, List.map_cons, List.map_nil,
        List.filter_cons, decide_True, List.filter_nil]
      rfl
    · have hga : ¬ (g = a) := fun h => hag h.symm
      simp only [CondState.goto, List.filter_append, List.map_append, Function.update_apply, hag,
        if_false, List.filter_cons, hga, decide_False, List.filter_nil, List.map_nil,
        List.append_nil, Bool.false_eq_true]
      exact h7 a
  · intro a
    by_cases hag : a = g
    · subst hag
      have := h8 a
      rw [hg] at this
      simp only [CondState.goto, hg, if_true]
      simpa using this
    · simp only [CondState.goto, Function.update_apply, hag, if_false]
      exact h8 a
  · intro a hpa
    simp only [CondState.goto, Function.update_apply] at hpa
    split at hpa
    · simp at hpa
    · exact h9 a hpa
  · intro a hpa
    simp only [CondState.goto, Function.update_apply] at hpa ⊢
    split at hpa
    · rename_i hag; subst hag; exact h10 a (by rw [hpc]; simp)
    · exact h10 a hpa

/-- The removal of `consumer`. -/
theorem condInv_consume {capacity : Nat} {s : CondState} (h : CondInv capacity s) (g : Gor)
    (hpc : s.pc g = .body) (hg : g.isProducer = false) (item : Int) (rest : List Int)
    (hqueue : s.queue = item :: rest) :
    CondInv capacity ({ s with queue := rest,
                               consumed := s.consumed ++ [(g, item)] }.goto g .unlock) := by
  obtain ⟨h1, h2, h3, h4, h5, h6, h7, h8, h9, h10⟩ := h
  have hq : (s.pc g).holds = true := by rw [hpc]; rfl
  have hho : ∀ a, (Function.update s.pc g Pc.unlock a).holds = (s.pc a).holds := by
    intro a
    by_cases hag : a = g
    · subst hag; simp only [Function.update_same]; rw [hq]; rfl
    · simp [Function.update_apply, hag]
  have hnb : ∀ a, Function.update s.pc g Pc.unlock a ≠ .body := by
    intro a ha
    by_cases hag : a = g
    · subst hag; simp at ha
    · simp only [Function.update_apply, hag, if_false] at ha
      exact hag (h1 a g (by rw [ha]; rfl) hq)
  constructor
  · intro a b ha hb
    simp only [CondState.goto, hho] at ha hb
    exact h1 a b ha hb
  · simp only [CondState.goto, hho]
    exact h2
  · rw [hqueue] at h3
    simp only [CondState.goto]
    simp only [List.length_cons] at h3
    omega
  · intro a _ hpa
    exact absurd hpa (hnb a)
  · intro a _ hpa
    exact absurd hpa (hnb a)
  · rw [hqueue] at h6
    simp only [CondState.goto, List.map_append, List.map_cons, List.map_nil, h6,
      List.append_assoc, List.singleton_append]
  · intro a
    by_cases hag : a = g
    · subst hag
      have := h7 a
      rw [hg] at this
      simp only [CondState.goto, hg]
      simpa using this
    · simp only [CondState.goto, Function.update_apply, hag, if_false]
      exact h7 a
  · intro a
    by_cases hag : a = g
    · subst hag
      have := h8 a
      rw [hpc, hg] at this
      simp only [Bool.false_eq_true, if_false, Pc.extra, Nat.add_zero] at this
      simp only [CondState.goto, List.filter_append, List.length_append, this, hg,
        Bool.false_eq_true, if_false, Function.update_same, Pc.extra,
        List.filter_cons, decide_True, List.filter_nil, if_true, List.length_singleton]
    · have hga : ¬ (g = a) := fun h => hag h.symm
      simp only [CondState.goto, List.filter_append, List.length_append, Function.update_apply,
        hag, if_false, List.filter_cons, hga, decide_False, List.filter_nil, List.length_nil,
        Nat.add_zero, Bool.false_eq_true]
      exact h8 a
  · intro a hpa
    simp only [CondState.goto, Function.update_apply] at hpa
    split at hpa
    · simp at hpa
    · exact h9 a hpa
  · intro a hpa
    simp only [CondState.goto, Function.update_apply] at hpa ⊢
    split at hpa
    · rename_i hag; subst hag; exact h10 a (by rw [hpc]; simp)
    · exact h10 a hpa

/-- `cond.Broadcast()` and the end of the iteration. -/
theorem condInv_broadcast {capacity : Nat} {s : CondState} (h : CondInv capacity s) (g : Gor)
    (hpc : s.pc g = .bcast) :
    CondInv capacity
      { s with pc := Function.update (wakeAll s.pc) g (if s.iter g + 1 < 5 then .idle else .finished),
               iter := Function.update s.iter g (s.iter g + 1) } := by
  obtain ⟨h1, h2, h3, h4, h5, h6, h7, h8, h9, h10⟩ := h
  have hlt := h10 g (by rw [hpc]; simp)
  have hnew : ∀ p : Pc, p = (if s.iter g + 1 < 5 then Pc.idle else Pc.finished) →
      p.holds = false ∧ p.extra = 0 ∧ p ≠ .body := by
    intro p hp
    split at hp <;> subst hp <;> simp [Pc.holds, Pc.extra]
  obtain ⟨hn1, hn2, hn3⟩ := hnew _ rfl
  have hho : ∀ a, (Function.update (wakeAll s.pc) g
      (if s.iter g + 1 < 5 then Pc.idle else Pc.finished) a).holds = (s.pc a).holds := by
    intro a
    by_cases hag : a = g
    · subst hag; simp only [Function.update_same]; rw [hn1, hpc]; rfl
    · simp [Function.update_apply, hag, wakeAll_holds]
  have hbody : ∀ a, Function.update (wakeAll s.pc) g
      (if s.iter g + 1 < 5 then Pc.idle else Pc.finished) a = .body → s.pc a = .body := by
    intro a ha
    by_cases hag : a = g
    · subst hag; simp only [Function.update_same] at ha; exact absurd ha hn3
    · simp only [Function.update_apply, hag, if_false] at ha
      exact (wakeAll_body _ _).1 ha
  have hcount : ∀ a, Function.update s.iter g (s.iter g + 1) a
      + (Function.update (wakeAll s.pc) g
          (if s.iter g + 1 < 5 then Pc.idle else Pc.finished) a).extra
      = s.iter a + (s.pc a).extra := by
    intro a
    by_cases hag : a = g
    · subst hag; simp only [Function.update_same]; rw [hn2, hpc]; rfl
    · simp [Function.update_apply, hag, wakeAll_extra]
  constructor
  · intro a b ha hb
    simp only [hho] at ha hb
    exact h1 a b ha hb
  · simp only [hho]
    exact h2
  · exact h3
  · intro a ha hpa
    exact h4 a ha (hbody a hpa)
  · intro a ha hpa
    exact h5 a ha (hbody a hpa)
  · exact h6
  · intro a
    simp only [hcount]
    exact h7 a
  · intro a
    simp only [hcount]
    exact h8 a
  · intro a hpa
    by_cases hag : a = g
    · subst hag
      simp only [Function.update_same] at hpa ⊢
      split at hpa
      · simp at hpa
      · omega
    · simp only [Function.update_apply, hag, if_false] at hpa ⊢
      exact h9 a ((wakeAll_finished _ _).1 hpa)
  · intro a hpa
    by_cases hag : a = g
    · subst hag
      simp only [Function.update_same] at hpa ⊢
      split at hpa
      · assumption
      · simp at hpa
    · simp only [Function.update_apply, hag, if_false] at hpa ⊢
      exact h10 a (fun hx => hpa ((wakeAll_finished _ _).2 hx))

theorem condInv_step {capacity : Nat} {s : CondState} (h : CondInv capacity s) (a : CondAct) :
    match condStep capacity s a with
    | .done s1 => CondInv capacity s1
    | .blocks => True
    | .panics => False := by
  cases a with
  | spurious g =>
    unfold condStep
    by_cases hw : s.pc g = .waiting
    · simp only [hw, if_true]
      exact condInv_goto_free h g .woken rfl (by rw [hw]; rfl) (by rw [hw]; rfl) (by simp)
        (by rw [hw]; simp)
    · simp [hw]
  | run g =>
    unfold condStep condStepRun
    cases hpc : s.pc g with
    | idle =>
      simp only [hpc]
      by_cases hl : s.locked = true
      · simp [hl]
      · simp only [hl, if_false]
        exact condInv_acquire h g (by simpa using hl) (by rw [hpc]; rfl) (by rw [hpc]; rfl)
          (by rw [hpc]; simp)
    | woken =>
      simp only [hpc]
      by_cases hl : s.locked = true
      · simp [hl]
      · simp only [hl, if_false]
        exact condInv_acquire h g (by simpa using hl) (by rw [hpc]; rfl) (by rw [hpc]; rfl)
          (by rw [hpc]; simp)
    | waiting => simp [hpc]
    | finished => simp [hpc]
    | check =>
      simp only [hpc]
      by_cases hcond : (if g.isProducer = true then decide (capacity ≤ s.queue.length)
          else decide (s.queue.length = 0)) = true
      · simp only [hcond, if_true]
        exact condInv_release h g .waiting (by rw [hpc]; rfl) rfl (by rw [hpc]; rfl) (by simp)
          (by rw [hpc]; simp)
      · simp only [hcond, if_false]
        refine condInv_enter h g hpc ?_ ?_
        · intro hg
          simp only [hg, if_true, decide_eq_true_eq] at hcond
          omega
        · intro hg
          simp only [hg, Bool.false_eq_true, if_false, decide_eq_true_eq] at hcond
          intro hq
          exact hcond (by rw [hq]; rfl)
    | body =>
      simp only [hpc]
      cases hg : g.isProducer with
      | true =>
        simp only [if_true]
        exact condInv_produce h g hpc hg
      | false =>
        simp only [Bool.false_eq_true, if_false]
        cases hq : s.queue with
        | nil => exact h.consBody g hg hpc hq
        | cons item rest => exact condInv_consume h g hpc hg item rest hq
    | unlock =>
      have hl : s.locked = true := h.lockedIff.2 ⟨g, by rw [hpc]; rfl⟩
      simp only [hpc, hl, if_true]
      exact condInv_release h g .bcast (by rw [hpc]; rfl) rfl (by rw [hpc]; rfl) (by simp)
        (by rw [hpc]; simp)
    | bcast =>
      simp only [hpc]
      exact condInv_broadcast h g hpc

theorem condInv_run {capacity : Nat} (sched : List CondAct) : ∀ (s : CondState),
    CondInv capacity s →
    match condRun capacity s sched with
    | .done s1 => CondInv capacity s1
    | .blocks => True
    | .panics => False := by
  induction sched with
  | nil => intro s h; simpa [condRun] using h
  | cons a rest ih =>
    intro s h
    have hstep := condInv_step h a
    simp only [condRun]
    cases hr : condStep capacity s a with
    | blocks => simp
    | panics => simp [hr] at hstep
    | done s1 =>
      simp only [hr] at hstep
      simpa using ih s1 hstep

/-- The only statements that change the queue: the append of a producer at
`body` (at the tail) and the removal of a consumer at `body` (of index 0). -/
theorem condStep_queue {capacity : Nat} {s s1 : CondState} {a : CondAct}
    (hstep : condStep capacity s a = .done s1) (hne : s1.queue ≠ s.queue) :
    ∃ g, a = .run g ∧ s.pc g = .body ∧
      ((g.isProducer = true ∧ s1.queue = s.queue ++ [(s.iter g : Int)]) ∨
       (g.isProducer = false ∧ ∃ item, s.queue = item :: s1.queue)) := by
  cases a with
  | spurious g =>
    exfalso
    apply hne
    simp only [condStep] at hstep
    split at hstep <;> first | (cases hstep; rfl) | cases hstep
  | run g =>
    refine ⟨g, rfl, ?_⟩
    by_cases hpc : s.pc g = .body
    · refine ⟨hpc, ?_⟩
      simp only [condStep, condStepRun, hpc] at hstep
      cases hg : g.isProducer with
      | true =>
        simp only [hg, if_true] at hstep
        cases hstep
        exact Or.inl ⟨rfl, rfl⟩
      | false =>
        simp only [hg, Bool.false_eq_true, if_false] at hstep
        cases hq : s.queue with
        | nil => simp [hq] at hstep
        | cons item rest =>
          simp only [hq] at hstep
          cases hstep
          exact Or.inr ⟨rfl, item, rfl⟩
    · exfalso
      apply hne
      simp only [condStep, condStepRun] at hstep
      split at hstep
      · split at hstep <;> first | (cases hstep; rfl) | cases hstep
      · split at hstep <;> split at hstep <;> (cases hstep; rfl)
      · cases hstep
      · split at hstep <;> first | (cases hstep; rfl) | cases hstep
      · rename_i hb; exact absurd hb hpc
      · split at hstep <;> first | (cases hstep; rfl) | cases hstep
      · cases hstep; rfl
      · cases hstep

/-- A goroutine enters `body` only from the loop test, by its own step, with
the wait condition false. -/
theorem condStep_enter {capacity : Nat} {s s1 : CondState} {a : CondAct} {g : Gor}
    (hstep : condStep capacity s a = .done s1) (hnew : s1.pc g = .body) (hold : s.pc g ≠ .body) :
    a = .run g ∧ s.pc g = .check ∧
      (g.isProducer = true → s.queue.length < capacity) ∧
      (g.isProducer = false → 0 < s.queue.length) := by
  have hgoto : ∀ (t : CondState) (h : Gor) (p : Pc), (t.goto h p).pc g = .body → t.pc = s.pc →
      h = g ∧ p = .body := by
    intro t h p hp ht
    simp only [CondState.goto, Function.update_apply, ht] at hp
    split at hp
    · rename_i hgh; exact ⟨hgh.symm, hp⟩
    · exact absurd hp hold
  cases a with
  | spurious h =>
    exfalso
    simp only [condStep] at hstep
    split at hstep
    · cases hstep
      have := (hgoto s h .woken hnew rfl).2
      simp at this
    · cases hstep
  | run h =>
    simp only [condStep, condStepRun] at hstep
    split at hstep
    · split at hstep
      · cases hstep
      · cases hstep
        have := (hgoto _ h .check hnew rfl).2
        simp at this
    · rename_i hck
      by_cases hcond : (if h.isProducer = true then decide (capacity ≤ s.queue.length)
          else decide (s.queue.length = 0)) = true
      · simp only [hcond, if_true] at hstep
        cases hstep
        have := (hgoto _ h .waiting hnew rfl).2
        simp at this
      · simp only [hcond, if_false] at hstep
        cases hstep
        have hh := (hgoto _ h .body hnew rfl).1
        subst hh
        refine ⟨rfl, hck, ?_, ?_⟩
        · intro hg
          simp only [hg, if_true, decide_eq_true_eq] at hcond
          omega
        · intro hg
          simp only [hg, Bool.false_eq_true, if_false, decide_eq_true_eq] at hcond
          omega
    · cases hstep
    · split at hstep
      · cases hstep
      · cases hstep
        have := (hgoto _ h .check hnew rfl).2
        simp at this
    · split at hstep
      · cases hstep
        have := (hgoto _ h .unlock hnew rfl).2
        simp at this
      · split at hstep
        · cases hstep
        · cases hstep
          have := (hgoto _ h .unlock hnew rfl).2
          simp at this
    · split at hstep
      · cases hstep
        have := (hgoto _ h .bcast hnew rfl).2
        simp at this
      · cases hstep
    · cases hstep
      exfalso
      simp only [Function.update_apply] at hnew
      split at hnew
      · split at hnew <;> simp at hnew
      · exact hold ((wakeAll_body _ _).1 hnew)
    · cases hstep

/-- Splitting a log by goroutine keeps every entry exactly once. -/
theorem log_split (l : List (Gor × Int)) :
    (l.map Prod.snd).Perm
      ((l.filter (fun e => decide (e.1 = .producer1))).map Prod.snd ++
       (l.filter (fun e => decide (e.1 = .producer2))).map Prod.snd ++
       (l.filter (fun e => decide (e.1 = .consumer1))).map Prod.snd ++
       (l.filter (fun e => decide (e.1 = .consumer2))).map Prod.snd) := by
  rw [List.perm_iff_count]
  intro v
  induction l with
  | nil => simp
  | cons e rest ih =>
    obtain ⟨g, x⟩ := e
    simp only [List.map_cons, List.count_cons, List.count_append] at ih ⊢
    cases g <;> simp [List.filter_cons, List.count_cons] <;> omega

theorem filter_take_eq {α : Type} (f : α → Bool) (l : List α) (n : Nat) :
    (l.take n).filter f = (l.filter f).take ((l.take n).filter f).length := by
  have h : l.filter f = (l.take n).filter f ++ (l.drop n).filter f := by
    rw [← List.filter_append, List.take_append_drop]
  rw [h, List.take_left]

theorem condInv_extra_le {capacity : Nat} {s : CondState} (h : CondInv capacity s) (g : Gor) :
    s.iter g + (s.pc g).extra ≤ 5 := by
  by_cases hf : s.pc g = .finished
  · rw [h.iterEnd g hf, hf]; simp [Pc.extra]
  · have := h.iterRun g hf
    have : (s.pc g).extra ≤ 1 := by cases s.pc g <;> simp [Pc.extra]
    omega

/-- What the invariant gives once all four goroutines have returned. -/
theorem condInv_finished {capacity : Nat} {s : CondState} (h : CondInv capacity s)
    (hfin : s.allFinished = true) :
    s.produced.length = 10 ∧ s.consumed.length = 10 ∧ s.queue = [] ∧
    (s.produced.map Prod.snd).Perm [0, 0, 1, 1, 2, 2, 3, 3, 4, 4] ∧
    (∀ p, p.isProducer = true →
      (s.produced.filter (fun e => decide (e.1 = p))).map Prod.snd = [0, 1, 2, 3, 4]) := by
  simp only [CondState.allFinished, List.all_cons, List.all_nil, Bool.and_true, Bool.and_eq_true,
    decide_eq_true_eq] at hfin
  obtain ⟨f1, f2, f3, f4⟩ := hfin
  have hall : ∀ g, s.pc g = .finished := by intro g; cases g <;> assumption
  have hlog : ∀ g, (s.produced.filter (fun e => decide (e.1 = g))).map Prod.snd
      = if g.isProducer then [0, 1, 2, 3, 4] else [] := by
    intro g
    rw [h.prodLog g, h.iterEnd g (hall g), hall g]
    cases hg : g.isProducer
    · simp
    · simp only [Pc.extra, if_true]; decide
  have hcl : ∀ g, (s.consumed.filter (fun e => decide (e.1 = g))).length
      = if g.isProducer then 0 else 5 := by
    intro g
    rw [h.consLog g, h.iterEnd g (hall g), hall g]
    cases hg : g.isProducer <;> simp [Pc.extra]
  have hp := log_split s.produced
  rw [hlog, hlog, hlog, hlog] at hp
  simp only [Gor.isProducer, if_true, Bool.false_eq_true, if_false, List.append_nil] at hp
  have hplen : s.produced.length = 10 := by
    have := hp.length_eq
    simpa using this
  have hc := (log_split s.consumed).length_eq
  simp only [List.length_append, List.length_map, hcl, Gor.isProducer, if_true,
    Bool.false_eq_true, if_false] at hc
  have hclen : s.consumed.length = 10 := by omega
  have hq : s.queue = [] := by
    have := congrArg List.length h.fifo
    simp only [List.length_map, List.length_append] at this
    exact List.length_eq_zero.1 (by omega)
  refine ⟨hplen, hclen, hq, ?_, ?_⟩
  · exact hp.trans (by decide)
  · intro p hpp
    rw [hlog, hpp]
    rfl

theorem removed_values {capacity : Nat} {s : CondState} (h : CondInv capacity s) :
    (s.produced.take s.consumed.length).map Prod.snd = s.consumed.map Prod.snd := by
  rw [List.map_take, h.fifo]
  have : s.consumed.length = (s.consumed.map Prod.snd).length := by simp
  rw [this, List.take_left]

theorem removed_in_order {capacity : Nat} {s : CondState} (h : CondInv capacity s) (p : Gor)
    (hp : p.isProducer = true) :
    ∃ k, k ≤ 5 ∧ removedOf s p = (List.range k).map Int.ofNat := by
  unfold removedOf
  rw [filter_take_eq, List.map_take, h.prodLog p, hp]
  simp only [if_true]
  rw [← List.map_take, List.take_range]
  exact ⟨_, le_trans (Nat.min_le_right _ _) (condInv_extra_le h p), rfl⟩

theorem condStep_woken {capacity : Nat} {s s1 : CondState} {g : Gor} (hw : s.pc g = .woken)
    (hstep : condStep capacity s (.run g) = .done s1) : s1.pc g = .check := by
  simp only [condStep, condStepRun, hw] at hstep
  split at hstep
  · cases hstep
  · cases hstep
    simp [CondState.goto]

set_option maxRecDepth 100000 in
/-- The sequential schedule lets all four goroutines return. -/
theorem condSequentialSchedule_finishes :
    ∃ s, condRun condCapacity condInit condSequentialSchedule = .done s ∧ s.allFinished = true :=
  ⟨_, rfl, rfl⟩

/-- C4. Condition-queue capacity invariant: in every state `condDemo` can
reach, under every interleaving and with spurious wake-ups allowed, nothing
panics and the queue holds at most 3 items.  A goroutine about to append or
remove holds the lock, with fewer than 3 items queued if it is a producer and at
least one if it is a consumer; only such a step changes the queue; a goroutine
reaches that point only from the loop test with the wait condition false; and a
goroutine notified in `Wait` goes back to the loop test. -/
theorem cond_capacity_invariant (sched : List CondAct) :
    match condRun condCapacity condInit sched with
    | .panics => False
    | .blocks => True
    | .done s =>
      s.queue.length ≤ 3 ∧
      (∀ g, s.pc g = .body → s.locked = true ∧
        (g.isProducer = true → s.queue.length < 3) ∧
        (g.isProducer = false → 0 < s.queue.length)) ∧
      (∀ a s1, condStep condCapacity s a = .done s1 → s1.queue ≠ s.queue →
        ∃ g, a = .run g ∧ s.pc g = .body ∧ s.locked = true ∧
          ((g.isProducer = true ∧ s.queue.length < 3 ∧
              s1.queue = s.queue ++ [(s.iter g : Int)]) ∨
           (g.isProducer = false ∧ 0 < s.queue.length ∧ s1.queue = s.queue.tail))) ∧
      (∀ a s1 g, condStep condCapacity s a = .done s1 → s1.pc g = .body → s.pc g ≠ .body →
        a = .run g ∧ s.pc g = .check ∧
          (g.isProducer = true → s.queue.length < 3) ∧
          (g.isProducer = false → 0 < s.queue.length)) ∧
      (∀ g s1, s.pc g = .woken → condStep condCapacity s (.run g) = .done s1 →
        s1.pc g = .check) := by
  have h := condInv_run sched condInit (condInv_init condCapacity)
  cases hr : condRun condCapacity condInit sched with
  | panics => simp [hr] at h
  | blocks => trivial
  | done s =>
    simp only [hr] at h
    have hbody : ∀ g, s.pc g = .body → s.locked = true ∧
        (g.isProducer = true → s.queue.length < 3) ∧
        (g.isProducer = false → 0 < s.queue.length) := by
      intro g hg
      refine ⟨h.lockedIff.2 ⟨g, by rw [hg]; rfl⟩, fun hp => h.prodBody g hp hg, fun hc => ?_⟩
      exact List.length_pos.2 (h.consBody g hc hg)
    refine ⟨h.cap, hbody, ?_, ?_, ?_⟩
    · intro a s1 hstep hne
      obtain ⟨g, ha, hpc, hcase⟩ := condStep_queue hstep hne
      obtain ⟨hl, hp, hc⟩ := hbody g hpc
      refine ⟨g, ha, hpc, hl, ?_⟩
      rcases hcase with ⟨hg, hq⟩ | ⟨hg, item, hq⟩
      · exact Or.inl ⟨hg, hp hg, hq⟩
      · exact Or.inr ⟨hg, hc hg, by rw [hq]; rfl⟩
    · intro a s1 g hstep hnew hold
      exact condStep_enter hstep hnew hold
    · intro g s1 hw hstep
      exact condStep_woken hw hstep

/-- Witness of C4 on a schedule with a wait, a spurious wake-up and a
broadcast: the run does not block or panic, and the theorem applies to it. -/
theorem cond_capacity_invariant_witness :
    (∃ s, condRun condCapacity condInit condWaitingSchedule = .done s ∧
      s.consumed = [(.consumer1, 0)]) ∧
    (match condRun condCapacity condInit condWaitingSchedule with
    | .panics => False
    | .blocks => True
    | .done s =>
      s.queue.length ≤ 3 ∧
      (∀ g, s.pc g = .body → s.locked = true ∧
        (g.isProducer = true → s.queue.length < 3) ∧
        (g.isProducer = false → 0 < s.queue.length)) ∧
      (∀ a s1, condStep condCapacity s a = .done s1 → s1.queue ≠ s.queue →
        ∃ g, a = .run g ∧ s.pc g = .body ∧ s.locked = true ∧
          ((g.isProducer = true ∧ s.queue.length < 3 ∧
              s1.queue = s.queue ++ [(s.iter g : Int)]) ∨
           (g.isProducer = false ∧ 0 < s.queue.length ∧ s1.queue = s.queue.tail))) ∧
      (∀ a s1 g, condStep condCapacity s a = .done s1 → s1.pc g = .body → s.pc g ≠ .body →
        a = .run g ∧ s.pc g = .check ∧
          (g.isProducer = true → s.queue.length < 3) ∧
          (g.isProducer = false → 0 < s.queue.length)) ∧
      (∀ g s1, s.pc g = .woken → condStep condCapacity s (.run g) = .done s1 →
        s1.pc g = .check)) :=
  ⟨⟨_, rfl, rfl⟩, cond_capacity_invariant condWaitingSchedule⟩

/-- C5. Condition-queue conservation: in every state `condDemo` can reach,
under every interleaving, the items produced so far are, as a multiset, the
items consumed so far together with the items in the queue; and when all four
goroutines have returned, 10 items were produced, exactly 10 items were
consumed, namely each of 0..4 twice, and the queue is empty. -/
theorem cond_conservation (sched : List CondAct) :
    match condRun condCapacity condInit sched with
    | .panics => False
    | .blocks => True
    | .done s =>
      (s.produced.map Prod.snd).Perm (s.consumed.map Prod.snd ++ s.queue) ∧
      (s.allFinished = true →
        s.produced.length = 10 ∧ s.consumed.length = 10 ∧ s.queue = [] ∧
        (s.consumed.map Prod.snd).Perm [0, 0, 1, 1, 2, 2, 3, 3, 4, 4]) := by
  have h := condInv_run sched condInit (condInv_init condCapacity)
  cases hr : condRun condCapacity condInit sched with
  | panics => simp [hr] at h
  | blocks => trivial
  | done s =>
    simp only [hr] at h
    refine ⟨by rw [h.fifo], ?_⟩
    intro hfin
    obtain ⟨h1, h2, h3, h4, _⟩ := condInv_finished h hfin
    refine ⟨h1, h2, h3, ?_⟩
    have hf := h.fifo
    rw [h3, List.append_nil] at hf
    rw [← hf]
    exact h4

/-- Witness of C5 on the sequential schedule, which lets all four goroutines
return. -/
theorem cond_conservation_witness :
    ∃ s, condRun condCapacity condInit condSequentialSchedule = .done s ∧
      s.allFinished = true ∧
      s.produced.length = 10 ∧ s.consumed.length = 10 ∧ s.queue = [] ∧
      (s.consumed.map Prod.snd).Perm [0, 0, 1, 1, 2, 2, 3, 3, 4, 4] := by
  obtain ⟨s, hs, hf⟩ := condSequentialSchedule_finishes
  have h := cond_conservation condSequentialSchedule
  rw [hs] at h
  exact ⟨s, hs, hf, h.2 hf⟩

/-- C6. Condition-queue FIFO: in every state `condDemo` can reach, under every
interleaving, a step that changes the queue is an append at the tail by a
producer or the removal of the element at index 0 by a consumer; the values
produced so far are, in order, the values consumed so far followed by the queue,
so the `k`-th item removed is the `k`-th item appended; and for each producer
the items it appended that have been removed are 0, 1, ..., in that order, all
of 0,1,2,3,4 once the four goroutines have returned. -/
theorem cond_fifo (sched : List CondAct) :
    match condRun condCapacity condInit sched with
    | .panics => False
    | .blocks => True
    | .done s =>
      (∀ a s1, condStep condCapacity s a = .done s1 → s1.queue ≠ s.queue →
        ∃ g, a = .run g ∧
          ((g.isProducer = true ∧ s1.queue = s.queue ++ [(s.iter g : Int)]) ∨
           (g.isProducer = false ∧ ∃ item, s.queue = item :: s1.queue))) ∧
      s.produced.map Prod.snd = s.consumed.map Prod.snd ++ s.queue ∧
      (s.produced.take s.consumed.length).map Prod.snd = s.consumed.map Prod.snd ∧
      (∀ p, p.isProducer = true →
        ∃ k, k ≤ 5 ∧ removedOf s p = (List.range k).map Int.ofNat) ∧
      (s.allFinished = true → ∀ p, p.isProducer = true → removedOf s p = [0, 1, 2, 3, 4]) := by
  have h := condInv_run sched condInit (condInv_init condCapacity)
  cases hr : condRun condCapacity condInit sched with
  | panics => simp [hr] at h
  | blocks => trivial
  | done s =>
    simp only [hr] at h
    refine ⟨?_, h.fifo, removed_values h, fun p hp => removed_in_order h p hp, ?_⟩
    · intro a s1 hstep hne
      obtain ⟨g, ha, _, hcase⟩ := condStep_queue hstep hne
      exact ⟨g, ha, hcase⟩
    · intro hfin p hp
      obtain ⟨h1, h2, _, _, h5⟩ := condInv_finished h hfin
      unfold removedOf
      rw [h2, ← h1, List.take_length]
      exact h5 p hp

/-- Witness of C6 on the sequential schedule: both producers' items were
removed in the order 0,1,2,3,4. -/
theorem cond_fifo_witness :
    ∃ s, condRun condCapacity condInit condSequentialSchedule = .done s ∧
      s.allFinished = true ∧
      removedOf s .producer1 = [0, 1, 2, 3, 4] ∧ removedOf s .producer2 = [0, 1, 2, 3, 4] := by
  obtain ⟨s, hs, hf⟩ := condSequentialSchedule_finishes
  have h := cond_fifo condSequentialSchedule
  rw [hs] at h
  exact ⟨s, hs, hf, h.2.2.2.2 hf .producer1 rfl, h.2.2.2.2 hf .producer2 rfl⟩

/-! ## Contexts -/

/-- C9. Value lookup walks the parent chain.  For the context built by
`valueContextDemo`, `Value(requestIDKey)` is "12345", `Value(userKey)` is
"Alice", and `Value(k)` is nil for every other key, such as the plain string
"nonexistent" (also the plain strings "user" and "requestID", whose type is not
`keyType`).  In general a value context answers for its own key and otherwise
asks its parent, so `Value(k)` is the value of the nearest binding of `k` on the
chain, and nil when the chain has none. -/
theorem value_lookup_chain :
    (Value valueContextDemoCtx requestIDKey = some "12345" ∧
     Value valueContextDemoCtx userKey = some "Alice" ∧
     (∀ k, k ≠ userKey → k ≠ requestIDKey → Value valueContextDemoCtx k = none) ∧
     (∀ s, Value valueContextDemoCtx (.str s) = none) ∧
     valueContextDemo = ((some "Alice", some "12345"), none)) ∧
    (∀ (parent : Ctx) (k q : Key) (v : String),
      Value (WithValue parent k v) q = if q = k then some v else Value parent q) ∧
    (∀ (c : Ctx) (k : Key),
      Value c k = ((bindings c).find? (fun b => decide (b.1 = k))).map Prod.snd) ∧
    (∀ (c : Ctx) (k : Key), (∀ b ∈ bindings c, b.1 ≠ k) → Value c k = none) := by
  have hgen : ∀ (c : Ctx) (k : Key),
      Value c k = ((bindings c).find? (fun b => decide (b.1 = k))).map Prod.snd := by
    intro c k
    induction c with
    | background => rfl
    | withValue p key val ih =>
      simp only [Value, bindings, List.find?_cons]
      by_cases hk : k = key
      · subst hk; simp
      · have hk2 : ¬ (key = k) := fun h => hk h.symm
        simp [hk, hk2, ih]
    | cancelable p id ih => simpa [Value, bindings] using ih
  refine ⟨⟨?_, ?_, ?_, ?_, ?_⟩, ?_, hgen, ?_⟩
  · simp [valueContextDemoCtx, WithValue, Value]
  · simp [valueContextDemoCtx, WithValue, Value, userKey, requestIDKey]
  · intro k h1 h2
    simp [valueContextDemoCtx, WithValue, Value, h1, h2]
  · intro s
    simp [valueContextDemoCtx, WithValue, Value, userKey, requestIDKey]
  · simp [valueContextDemo, processRequest, valueContextDemoCtx, WithValue, Value, userKey,
      requestIDKey]
  · intro parent k q v
    rfl
  · intro c k hnone
    rw [hgen]
    have : (bindings c).find? (fun b => decide (b.1 = k)) = none := by
      rw [List.find?_eq_none]
      intro b hb
      simpa using hnone b hb
    rw [this]
    rfl

/-- Witness of C9: a key bound nowhere on a chain with a cancellable context in
the middle. -/
theorem value_lookup_chain_witness :
    Value (.withValue (.cancelable (.withValue .background userKey "Bob") 0) requestIDKey "7")
      (.str "user") = none :=
  value_lookup_chain.2.2.2 _ _ (by decide)

theorem workerSelect_done (pick : Nat) : workerSelect true pick = .case 0 := by
  simp [workerSelect, goSelect, readyCases, List.range_succ, Nat.mod_one]

theorem workerSelect_pending (pick : Nat) : workerSelect false pick = .dflt := by
  simp [workerSelect, goSelect, readyCases, List.range_succ]

theorem nestedSelect_done (pick : Nat) : nestedWorkerSelect true false pick = .case 0 := by
  simp [nestedWorkerSelect, goSelect, readyCases, List.range_succ, Nat.mod_one]

theorem nestedSelect_tick (pick : Nat) : nestedWorkerSelect false true pick = .case 1 := by
  simp [nestedWorkerSelect, goSelect, readyCases, List.range_succ, Nat.mod_one]

theorem nestedSelect_both (pick : Nat) :
    nestedWorkerSelect true true pick = .case (pick % 2) := by
  have h : pick % 2 = 0 ∨ pick % 2 = 1 := by omega
  rcases h with h | h <;>
    simp [nestedWorkerSelect, goSelect, readyCases, List.range_succ, h]

theorem workerLoop_done (ctx : Ctx) (sleeps pick : Nat → Nat) (fuel k : Nat) (w : World)
    (hd : isDone w ctx = true) :
    workerLoop ctx sleeps pick (fuel + 1) k w = some ([.stopped (Err w ctx)], w) := by
  simp [workerLoop, hd, workerSelect_done]

theorem workerLoop_trace (ctx : Ctx) (sleeps pick : Nat → Nat) :
    ∀ (fuel k : Nat) (w : World) (r : List WEvent × World),
      workerLoop ctx sleeps pick fuel k w = some r →
      ∃ n, r.1 = List.replicate n .working ++ [.stopped (Err r.2 ctx)] ∧
        isDone r.2 ctx = true := by
  intro fuel
  induction fuel with
  | zero => intro k w r h; simp [workerLoop] at h
  | succ fuel ih =>
    intro k w r h
    cases hd : isDone w ctx with
    | true =>
      rw [workerLoop_done ctx sleeps pick fuel k w hd] at h
      cases h
      exact ⟨0, rfl, hd⟩
    | false =>
      simp only [workerLoop, hd, workerSelect_pending, Option.map_eq_some'] at h
      obtain ⟨r1, hr1, hr⟩ := h
      obtain ⟨n, hn, hdone⟩ := ih _ _ _ hr1
      subst hr
      exact ⟨n + 1, by simp [hn, List.replicate_succ], hdone⟩

theorem nestedWorkerLoop_done (ctx : Ctx) (start : Nat) (pick : Nat → Nat) (fuel n : Nat)
    (w : World) (hd : isDone (w.advance (start + 300 * (n + 1) - 1)) ctx = true) :
    nestedWorkerLoop ctx start pick (fuel + 1) n w
      = some ([.stopped (Err (w.advance (start + 300 * (n + 1) - 1)) ctx)],
              w.advance (start + 300 * (n + 1) - 1)) := by
  simp [nestedWorkerLoop, hd, nestedSelect_done]

theorem nestedWorkerLoop_trace (ctx : Ctx) (start : Nat) (pick : Nat → Nat) :
    ∀ (fuel n : Nat) (w : World) (r : List WEvent × World),
      nestedWorkerLoop ctx start pick fuel n w = some r →
      ∃ m, r.1 = List.replicate m .running ++ [.stopped (Err r.2 ctx)] ∧
        isDone r.2 ctx = true := by
  intro fuel
  induction fuel with
  | zero => intro n w r h; simp [nestedWorkerLoop] at h
  | succ fuel ih =>
    intro n w r h
    cases hd : isDone (w.advance (start + 300 * (n + 1) - 1)) ctx with
    | true =>
      rw [nestedWorkerLoop_done ctx start pick fuel n w hd] at h
      cases h
      exact ⟨0, rfl, hd⟩
    | false =>
      have hrec : ∀ r1, nestedWorkerLoop ctx start pick fuel (n + 1)
          (w.advance (start + 300 * (n + 1))) = some r1 →
          ∃ m, (WEvent.running :: r1.1) = List.replicate m .running ++ [.stopped (Err r1.2 ctx)] ∧
            isDone r1.2 ctx = true := by
        intro r1 hr1
        obtain ⟨m, hm, hdone⟩ := ih _ _ _ hr1
        exact ⟨m + 1, by simp [hm, List.replicate_succ], hdone⟩
      cases hd2 : isDone (w.advance (start + 300 * (n + 1))) ctx with
      | false =>
        simp only [nestedWorkerLoop, hd, hd2, nestedSelect_tick, Bool.false_eq_true, if_false,
          Option.map_eq_some'] at h
        obtain ⟨r1, hr1, hr⟩ := h
        subst hr
        exact hrec r1 hr1
      | true =>
        have hp : pick n % 2 = 0 ∨ pick n % 2 = 1 := by omega
        rcases hp with hp | hp
        · simp only [nestedWorkerLoop, hd, hd2, nestedSelect_both, hp, Bool.false_eq_true,
            if_false, Option.some.injEq] at h
          subst h
          exact ⟨0, rfl, hd2⟩
        · simp only [nestedWorkerLoop, hd, hd2, nestedSelect_both, hp, Bool.false_eq_true,
            if_false, Option.map_eq_some'] at h
          obtain ⟨r1, hr1, hr⟩ := h
          subst hr
          exact hrec r1 hr1

/-- Counterexample to C10 as stated.  When the `select` of `nestedWorker` is
evaluated with the context done and a tick pending, the pick 1 runs the ticker
branch.  In a run: the context is cancelled at 300 ms, when the first tick
arrives; `nestedWorker` prints "运行中" although `ctx.Done()` is already closed,
and takes the `Done` branch only at the next `select`. -/
theorem prompt_exit_counterexample :
    nestedWorkerSelect true true 1 = .case 1 ∧
    isDone (tieWorld.2.advance 300) tieWorld.1.1 = true ∧
    (nestedWorker tieWorld.1.1 (fun _ => 1) 2 tieWorld.2).map Prod.fst
      = some [.running, .stopped (some .canceled), .wgDone] := by
  refine ⟨by decide, by decide, by decide⟩

/-- C10, amended.  In `worker`, whenever the `select` is evaluated while the
context is done, the `Done` branch is taken and the function returns at once,
the deferred `wg.Done()` running once and no "工作中" following.  In
`nestedWorker`, the `Done` branch is taken whenever the context is done and no
tick is pending; when a tick is pending too, either branch may be chosen.
Both functions return only through the `Done` branch: every trace they return
is some number of work lines, then the stop line, then one `wg.Done()`. -/
theorem prompt_exit_amended :
    (∀ pick, workerSelect true pick = .case 0) ∧
    (∀ (ctx : Ctx) (sleeps pick : Nat → Nat) (fuel : Nat) (w : World), isDone w ctx = true →
      worker ctx sleeps pick (fuel + 1) w = some ([.stopped (Err w ctx), .wgDone], w)) ∧
    (∀ (ctx : Ctx) (sleeps pick : Nat → Nat) (fuel : Nat) (w : World) (r : List WEvent × World),
      worker ctx sleeps pick fuel w = some r →
      ∃ n, r.1 = List.replicate n .working ++ [.stopped (Err r.2 ctx), .wgDone] ∧
        isDone r.2 ctx = true) ∧
    (∀ pick, nestedWorkerSelect true false pick = .case 0) ∧
    (∀ pick, nestedWorkerSelect true true pick = .case (pick % 2)) ∧
    (∀ (ctx : Ctx) (pick : Nat → Nat) (fuel : Nat) (w : World),
      isDone (w.advance (w.now + 300 - 1)) ctx = true →
      nestedWorker ctx pick (fuel + 1) w
        = some ([.stopped (Err (w.advance (w.now + 300 - 1)) ctx), .wgDone],
                w.advance (w.now + 300 - 1))) ∧
    (∀ (ctx : Ctx) (pick : Nat → Nat) (fuel : Nat) (w : World) (r : List WEvent × World),
      nestedWorker ctx pick fuel w = some r →
      ∃ n, r.1 = List.replicate n .running ++ [.stopped (Err r.2 ctx), .wgDone] ∧
        isDone r.2 ctx = true) := by
  refine ⟨workerSelect_done, ?_, ?_, nestedSelect_done, nestedSelect_both, ?_, ?_⟩
  · intro ctx sleeps pick fuel w hd
    simp [worker, workerLoop_done ctx sleeps pick fuel 0 w hd]
  · intro ctx sleeps pick fuel w r h
    simp only [worker, Option.map_eq_some'] at h
    obtain ⟨r1, hr1, hr⟩ := h
    obtain ⟨n, hn, hdone⟩ := workerLoop_trace ctx sleeps pick fuel 0 w r1 hr1
    subst hr
    exact ⟨n, by simp [hn], hdone⟩
  · intro ctx pick fuel w hd
    have := nestedWorkerLoop_done ctx w.now pick fuel 0 w (by simpa using hd)
    simp only [Nat.zero_add, Nat.mul_one] at this
    simp [nestedWorker, this]
  · intro ctx pick fuel w r h
    simp only [nestedWorker, Option.map_eq_some'] at h
    obtain ⟨r1, hr1, hr⟩ := h
    obtain ⟨n, hn, hdone⟩ := nestedWorkerLoop_trace ctx w.now pick fuel 0 w r1 hr1
    subst hr
    exact ⟨n, by simp [hn], hdone⟩

theorem cancelTop_leaf (ns : List CNode) (id : Nat) (e : CtxErr) (dl : Option Nat)
    (h : ns[id]? = some ⟨none, [], none, dl⟩) :
    cancelTop ns id e = ns.set id ⟨some e, [], none, dl⟩ := by
  have hlt : id < ns.length := by
    by_contra hge
    rw [List.getElem?_eq_none (by omega)] at h
    cases h
  have hset : (ns.set id ⟨some e, [], none, dl⟩)[id]? = some ⟨some e, [], none, dl⟩ := by
    simp [List.getElem?_set, hlt]
  obtain ⟨k, hk⟩ : ∃ k, ns.length = k + 1 := ⟨ns.length - 1, by omega⟩
  simp [cancelTop, h, hk, cancelAux, removeChild, hset]

theorem cancelTop_finished (ns : List CNode) (id : Nat) (e : CtxErr) (n : CNode)
    (h : ns[id]? = some n) (hn : n.err.isSome = true) : cancelTop ns id e = ns := by
  simp [cancelTop, h, hn]

theorem advance_fired {w : World} {id : Nat} {e : CtxErr} (h : Fired w id e) (t : Nat) :
    w.advance t = ⟨max w.now t, w.nodes, []⟩ := by
  simp [World.advance, h.timers, fire]

theorem advance_pending_late {w : World} {id D : Nat} {e : CtxErr} (h : Pending w id D e)
    (t : Nat) (hl : D ≤ max w.now t) :
    ∃ dl, w.nodes[id]? = some ⟨none, [], none, dl⟩ ∧
      w.advance t = ⟨max w.now t, w.nodes.set id ⟨some e, [], none, dl⟩, []⟩ := by
  obtain ⟨dl, hdl⟩ := h.node
  refine ⟨dl, hdl, ?_⟩
  simp [World.advance, h.timers, fire, hl, cancelTop_leaf _ _ _ _ hdl]

theorem advance_pending_early {w : World} {id D : Nat} {e : CtxErr} (h : Pending w id D e)
    (t : Nat) (hl : max w.now t < D) :
    w.advance t = ⟨max w.now t, w.nodes, w.timers⟩ := by
  have : ¬ (D ≤ max w.now t) := by omega
  simp [World.advance, h.timers, fire, this]

theorem fired_of_late {w : World} {id D : Nat} {e : CtxErr} (h : Pending w id D e)
    (t : Nat) (hl : D ≤ max w.now t) :
    Fired (w.advance t) id e ∧ (w.advance t).now = max w.now t ∧
      (w.advance t).nodes.length = w.nodes.length ∧
      (∀ j, j ≠ id → (w.advance t).nodes[j]? = w.nodes[j]?) := by
  obtain ⟨dl, hdl, hadv⟩ := advance_pending_late h t hl
  have hlt : id < w.nodes.length := by
    by_contra hge
    rw [List.getElem?_eq_none (by omega)] at hdl
    cases hdl
  rw [hadv]
  refine ⟨⟨rfl, dl, by simp [List.getElem?_set, hlt]⟩, rfl, by simp, ?_⟩
  intro j hj
  simp [List.getElem?_set, Ne.symm hj]

theorem pending_of_early {w : World} {id D : Nat} {e : CtxErr} (h : Pending w id D e)
    (t : Nat) (hl : max w.now t < D) :
    Pending (w.advance t) id D e ∧ (w.advance t).now = max w.now t ∧
      (w.advance t).nodes = w.nodes := by
  rw [advance_pending_early h t hl]
  exact ⟨⟨h.timers, h.node, hl⟩, rfl, rfl⟩

theorem err_pending {w : World} {id D : Nat} {e : CtxErr} (h : Pending w id D e) (p : Ctx) :
    Err w (.cancelable p id) = none := by
  obtain ⟨dl, hdl⟩ := h.node
  simp [Err, hdl]

theorem err_fired {w : World} {id : Nat} {e : CtxErr} (h : Fired w id e) (p : Ctx) :
    Err w (.cancelable p id) = some e := by
  obtain ⟨dl, hdl⟩ := h.node
  simp [Err, hdl]

theorem processLoop_fired (sleeps pick : Nat → Nat) (p : Ctx) {w : World} {id : Nat} {e : CtxErr}
    (h : Fired w id e) (rem i : Nat) :
    processWithTimeoutLoop (.cancelable p id) sleeps pick (rem + 1) i w
      = ([.stopped (some e)], w) := by
  have hd : isDone w (.cancelable p id) = true := by simp [isDone, err_fired h p]
  simp [processWithTimeoutLoop, hd, workerSelect_done, err_fired h p]

theorem processLoop_step (ctx : Ctx) (sleeps pick : Nat → Nat) (rem i : Nat) (w : World)
    (hd : isDone w ctx = false) :
    processWithTimeoutLoop ctx sleeps pick (rem + 1) i w
      = (.step i :: (processWithTimeoutLoop ctx sleeps pick rem (i + 1)
            (w.advance (w.now + sleeps i))).1,
          (processWithTimeoutLoop ctx sleeps pick rem (i + 1) (w.advance (w.now + sleeps i))).2) := by
  rw [processWithTimeoutLoop]
  simp only [hd, workerSelect_pending, World.sleep]

theorem workerLoop_step (ctx : Ctx) (sleeps pick : Nat → Nat) (fuel k : Nat) (w : World)
    (hd : isDone w ctx = false) :
    workerLoop ctx sleeps pick (fuel + 1) k w
      = (workerLoop ctx sleeps pick fuel (k + 1) (w.advance (w.now + sleeps k))).map
          (fun r => (.working :: r.1, r.2)) := by
  rw [workerLoop]
  simp only [hd, workerSelect_pending, World.sleep]

theorem processLoop_pending (sleeps pick : Nat → Nat) (p : Ctx) (id D : Nat) (e : CtxErr)
    (hs : ∀ k, 800 ≤ sleeps k) :
    ∀ (rem i : Nat) (w : World), Pending w id D e → D ≤ w.now + 800 * rem →
      ∃ pre w1, processWithTimeoutLoop (.cancelable p id) sleeps pick (rem + 1) i w
          = (pre ++ [.stopped (some e)], w1) ∧
        Fired w1 id e ∧ w1.nodes.length = w.nodes.length ∧ w.now ≤ w1.now ∧
        (∀ j, j ≠ id → w1.nodes[j]? = w.nodes[j]?) := by
  intro rem
  induction rem with
  | zero =>
    intro i w hp hD
    have := hp.early
    omega
  | succ rem ih =>
    intro i w hp hD
    have hd : isDone w (.cancelable p id) = false := by simp [isDone, err_pending hp p]
    have hnow := hp.early
    have hsl := hs i
    have hmax : max w.now (w.now + sleeps i) = w.now + sleeps i := by omega
    rw [processLoop_step _ sleeps pick (rem + 1) i w hd]
    by_cases hl : D ≤ w.now + sleeps i
    · obtain ⟨hF, hn, hlen, hoth⟩ := fired_of_late hp (w.now + sleeps i) (by omega)
      rw [processLoop_fired sleeps pick p hF rem (i + 1)]
      refine ⟨[.step i], _, rfl, hF, hlen, ?_, hoth⟩
      show w.now ≤ (w.advance (w.now + sleeps i)).now
      rw [hn, hmax]
      omega
    · obtain ⟨hP, hn, hnodes⟩ := pending_of_early hp (w.now + sleeps i) (by omega)
      obtain ⟨pre, w1, hrun, hF, hlen, hle, hoth⟩ := ih (i + 1) _ hP (by omega)
      rw [hrun]
      rw [hn, hmax] at hle
      refine ⟨.step i :: pre, w1, rfl, hF, by rw [hlen, hnodes], by omega, ?_⟩
      intro j hj
      rw [hoth j hj, hnodes]

theorem workerLoop_pending (sleeps pick : Nat → Nat) (p : Ctx) (id D : Nat) (e : CtxErr)
    (hs : ∀ k, 500 ≤ sleeps k) :
    ∀ (fuel k : Nat) (w : World), Pending w id D e → D + 500 ≤ w.now + 500 * fuel →
      ∃ n w1, workerLoop (.cancelable p id) sleeps pick fuel k w
          = some (List.replicate n .working ++ [.stopped (some e)], w1) ∧
        Fired w1 id e := by
  intro fuel
  induction fuel with
  | zero =>
    intro k w hp hD
    have := hp.early
    omega
  | succ fuel ih =>
    intro k w hp hD
    have hd : isDone w (.cancelable p id) = false := by simp [isDone, err_pending hp p]
    have hnow := hp.early
    have hsl := hs k
    rw [workerLoop_step _ sleeps pick fuel k w hd]
    by_cases hl : D ≤ w.now + sleeps k
    · obtain ⟨hF, _, _, _⟩ := fired_of_late hp (w.now + sleeps k) (by omega)
      obtain ⟨f, hf⟩ : ∃ f, fuel = f + 1 := ⟨fuel - 1, by omega⟩
      subst hf
      have hdone : isDone (w.advance (w.now + sleeps k)) (.cancelable p id) = true := by
        simp [isDone, err_fired hF p]
      rw [workerLoop_done _ sleeps pick f (k + 1) _ hdone, err_fired hF p]
      exact ⟨1, _, rfl, hF⟩
    · obtain ⟨hP, hn, _⟩ := pending_of_early hp (w.now + sleeps k) (by omega)
      obtain ⟨n, w1, hrun, hF⟩ := ih (k + 1) _ hP (by omega)
      rw [hrun]
      exact ⟨n + 1, w1, by simp [List.replicate_succ], hF⟩

/-- An explicit cancel before the deadline wins: the timer firing later does not
change the cause. -/
theorem cancel_before_deadline (d t u : Nat) (ht : t < d) :
    Err ((((WithTimeout World.start .background d).2.advance t).cancel
          (WithTimeout World.start .background d).1.2).advance u)
        (WithTimeout World.start .background d).1.1 = some .canceled := by
  have hd : 0 < d := by omega
  have hnd : ¬ (d ≤ 0) := by omega
  have hsetup : WithTimeout World.start .background d
      = ((.cancelable .background 0, 0),
          ⟨0, [⟨none, [], none, some d⟩], [⟨d, 0, .deadlineExceeded⟩]⟩) := by
    simp [WithTimeout, WithDeadline, Deadline, newTimerCtx, newChild, cancelerOf, World.start,
      addTimer, hnd]
  have hP : Pending (⟨0, [⟨none, [], none, some d⟩], [⟨d, 0, .deadlineExceeded⟩]⟩ : World) 0 d
      .deadlineExceeded := ⟨rfl, ⟨_, rfl⟩, hd⟩
  rw [hsetup]
  simp only
  rw [advance_pending_early hP t (by simpa using ht)]
  have hc : cancelTop [⟨none, [], none, some d⟩] 0 .canceled
      = [⟨some .canceled, [], none, some d⟩] := cancelTop_leaf _ 0 .canceled (some d) rfl
  have hc2 : cancelTop [⟨some .canceled, [], none, some d⟩] 0 .deadlineExceeded
      = [⟨some .canceled, [], none, some d⟩] := cancelTop_finished _ 0 _ _ rfl rfl
  simp only [World.cancel, World.advance, fire, hc, hc2, Err]
  split <;> rfl

/-- C8. The cause reported after `Done()` is that of the first transition.
The worker of `cancelContextDemo`, whose context is cancelled by the 3 s
`AfterFunc` and has no deadline, returns (given fuel for 7 iterations, every
sleep lasting at least its 500 ms) after printing `Err() = Canceled`.  In
`timeoutContextDemo`, every sleep lasting at least its 800 ms,
`processWithTimeout` ends both for the 2 s `WithTimeout` context and for the 3 s
`WithDeadline` context by printing `Err() = DeadlineExceeded`; both contexts are
already done when the deferred `cancel2()` and `cancel()` run, and afterwards
their `Err()` is still `DeadlineExceeded`.  With exact sleeps the traces are
those listed.  Conversely a `WithTimeout` context cancelled before its deadline
reports `Canceled`, also after the deadline has passed. -/
theorem first_cause_wins :
    (∀ (sleeps pick : Nat → Nat) (fuel : Nat), (∀ k, 500 ≤ sleeps k) → 7 ≤ fuel →
      ∃ n w, cancelContextDemo sleeps pick fuel
        = some (List.replicate n .working ++ [.stopped (some .canceled), .wgDone], w)) ∧
    (∀ (sleeps1 sleeps2 pick : Nat → Nat), (∀ k, 800 ≤ sleeps1 k) → (∀ k, 800 ≤ sleeps2 k) →
      (∃ pre, (timeoutContextDemo sleeps1 sleeps2 pick).task1
        = pre ++ [.stopped (some .deadlineExceeded)]) ∧
      (∃ pre, (timeoutContextDemo sleeps1 sleeps2 pick).task2
        = pre ++ [.stopped (some .deadlineExceeded)]) ∧
      Err (timeoutContextDemo sleeps1 sleeps2 pick).beforeDefers
        (timeoutContextDemo sleeps1 sleeps2 pick).timeoutCtx = some .deadlineExceeded ∧
      Err (timeoutContextDemo sleeps1 sleeps2 pick).beforeDefers
        (timeoutContextDemo sleeps1 sleeps2 pick).deadlineCtx = some .deadlineExceeded ∧
      Err (timeoutContextDemo sleeps1 sleeps2 pick).final
        (timeoutContextDemo sleeps1 sleeps2 pick).timeoutCtx = some .deadlineExceeded ∧
      Err (timeoutContextDemo sleeps1 sleeps2 pick).final
        (timeoutContextDemo sleeps1 sleeps2 pick).deadlineCtx = some .deadlineExceeded) ∧
    (cancelContextDemo (fun _ => 500) (fun _ => 0) 7).map Prod.fst
      = some (List.replicate 6 .working ++ [.stopped (some .canceled), .wgDone]) ∧
    (timeoutContextDemo (fun _ => 800) (fun _ => 800) (fun _ => 0)).task1
      = [.step 1, .step 2, .step 3, .stopped (some .deadlineExceeded)] ∧
    (timeoutContextDemo (fun _ => 800) (fun _ => 800) (fun _ => 0)).task2
      = [.step 1, .step 2, .step 3, .step 4, .stopped (some .deadlineExceeded)] ∧
    (∀ d t u : Nat, t < d →
      Err ((((WithTimeout World.start .background d).2.advance t).cancel
            (WithTimeout World.start .background d).1.2).advance u)
          (WithTimeout World.start .background d).1.1 = some .canceled) := by
  refine ⟨?_, ?_, by decide, by decide, by decide, cancel_before_deadline⟩
  · intro sleeps pick fuel hs hfuel
    have hP : Pending (⟨0, [⟨none, [], none, none⟩], [⟨3000, 0, .canceled⟩]⟩ : World) 0 3000
        .canceled := ⟨rfl, ⟨none, rfl⟩, by decide⟩
    obtain ⟨n, w1, hrun, _⟩ := workerLoop_pending sleeps pick .background 0 3000 .canceled hs
      fuel 0 _ hP (by simp; omega)
    refine ⟨n, w1, ?_⟩
    have hsetup : cancelContextDemo sleeps pick fuel
        = worker (.cancelable .background 0) sleeps pick fuel
            ⟨0, [⟨none, [], none, none⟩], [⟨3000, 0, .canceled⟩]⟩ := rfl
    rw [hsetup]
    simp [worker, hrun]
  · intro sleeps1 sleeps2 pick hs1 hs2
    have hP1 : Pending (⟨0, [⟨none, [], none, some 2000⟩], [⟨2000, 0, .deadlineExceeded⟩]⟩ : World)
        0 2000 .deadlineExceeded := ⟨rfl, ⟨some 2000, rfl⟩, by decide⟩
    obtain ⟨pre1, w1, hrun1, hF1, hlen1, _, _⟩ :=
      processLoop_pending sleeps1 pick .background 0 2000 .deadlineExceeded hs1 4 1 _ hP1
        (by simp)
    have hlen1 : w1.nodes.length = 1 := by simpa using hlen1
    obtain ⟨dl1, hnode1⟩ := hF1.node
    have hnodes1 : w1.nodes = [⟨some .deadlineExceeded, [], none, dl1⟩] := by
      match hw : w1.nodes, hlen1, hnode1 with
      | [a], _, hnode1 =>
        simp only [List.getElem?_cons_zero, Option.some.injEq] at hnode1
        rw [hnode1]
    have hw1 : w1 = ⟨w1.now, [⟨some .deadlineExceeded, [], none, dl1⟩], []⟩ := by
      cases w1
      simp only [World.mk.injEq, true_and]
      exact ⟨hnodes1, hF1.timers⟩
    have hsetup2 : WithDeadline w1 .background (w1.now + 3000)
        = ((.cancelable .background 1, 1),
            ⟨w1.now, [⟨some .deadlineExceeded, [], none, dl1⟩,
                      ⟨none, [], none, some (w1.now + 3000)⟩],
              [⟨w1.now + 3000, 1, .deadlineExceeded⟩]⟩) := by
      rw [hw1]
      simp [WithDeadline, Deadline, newTimerCtx, newChild, cancelerOf, addTimer]
    have hP2 : Pending (⟨w1.now, [⟨some .deadlineExceeded, [], none, dl1⟩,
                      ⟨none, [], none, some (w1.now + 3000)⟩],
              [⟨w1.now + 3000, 1, .deadlineExceeded⟩]⟩ : World) 1 (w1.now + 3000)
        .deadlineExceeded := ⟨rfl, ⟨_, rfl⟩, by simp⟩
    obtain ⟨pre2, w2, hrun2, hF2, _, _, hoth2⟩ :=
      processLoop_pending sleeps2 pick .background 1 (w1.now + 3000) .deadlineExceeded hs2 4 1 _
        hP2 (by simp)
    have hnode0 : w2.nodes[0]? = some ⟨some .deadlineExceeded, [], none, dl1⟩ := by
      rw [hoth2 0 (by decide)]
      rfl
    obtain ⟨dl2, hnode2⟩ := hF2.node
    have hsetup1 : WithTimeout World.start .background 2000
        = ((.cancelable .background 0, 0),
            ⟨0, [⟨none, [], none, some 2000⟩], [⟨2000, 0, .deadlineExceeded⟩]⟩) := rfl
    have hc1 : cancelTop w2.nodes 1 .canceled = w2.nodes :=
      cancelTop_finished _ _ _ _ hnode2 rfl
    have hc0 : cancelTop w2.nodes 0 .canceled = w2.nodes :=
      cancelTop_finished _ _ _ _ hnode0 rfl
    have hdemo : timeoutContextDemo sleeps1 sleeps2 pick
        = ⟨pre1 ++ [.stopped (some .deadlineExceeded)], pre2 ++ [.stopped (some .deadlineExceeded)],
            .cancelable .background 0, .cancelable .background 1, w2, w2⟩ := by
      simp only [timeoutContextDemo, processWithTimeout, hsetup1]
      rw [hrun1]
      simp only [hsetup2]
      rw [hrun2]
      simp only [World.cancel, hc1, hc0]
    rw [hdemo]
    simp only [Err, hnode0, hnode2]
    exact ⟨⟨pre1, rfl⟩, ⟨pre2, rfl⟩, rfl, rfl, rfl, rfl⟩

/-! ### Propagation for every tree of contexts -/

theorem finishes_refl (e : CtxErr) (ns : List CNode) : Finishes e ns ns :=
  ⟨rfl, fun _ _ h => Or.inl h⟩

theorem finishes_trans {e : CtxErr} {a b c : List CNode} (h1 : Finishes e a b) (h2 : Finishes e b c) :
    Finishes e a c := by
  refine ⟨h2.len.trans h1.len, ?_⟩
  intro j n hj
  rcases h1.node j n hj with hb | ⟨hn, hb⟩
  · exact h2.node j n hb
  · rcases h2.node j _ hb with hc | ⟨hn2, _⟩
    · exact Or.inr ⟨hn, hc⟩
    · simp at hn2

theorem finishes_set {e : CtxErr} {ns : List CNode} {id : Nat} {n : CNode} (h : ns[id]? = some n)
    (hn : n.err = none) : Finishes e ns (ns.set id { n with err := some e, children := [] }) := by
  refine ⟨by simp, ?_⟩
  intro j m hj
  by_cases hji : id = j
  · subst hji
    rw [h] at hj
    cases hj
    have hlt : id < ns.length := by
      by_contra hge
      rw [List.getElem?_eq_none (by omega)] at h
      cases h
    exact Or.inr ⟨hn, by simp [List.getElem?_set, hlt]⟩
  · exact Or.inl (by simp [List.getElem?_set, hji, hj])

/-- Facts carried from `ns` to an extension. -/
theorem finishes_back {e : CtxErr} {ns ns1 : List CNode} (h : Finishes e ns ns1) {j : Nat} {m : CNode}
    (hj : ns1[j]? = some m) :
    ∃ n, ns[j]? = some n ∧ n.parent = m.parent ∧
      (m = n ∨ (n.err = none ∧ m = { n with err := some e, children := [] })) := by
  have hlt : j < ns.length := by
    by_contra hge
    rw [List.getElem?_eq_none (by rw [h.len]; omega)] at hj
    cases hj
  obtain ⟨n, hn⟩ : ∃ n, ns[j]? = some n := ⟨ns[j], by simp [hlt]⟩
  refine ⟨n, hn, ?_⟩
  rcases h.node j n hn with h1 | ⟨h0, h1⟩
  · rw [h1] at hj
    cases hj
    exact ⟨rfl, Or.inl rfl⟩
  · rw [h1] at hj
    cases hj
    exact ⟨rfl, Or.inr ⟨h0, rfl⟩⟩

theorem finishes_done_mono {e : CtxErr} {ns ns1 : List CNode} (h : Finishes e ns ns1) {j : Nat} {n : CNode}
    (hj : ns[j]? = some n) (hd : n.err.isSome = true) :
    ∃ m, ns1[j]? = some m ∧ m.err.isSome = true := by
  rcases h.node j n hj with h1 | ⟨h0, _⟩
  · exact ⟨n, h1, hd⟩
  · rw [h0] at hd
    simp at hd

theorem finishes_ok {e : CtxErr} {ns ns1 : List CNode} (h : Finishes e ns ns1) (hok : NodesOk ns) :
    NodesOk ns1 := by
  constructor
  · intro c m p hc hp
    obtain ⟨n, hn, hpar, _⟩ := finishes_back h hc
    exact hok.older c n p hn (by rw [hpar]; exact hp)
  · intro c m p pm hc hp hpn hm hpm
    obtain ⟨n, hn, hpar, hcase⟩ := finishes_back h hc
    obtain ⟨pn, hpn1, _, hpcase⟩ := finishes_back h hpn
    have hmn : m = n := by
      rcases hcase with h1 | ⟨_, h1⟩
      · exact h1
      · rw [h1] at hm; simp at hm
    have hpmn : pm = pn := by
      rcases hpcase with h1 | ⟨_, h1⟩
      · exact h1
      · rw [h1] at hpm; simp at hpm
    subst hmn; subst hpmn
    exact hok.reg c m p pm hn hp hpn1 hm hpm
  · intro p pm c hp hc
    obtain ⟨pn, hpn, _, hcase⟩ := finishes_back h hp
    rcases hcase with h1 | ⟨_, h1⟩
    · subst h1
      exact hok.younger p pm c hpn hc
    · rw [h1] at hc
      simp at hc

theorem finishes_doneAt {e : CtxErr} {ns ns1 : List CNode} (h : Finishes e ns ns1) {j : Nat}
    (hd : doneAt ns j) : doneAt ns1 j := by
  obtain ⟨n, hn, hdn⟩ := hd
  exact finishes_done_mono h hn hdn

theorem closed_step {e : CtxErr} {a b c : List CNode} (hab : Finishes e a b) (hbc : Finishes e b c)
    (h1 : Closed a b) (h2 : Closed b c) : Closed a c := by
  intro ch n p pn hc hp hpn hpend hdone
  rcases hab.node p pn hpn with hb | ⟨_, hb⟩
  · -- `p` still pending in `b`
    rcases hab.node ch n hc with hcb | ⟨_, hcb⟩
    · exact h2 ch n p pn hcb hp hb hpend hdone
    · exact finishes_doneAt hbc ⟨_, hcb, rfl⟩
  · -- `p` finished between `a` and `b`
    exact finishes_doneAt hbc (h1 ch n p pn hc hp hpn hpend ⟨_, hb, rfl⟩)

theorem fold_spec (e : CtxErr) (fuel id : Nat)
    (ih : ∀ (ns : List CNode) (c : Nat), NodesOk ns → ns.length ≤ fuel + c →
      Finishes e ns (cancelAux fuel ns c e) ∧
      (∀ n, ns[c]? = some n → doneAt (cancelAux fuel ns c e) c) ∧
      Closed ns (cancelAux fuel ns c e)) :
    ∀ (L : List Nat) (cur : List CNode), (∀ c ∈ L, id < c) → NodesOk cur →
      cur.length ≤ fuel + 1 + id →
      Finishes e cur (L.foldl (fun acc c => cancelAux fuel acc c e) cur) ∧
      (∀ c ∈ L, c < cur.length → doneAt (L.foldl (fun acc c => cancelAux fuel acc c e) cur) c) ∧
      Closed cur (L.foldl (fun acc c => cancelAux fuel acc c e) cur) := by
  intro L
  induction L with
  | nil =>
    intro cur _ _ _
    refine ⟨finishes_refl e cur, by simp, ?_⟩
    intro c n p pn _ _ hpn hpend hdone
    obtain ⟨m, hm, hd⟩ := hdone
    rw [List.foldl_nil, hpn] at hm
    cases hm
    rw [hpend] at hd
    simp at hd
  | cons c L ihL =>
    intro cur hL hok hlen
    have hc : id < c := hL c (List.mem_cons_self _ _)
    obtain ⟨hF1, hD1, hC1⟩ := ih cur c hok (by omega)
    have hok1 := finishes_ok hF1 hok
    obtain ⟨hF2, hD2, hC2⟩ := ihL (cancelAux fuel cur c e)
      (fun x hx => hL x (List.mem_cons_of_mem _ hx)) hok1 (by rw [hF1.len]; exact hlen)
    simp only [List.foldl_cons]
    refine ⟨finishes_trans hF1 hF2, ?_, closed_step hF1 hF2 hC1 hC2⟩
    intro x hx hxlt
    rcases List.mem_cons.1 hx with hxc | hxL
    · subst hxc
      obtain ⟨n, hn⟩ : ∃ n, cur[x]? = some n := ⟨cur[x], by simp [hxlt]⟩
      exact finishes_doneAt hF2 (hD1 n hn)
    · exact hD2 x hxL (by rw [hF1.len]; exact hxlt)

theorem cancelAux_spec (e : CtxErr) : ∀ (fuel : Nat) (ns : List CNode) (id : Nat), NodesOk ns →
    ns.length ≤ fuel + id →
    Finishes e ns (cancelAux fuel ns id e) ∧
    (∀ n, ns[id]? = some n → doneAt (cancelAux fuel ns id e) id) ∧
    Closed ns (cancelAux fuel ns id e) := by
  have hclosed_refl : ∀ ns : List CNode, Closed ns ns := by
    intro ns c n p pn _ _ hpn hpend hdone
    obtain ⟨m, hm, hd⟩ := hdone
    rw [hpn] at hm
    cases hm
    rw [hpend] at hd
    simp at hd
  intro fuel
  induction fuel with
  | zero =>
    intro ns id _ hlen
    simp only [cancelAux]
    refine ⟨finishes_refl e ns, ?_, hclosed_refl ns⟩
    intro n hn
    rw [List.getElem?_eq_none (by omega)] at hn
    cases hn
  | succ fuel ih =>
    intro ns id hok hlen
    rw [cancelAux]
    cases hid : ns[id]? with
    | none =>
      simp only
      exact ⟨finishes_refl e ns, fun n hn => (by cases hn), hclosed_refl ns⟩
    | some n =>
      simp only
      by_cases hdone : n.err.isSome = true
      · simp only [hdone, if_true]
        refine ⟨finishes_refl e ns, ?_, hclosed_refl ns⟩
        intro _ _
        exact ⟨n, hid, hdone⟩
      · simp only [hdone, if_false]
        have hnone : n.err = none := by
          cases hn : n.err with
          | none => rfl
          | some x => rw [hn] at hdone; simp at hdone
        have hF0 : Finishes e ns (ns.set id { n with err := some e, children := [] }) :=
          finishes_set hid hnone
        have hok0 := finishes_ok hF0 hok
        obtain ⟨hF, hD, hC⟩ := fold_spec e fuel id ih n.children
          (ns.set id { n with err := some e, children := [] })
          (fun c hc => hok.younger id n c hid hc) hok0 (by simp; omega)
        have hlt : id < ns.length := by
          by_contra hge
          rw [List.getElem?_eq_none (by omega)] at hid
          cases hid
        have hset : (ns.set id { n with err := some e, children := [] })[id]?
            = some { n with err := some e, children := [] } := by
          simp [List.getElem?_set, hlt]
        refine ⟨finishes_trans hF0 hF, ?_, ?_⟩
        · intro _ _
          exact finishes_doneAt hF ⟨_, hset, rfl⟩
        · intro c nc p pn hc hp hpn hpend hpdone
          by_cases hpid : p = id
          · subst hpid
            rw [hid] at hpn
            cases hpn
            cases hce : nc.err with
            | some x => exact finishes_doneAt (finishes_trans hF0 hF) ⟨nc, hc, by rw [hce]; rfl⟩
            | none =>
              have hmem := hok.reg c nc p n hc hp hid hce hnone
              have hclt : c < ns.length := by
                by_contra hge
                rw [List.getElem?_eq_none (by omega)] at hc
                cases hc
              exact hD c hmem (by simpa using hclt)
          · have hp0 : (ns.set id { n with err := some e, children := [] })[p]? = some pn := by
              simp [List.getElem?_set, Ne.symm hpid, hpn]
            rcases hF0.node c nc hc with hc0 | ⟨_, hc0⟩
            · exact hC c nc p pn hc0 hp hp0 hpend hpdone
            · exact finishes_doneAt hF ⟨_, hc0, rfl⟩

theorem getElem?_some_lt {ns : List CNode} {j : Nat} {n : CNode} (h : ns[j]? = some n) :
    j < ns.length := by
  by_contra hge
  rw [List.getElem?_eq_none (by omega)] at h
  cases h

theorem cancelAux_propagated (e : CtxErr) (fuel : Nat) (ns : List CNode) (id : Nat)
    (hok : NodesOk ns) (hp : Propagated ns) (hlen : ns.length ≤ fuel + id) :
    Propagated (cancelAux fuel ns id e) := by
  obtain ⟨hF, _, hC⟩ := cancelAux_spec e fuel ns id hok hlen
  intro c m p pm hc hpar hpm hdone
  obtain ⟨n, hn, hparn, _⟩ := finishes_back hF hc
  obtain ⟨pn, hpn, _, _⟩ := finishes_back hF hpm
  cases hpe : pn.err with
  | some x =>
    obtain ⟨m1, hm1, hd1⟩ := finishes_done_mono hF hn
      (hp c n p pn hn (by rw [hparn]; exact hpar) hpn (by rw [hpe]; rfl))
    rw [hc] at hm1
    cases hm1
    exact hd1
  | none =>
    obtain ⟨m1, hm1, hd1⟩ := hC c n p pn hn (by rw [hparn]; exact hpar) hpn hpe ⟨pm, hpm, hdone⟩
    rw [hc] at hm1
    cases hm1
    exact hd1

/-- What `removeChild` changes: only the `children` of one context, from which
`id` is dropped. -/
theorem removeChild_node (ns : List CNode) (id j : Nat) (m : CNode)
    (h : (removeChild ns id)[j]? = some m) :
    ∃ n, ns[j]? = some n ∧ m.err = n.err ∧ m.parent = n.parent ∧
      (∀ c, c ∈ m.children → c ∈ n.children) ∧
      (∀ c, c ∈ n.children → c ≠ id → c ∈ m.children) := by
  unfold removeChild at h
  split at h
  · exact ⟨m, h, rfl, rfl, fun _ hc => hc, fun _ hc _ => hc⟩
  · split at h
    · exact ⟨m, h, rfl, rfl, fun _ hc => hc, fun _ hc _ => hc⟩
    · rename_i p _
      split at h
      · exact ⟨m, h, rfl, rfl, fun _ hc => hc, fun _ hc _ => hc⟩
      · rename_i pn hpn
        by_cases hjp : p = j
        · subst hjp
          have hlt := getElem?_some_lt hpn
          simp only [List.getElem?_set, hlt, if_true, Option.some.injEq] at h
          subst h
          refine ⟨pn, hpn, rfl, rfl, ?_, ?_⟩
          · intro c hc
            exact (List.mem_filter.1 hc).1
          · intro c hc hne
            exact List.mem_filter.2 ⟨hc, by simpa using hne⟩
        · simp only [List.getElem?_set, hjp, if_false] at h
          exact ⟨m, h, rfl, rfl, fun _ hc => hc, fun _ hc _ => hc⟩

theorem removeChild_length (ns : List CNode) (id : Nat) :
    (removeChild ns id).length = ns.length := by
  unfold removeChild
  split
  · rfl
  · split
    · rfl
    · split
      · rfl
      · simp

theorem removeChild_propagated (ns : List CNode) (id : Nat) (hp : Propagated ns) :
    Propagated (removeChild ns id) := by
  intro c m p pm hc hpar hpm hdone
  obtain ⟨n, hn, he, hparn, _⟩ := removeChild_node ns id c m hc
  obtain ⟨pn, hpn, hpe, _⟩ := removeChild_node ns id p pm hpm
  rw [he]
  exact hp c n p pn hn (by rw [← hparn]; exact hpar) hpn (by rw [← hpe]; exact hdone)

theorem removeChild_ok (ns : List CNode) (id : Nat) (hok : NodesOk ns) (hd : doneAt ns id) :
    NodesOk (removeChild ns id) := by
  constructor
  · intro c m p hc hpar
    obtain ⟨n, hn, _, hparn, _⟩ := removeChild_node ns id c m hc
    exact hok.older c n p hn (by rw [← hparn]; exact hpar)
  · intro c m p pm hc hpar hpm hme hpme
    obtain ⟨n, hn, he, hparn, _⟩ := removeChild_node ns id c m hc
    obtain ⟨pn, hpn, hpe, _, _, hkeep⟩ := removeChild_node ns id p pm hpm
    have hmem := hok.reg c n p pn hn (by rw [← hparn]; exact hpar) hpn (by rw [← he]; exact hme)
      (by rw [← hpe]; exact hpme)
    refine hkeep c hmem ?_
    rintro rfl
    obtain ⟨x, hx, hxd⟩ := hd
    rw [hn] at hx
    cases hx
    rw [← he, hme] at hxd
    simp at hxd
  · intro p pm c hpm hc
    obtain ⟨pn, hpn, _, _, hsub, _⟩ := removeChild_node ns id p pm hpm
    exact hok.younger p pn c hpn (hsub c hc)

theorem cancelTop_ok (ns : List CNode) (id : Nat) (e : CtxErr) (hok : NodesOk ns)
    (hp : Propagated ns) : NodesOk (cancelTop ns id e) ∧ Propagated (cancelTop ns id e) ∧
      (cancelTop ns id e).length = ns.length := by
  cases hid : ns[id]? with
  | none =>
    have h : cancelTop ns id e = ns := by simp [cancelTop, hid]
    rw [h]
    exact ⟨hok, hp, rfl⟩
  | some n =>
    by_cases hdone : n.err.isSome = true
    · rw [cancelTop_finished ns id e n hid hdone]
      exact ⟨hok, hp, rfl⟩
    · have h : cancelTop ns id e = removeChild (cancelAux ns.length ns id e) id := by
        simp [cancelTop, hid, hdone]
      rw [h]
      obtain ⟨hF, hD, _⟩ := cancelAux_spec e ns.length ns id hok (by omega)
      refine ⟨removeChild_ok _ id (finishes_ok hF hok) (hD n hid),
        removeChild_propagated _ id (cancelAux_propagated e _ ns id hok hp (by omega)), ?_⟩
      rw [removeChild_length, hF.len]

theorem snoc_getElem? (ns1 : List CNode) (x : CNode) (j : Nat) (m : CNode)
    (h : (ns1 ++ [x])[j]? = some m) :
    (j < ns1.length ∧ ns1[j]? = some m) ∨ (j = ns1.length ∧ m = x) := by
  by_cases hj : j < ns1.length
  · rw [List.getElem?_append_left hj] at h
    exact Or.inl ⟨hj, h⟩
  · rw [List.getElem?_append_right (by omega)] at h
    by_cases hje : j = ns1.length
    · subst hje
      simp at h
      exact Or.inr ⟨rfl, h.symm⟩
    · have : j - ns1.length ≠ 0 := by omega
      obtain ⟨k, hk⟩ : ∃ k, j - ns1.length = k + 1 := ⟨j - ns1.length - 1, by omega⟩
      rw [hk] at h
      simp at h

/-- Adding one context at the end, possibly registering it with its parent,
keeps the links well formed and propagation intact. -/
theorem extend_ok (ns ns1 : List CNode) (x : CNode) (hlen : ns1.length = ns.length)
    (hnode : ∀ (j : Nat) (m : CNode), ns1[j]? = some m →
      ∃ n, ns[j]? = some n ∧ m.err = n.err ∧ m.parent = n.parent ∧
        (∀ c, c ∈ n.children → c ∈ m.children) ∧
        (∀ c, c ∈ m.children → c ∈ n.children ∨ c = ns.length))
    (hxc : x.children = [])
    (hxp : ∀ p, x.parent = some p → ∃ pm, ns1[p]? = some pm ∧
      (pm.err.isSome = true → x.err.isSome = true) ∧
      (x.err = none → pm.err = none → ns.length ∈ pm.children))
    (hok : NodesOk ns) (hp : Propagated ns) :
    NodesOk (ns1 ++ [x]) ∧ Propagated (ns1 ++ [x]) := by
  have hparent_lt : ∀ (c : Nat) (m : CNode) (p : Nat), (ns1 ++ [x])[c]? = some m →
      m.parent = some p → p < ns1.length ∧ p < c := by
    intro c m p hc hpar
    rcases snoc_getElem? ns1 x c m hc with ⟨hclt, hc1⟩ | ⟨hce, hmx⟩
    · obtain ⟨n, hn, _, hparn, _⟩ := hnode c m hc1
      have := hok.older c n p hn (by rw [← hparn]; exact hpar)
      exact ⟨by omega, this⟩
    · subst hmx
      obtain ⟨pm, hpm, _⟩ := hxp p hpar
      have := getElem?_some_lt hpm
      exact ⟨this, by omega⟩
  constructor
  · constructor
    · intro c m p hc hpar
      exact (hparent_lt c m p hc hpar).2
    · intro c m p pm hc hpar hpm hme hpme
      have hplt := (hparent_lt c m p hc hpar).1
      rw [List.getElem?_append_left hplt] at hpm
      rcases snoc_getElem? ns1 x c m hc with ⟨_, hc1⟩ | ⟨hcl, hmx⟩
      · obtain ⟨n, hn, he, hparn, _⟩ := hnode c m hc1
        obtain ⟨pn, hpn, hpe, _, hsub, _⟩ := hnode p pm hpm
        exact hsub c (hok.reg c n p pn hn (by rw [← hparn]; exact hpar) hpn
          (by rw [← he]; exact hme) (by rw [← hpe]; exact hpme))
      · subst hmx
        obtain ⟨pm1, hpm1, _, hreg⟩ := hxp p hpar
        rw [hpm] at hpm1
        cases hpm1
        have := hreg hme hpme
        rw [hcl, hlen]
        exact this
    · intro p pm c hpm hc
      rcases snoc_getElem? ns1 x p pm hpm with ⟨hplt, hp1⟩ | ⟨_, hmx⟩
      · obtain ⟨pn, hpn, _, _, _, hsup⟩ := hnode p pm hp1
        rcases hsup c hc with hold | hnew
        · exact hok.younger p pn c hpn hold
        · omega
      · subst hmx
        rw [hxc] at hc
        simp at hc
  · intro c m p pm hc hpar hpm hdone
    have hplt := (hparent_lt c m p hc hpar).1
    rw [List.getElem?_append_left hplt] at hpm
    rcases snoc_getElem? ns1 x c m hc with ⟨_, hc1⟩ | ⟨_, hmx⟩
    · obtain ⟨n, hn, he, hparn, _⟩ := hnode c m hc1
      obtain ⟨pn, hpn, hpe, _⟩ := hnode p pm hpm
      rw [he]
      exact hp c n p pn hn (by rw [← hparn]; exact hpar) hpn (by rw [← hpe]; exact hdone)
    · subst hmx
      obtain ⟨pm1, hpm1, hprop, _⟩ := hxp p hpar
      rw [hpm] at hpm1
      cases hpm1
      exact hprop hdone

theorem newChild_ok (w : World) (parent : Ctx) (dl : Option Nat) (hok : NodesOk w.nodes)
    (hp : Propagated w.nodes) :
    NodesOk (newChild w parent dl).2.nodes ∧ Propagated (newChild w parent dl).2.nodes := by
  have hsame : ∀ (j : Nat) (m : CNode), w.nodes[j]? = some m →
      ∃ n, w.nodes[j]? = some n ∧ m.err = n.err ∧ m.parent = n.parent ∧
        (∀ c, c ∈ n.children → c ∈ m.children) ∧
        (∀ c, c ∈ m.children → c ∈ n.children ∨ c = w.nodes.length) :=
    fun j m h => ⟨m, h, rfl, rfl, fun _ hc => hc, fun _ hc => Or.inl hc⟩
  unfold newChild
  simp only
  split
  · exact extend_ok w.nodes w.nodes _ rfl hsame rfl (fun p h => by simp at h) hok hp
  · rename_i p _
    split
    · exact extend_ok w.nodes w.nodes _ rfl hsame rfl (fun p h => by simp at h) hok hp
    · rename_i pn hpn
      split
      · rename_i e he
        refine extend_ok w.nodes w.nodes _ rfl hsame rfl ?_ hok hp
        intro q hq
        simp only [Option.some.injEq] at hq
        subst hq
        exact ⟨pn, hpn, fun _ => rfl, fun h => by simp at h⟩
      · rename_i he
        have hplt := getElem?_some_lt hpn
        refine extend_ok w.nodes _ _ (by simp) ?_ rfl ?_ hok hp
        · intro j m hj
          by_cases hjp : p = j
          · subst hjp
            simp only [List.getElem?_set, hplt, if_true, Option.some.injEq] at hj
            subst hj
            refine ⟨pn, hpn, rfl, rfl, ?_, ?_⟩
            · intro c hc
              exact List.mem_append_left _ hc
            · intro c hc
              rcases List.mem_append.1 hc with h1 | h1
              · exact Or.inl h1
              · exact Or.inr (by simpa using h1)
          · simp only [List.getElem?_set, hjp, if_false] at hj
            exact hsame j m hj
        · intro q hq
          simp only [Option.some.injEq] at hq
          subst hq
          refine ⟨{ pn with children := pn.children ++ [w.nodes.length] }, ?_, ?_, ?_⟩
          · simp [List.getElem?_set, hplt]
          · intro h
            rw [he] at h
            simp at h
          · intro _ _
            simp

theorem worldOk_start : WorldOk World.start := by
  refine ⟨⟨?_, ?_, ?_⟩, ?_⟩ <;> intro a b <;> simp [World.start]

theorem fire_ok (now : Nat) : ∀ (tms : List Timer) (ns : List CNode), NodesOk ns → Propagated ns →
    NodesOk (fire now tms ns).2 ∧ Propagated (fire now tms ns).2 := by
  intro tms
  induction tms with
  | nil => intro ns hok hp; exact ⟨hok, hp⟩
  | cons tm rest ih =>
    intro ns hok hp
    simp only [fire]
    split
    · obtain ⟨h1, h2, _⟩ := cancelTop_ok ns tm.id tm.cause hok hp
      exact ih _ h1 h2
    · exact ⟨hok, hp⟩

theorem withCancel_ok (w : World) (parent : Ctx) (h : WorldOk w) :
    WorldOk (WithCancel w parent).2 :=
  newChild_ok w parent none h.1 h.2

theorem newTimerCtx_ok (w : World) (parent : Ctx) (d : Nat) (h : WorldOk w) :
    WorldOk (newTimerCtx w parent d).2 := by
  have hc := newChild_ok w parent (some d) h.1 h.2
  unfold newTimerCtx
  simp only
  split
  · obtain ⟨h1, h2, _⟩ := cancelTop_ok _ (newChild w parent (some d)).1 .deadlineExceeded hc.1 hc.2
    exact ⟨h1, h2⟩
  · split
    · exact hc
    · exact hc

theorem withDeadline_ok (w : World) (parent : Ctx) (d : Nat) (h : WorldOk w) :
    WorldOk (WithDeadline w parent d).2 := by
  unfold WithDeadline
  split
  · split
    · exact withCancel_ok w parent h
    · exact newTimerCtx_ok w parent d h
  · exact newTimerCtx_ok w parent d h

theorem apply_ok (w : World) (op : WorldOp) (h : WorldOk w) : WorldOk (w.apply op) := by
  cases op with
  | withCancel parent => exact withCancel_ok w parent h
  | withDeadline parent d => exact withDeadline_ok w parent d h
  | withTimeout parent d => exact withDeadline_ok w parent (w.now + d) h
  | cancel id =>
    obtain ⟨h1, h2, _⟩ := cancelTop_ok w.nodes id .canceled h.1 h.2
    exact ⟨h1, h2⟩
  | afterFuncCancel d id => exact h
  | advance t => exact fire_ok _ w.timers w.nodes h.1 h.2

theorem run_ok (ops : List WorldOp) : ∀ (w : World), WorldOk w → WorldOk (w.run ops) := by
  induction ops with
  | nil => intro w h; exact h
  | cons op rest ih =>
    intro w h
    exact ih _ (apply_ok w op h)

theorem propagated_of (w : World) (h : Propagated w.nodes) : w.propagated = true := by
  unfold World.propagated
  rw [List.all_eq_true]
  intro n hn
  obtain ⟨c, hc⟩ := List.getElem?_of_mem hn
  split
  · rfl
  · rename_i p hp
    split
    · rfl
    · rename_i pn hpn
      cases hd : pn.err.isSome with
      | false => rfl
      | true =>
        have := h c n p pn hc hp hpn hd
        simp [this]

/-- Propagation in general: whatever sequence of `WithCancel`, `WithDeadline`,
`WithTimeout`, `cancel()`, `AfterFunc(cancel)` and passing of time a program
performs, no context is pending while the context it derives from is done. -/
theorem propagation_general (ops : List WorldOp) : (World.start.run ops).propagated = true :=
  propagated_of _ (run_ok ops World.start worldOk_start).2

theorem stable_trans {a b c : List CNode} (h1 : Stable a b) (h2 : Stable b c) : Stable a c := by
  intro j n hj
  obtain ⟨m, hm, hp⟩ := h1 j n hj
  obtain ⟨k, hk, hp2⟩ := h2 j m hm
  exact ⟨k, hk, hp2.trans hp⟩

theorem removeChild_stable (ns : List CNode) (id : Nat) : Stable ns (removeChild ns id) := by
  intro j n hj
  have hlt : j < (removeChild ns id).length := by
    rw [removeChild_length]; exact getElem?_some_lt hj
  obtain ⟨m, hm⟩ : ∃ m, (removeChild ns id)[j]? = some m := ⟨_, List.getElem?_eq_getElem hlt⟩
  obtain ⟨n1, hn1, _, hpar, _⟩ := removeChild_node ns id j m hm
  rw [hj] at hn1
  cases hn1
  exact ⟨m, hm, hpar⟩

theorem cancelTop_stable (ns : List CNode) (id : Nat) (e : CtxErr) (hok : NodesOk ns) :
    Stable ns (cancelTop ns id e) := by
  cases hid : ns[id]? with
  | none =>
    have h : cancelTop ns id e = ns := by simp [cancelTop, hid]
    rw [h]
    exact fun j n hj => ⟨n, hj, rfl⟩
  | some n =>
    by_cases hdone : n.err.isSome = true
    · rw [cancelTop_finished ns id e n hid hdone]
      exact fun j n hj => ⟨n, hj, rfl⟩
    · have h : cancelTop ns id e = removeChild (cancelAux ns.length ns id e) id := by
        simp [cancelTop, hid, hdone]
      rw [h]
      obtain ⟨hF, _, _⟩ := cancelAux_spec e ns.length ns id hok (by omega)
      refine stable_trans ?_ (removeChild_stable _ id)
      intro j m hj
      rcases hF.node j m hj with h1 | ⟨_, h1⟩
      · exact ⟨m, h1, rfl⟩
      · exact ⟨_, h1, rfl⟩

theorem fire_stable (now : Nat) : ∀ (tms : List Timer) (ns : List CNode), NodesOk ns →
    Propagated ns → Stable ns (fire now tms ns).2 := by
  intro tms
  induction tms with
  | nil => intro ns _ _ j n hj; exact ⟨n, hj, rfl⟩
  | cons tm rest ih =>
    intro ns hok hp
    simp only [fire]
    split
    · obtain ⟨h1, h2, _⟩ := cancelTop_ok ns tm.id tm.cause hok hp
      exact stable_trans (cancelTop_stable ns tm.id tm.cause hok) (ih _ h1 h2)
    · exact fun j n hj => ⟨n, hj, rfl⟩

theorem newChild_stable (w : World) (parent : Ctx) (dl : Option Nat) :
    Stable w.nodes (newChild w parent dl).2.nodes := by
  intro j n hj
  have hlt := getElem?_some_lt hj
  unfold newChild
  simp only
  split
  · exact ⟨n, by rw [List.getElem?_append_left hlt]; exact hj, rfl⟩
  · rename_i p _
    split
    · exact ⟨n, by rw [List.getElem?_append_left hlt]; exact hj, rfl⟩
    · rename_i pn hpn
      split
      · exact ⟨n, by rw [List.getElem?_append_left hlt]; exact hj, rfl⟩
      · rw [List.getElem?_append_left (by simpa using hlt)]
        by_cases hjp : p = j
        · subst hjp
          rw [hpn] at hj
          cases hj
          exact ⟨{ n with children := n.children ++ [w.nodes.length] },
            by simp [List.getElem?_set, hlt], rfl⟩
        · exact ⟨n, by simp [List.getElem?_set, hjp, hj], rfl⟩

theorem newTimerCtx_stable (w : World) (parent : Ctx) (d : Nat) (h : WorldOk w) :
    Stable w.nodes (newTimerCtx w parent d).2.nodes := by
  have hc := newChild_ok w parent (some d) h.1 h.2
  have hs := newChild_stable w parent (some d)
  unfold newTimerCtx
  simp only
  split
  · exact stable_trans hs (cancelTop_stable _ _ _ hc.1)
  · split
    · exact hs
    · exact hs

theorem apply_stable (w : World) (op : WorldOp) (h : WorldOk w) :
    Stable w.nodes (w.apply op).nodes := by
  cases op with
  | withCancel parent => exact newChild_stable w parent none
  | withDeadline parent d =>
    simp only [World.apply, WithDeadline]
    split
    · split
      · exact newChild_stable w parent none
      · exact newTimerCtx_stable w parent d h
    · exact newTimerCtx_stable w parent d h
  | withTimeout parent d =>
    simp only [World.apply, WithTimeout, WithDeadline]
    split
    · split
      · exact newChild_stable w parent none
      · exact newTimerCtx_stable w parent _ h
    · exact newTimerCtx_stable w parent _ h
  | cancel id => exact cancelTop_stable w.nodes id .canceled h.1
  | afterFuncCancel d id => exact fun j n hj => ⟨n, hj, rfl⟩
  | advance t => exact fire_stable _ w.timers w.nodes h.1 h.2

theorem run_stable (ops : List WorldOp) : ∀ (w : World), WorldOk w →
    Stable w.nodes (w.run ops).nodes := by
  induction ops with
  | nil => intro w _ j n hj; exact ⟨n, hj, rfl⟩
  | cons op rest ih =>
    intro w h
    exact stable_trans (apply_stable w op h) (ih _ (apply_ok w op h))

theorem err_canceler (w : World) (ctx : Ctx) :
    Err w ctx = (cancelerOf ctx).bind (fun p => (w.nodes[p]?).bind (fun n => n.err)) := by
  induction ctx with
  | background => rfl
  | withValue p k v ih => simpa [Err, cancelerOf] using ih
  | cancelable p id _ => rfl

/-- The new context of `WithCancel` is linked to the cancellable context at or
above its parent. -/
theorem withCancel_link (w : World) (parent : Ctx) (p : Nat) (hc : cancelerOf parent = some p)
    (hp : p < w.nodes.length) :
    ∃ x, (WithCancel w parent).2.nodes[w.nodes.length]? = some x ∧ x.parent = some p := by
  obtain ⟨pn, hpn⟩ : ∃ pn, w.nodes[p]? = some pn := ⟨_, List.getElem?_eq_getElem hp⟩
  simp only [WithCancel, newChild, hc, hpn]
  split
  · rename_i e _
    exact ⟨⟨some e, [], some p, none⟩, by simp, rfl⟩
  · exact ⟨⟨none, [], some p, none⟩, by simp, rfl⟩

theorem newChild_fst (w : World) (parent : Ctx) (dl : Option Nat) :
    (newChild w parent dl).1 = w.nodes.length := by
  unfold newChild
  simp only
  split
  · rfl
  · split
    · rfl
    · split <;> rfl

/-- Propagation for every parent/child pair: a context derived by `WithCancel`
from a valid parent, at any point of any program, is done whenever its parent
is done, whatever the program does afterwards. -/
theorem child_follows_parent (ops1 ops2 : List WorldOp) (parent : Ctx)
    (hvalid : ∀ p, cancelerOf parent = some p → p < (World.start.run ops1).nodes.length)
    (hdone : isDone ((WithCancel (World.start.run ops1) parent).2.run ops2) parent = true) :
    isDone ((WithCancel (World.start.run ops1) parent).2.run ops2)
      (WithCancel (World.start.run ops1) parent).1.1 = true := by
  have hok1 := run_ok ops1 World.start worldOk_start
  have hok2 := withCancel_ok _ parent hok1
  have hok3 := run_ok ops2 _ hok2
  have hst := run_stable ops2 _ hok2
  simp only [isDone, err_canceler] at hdone
  cases hc : cancelerOf parent with
  | none => simp [hc] at hdone
  | some p =>
    obtain ⟨x, hx, hxp⟩ := withCancel_link _ parent p hc (hvalid p hc)
    obtain ⟨x2, hx2, hxp2⟩ := hst _ x hx
    simp only [hc, Option.some_bind] at hdone
    cases hpn : ((WithCancel (World.start.run ops1) parent).2.run ops2).nodes[p]? with
    | none => simp [hpn] at hdone
    | some pn =>
      simp only [hpn, Option.some_bind] at hdone
      have := hok3.2 _ x2 p pn hx2 (by rw [hxp2, hxp]) hpn hdone
      have hctx : (WithCancel (World.start.run ops1) parent).1.1
          = .cancelable parent (World.start.run ops1).nodes.length := by
        simp only [WithCancel, newChild_fst]
      rw [hctx]
      simp [isDone, Err, hx2, this]

/-! ### `nestedCancelDemo` -/

theorem demoPending_advance (t u : Nat) :
    (demoPending t).advance u
      = if 2000 ≤ max t u then demoFired (max t u) else demoPending (max t u) := by
  have hc : cancelTop [⟨none, [1, 2], none, none⟩, ⟨none, [], some 0, none⟩,
      ⟨none, [], some 0, none⟩] 0 .canceled
      = [⟨some .canceled, [], none, none⟩, ⟨some .canceled, [], some 0, none⟩,
         ⟨some .canceled, [], some 0, none⟩] := by decide
  by_cases h : 2000 ≤ max t u
  · simp [World.advance, demoPending, demoFired, fire, h, hc]
  · simp [World.advance, demoPending, fire, h]

theorem demoFired_advance (t u : Nat) : (demoFired t).advance u = demoFired (max t u) := by
  simp [World.advance, demoFired, fire]

theorem nestedSetup_world : nestedCancelSetup.2 = demoPending 0 := by decide

theorem nested_demo_loop (ctx : Ctx) (pick : Nat → Nat)
    (hP : ∀ t, isDone (demoPending t) ctx = false)
    (hF : ∀ t, Err (demoFired t) ctx = some .canceled) :
    ∀ (k n fuel : Nat), n + k = 6 → k + 1 ≤ fuel →
      nestedWorkerLoop ctx 0 pick fuel n (demoPending (300 * n))
        = some (List.replicate k .running ++ [.stopped (some .canceled)], demoFired 2099) := by
  intro k
  induction k with
  | zero =>
    intro n fuel hn hfuel
    obtain ⟨f, hf⟩ : ∃ f, fuel = f + 1 := ⟨fuel - 1, by omega⟩
    have h6 : n = 6 := by omega
    subst hf; subst h6
    have hadv : (demoPending (300 * 6)).advance (0 + 300 * (6 + 1) - 1) = demoFired 2099 := by
      rw [demoPending_advance]; simp
    have hd : isDone ((demoPending (300 * 6)).advance (0 + 300 * (6 + 1) - 1)) ctx = true := by
      rw [hadv]; simp [isDone, hF]
    rw [nestedWorkerLoop_done ctx 0 pick f 6 _ hd, hadv, hF]
    rfl
  | succ k ih =>
    intro n fuel hn hfuel
    obtain ⟨f, hf⟩ : ∃ f, fuel = f + 1 := ⟨fuel - 1, by omega⟩
    subst hf
    have hlt : n ≤ 5 := by omega
    have hadv1 : (demoPending (300 * n)).advance (0 + 300 * (n + 1) - 1)
        = demoPending (300 * (n + 1) - 1) := by
      rw [demoPending_advance]
      have h1 : max (300 * n) (0 + 300 * (n + 1) - 1) = 300 * (n + 1) - 1 := by omega
      have h2 : ¬ (2000 ≤ 300 * (n + 1) - 1) := by omega
      rw [h1, if_neg h2]
    have hadv2 : (demoPending (300 * n)).advance (0 + 300 * (n + 1))
        = demoPending (300 * (n + 1)) := by
      rw [demoPending_advance]
      have h1 : max (300 * n) (0 + 300 * (n + 1)) = 300 * (n + 1) := by omega
      have h2 : ¬ (2000 ≤ 300 * (n + 1)) := by omega
      rw [h1, if_neg h2]
    rw [nestedWorkerLoop]
    simp only [hadv1, hadv2, hP, Bool.false_eq_true, if_false, nestedSelect_tick]
    rw [ih (n + 1) f (by omega) (by omega)]
    simp [List.replicate_succ]

theorem demo_world_cases (t : Nat) :
    (t < 2000 ∧ nestedCancelSetup.2.advance t = demoPending t) ∨
    (2000 ≤ t ∧ nestedCancelSetup.2.advance t = demoFired t) := by
  rw [nestedSetup_world, demoPending_advance, Nat.zero_max]
  by_cases h : 2000 ≤ t
  · exact Or.inr ⟨h, by rw [if_pos h]⟩
  · exact Or.inl ⟨by omega, by rw [if_neg h]⟩

/-- C7. Cancellation propagation in `nestedCancelDemo`.  Before the 2 s timer
calls `cancel()` of `rootCtx`, the three contexts are pending; from then on
`rootCtx`, `childCtx1` and `childCtx2` are all done with `Err() = Canceled`,
the only operation having been `cancel()` of the root (the children's own cancel
functions are discarded).  In no world the demo goes through is a child pending
while its parent is done.  Each of the three `nestedWorker` goroutines, reacting
at once to the six ticks before 2 s, then takes its `Done` branch and returns,
for every outcome of the `select` picks (fuel for 7 iterations suffices).
Beyond the demo: after any sequence of `WithCancel`, `WithDeadline`,
`WithTimeout`, `cancel()`, `AfterFunc(cancel)` and passing of time, no context is
pending while the context it registered with is done, and a context derived by
`WithCancel` from a parent is done whenever that parent is. -/
theorem cancel_propagation :
    (∀ t, t < 2000 →
      Err (nestedCancelSetup.2.advance t) nestedCancelSetup.1.1 = none ∧
      Err (nestedCancelSetup.2.advance t) nestedCancelSetup.1.2.1 = none ∧
      Err (nestedCancelSetup.2.advance t) nestedCancelSetup.1.2.2 = none) ∧
    (∀ t, 2000 ≤ t →
      Err (nestedCancelSetup.2.advance t) nestedCancelSetup.1.1 = some .canceled ∧
      Err (nestedCancelSetup.2.advance t) nestedCancelSetup.1.2.1 = some .canceled ∧
      Err (nestedCancelSetup.2.advance t) nestedCancelSetup.1.2.2 = some .canceled) ∧
    (Err (nestedCancelSetup.2.cancel 0) nestedCancelSetup.1.1 = some .canceled ∧
      Err (nestedCancelSetup.2.cancel 0) nestedCancelSetup.1.2.1 = some .canceled ∧
      Err (nestedCancelSetup.2.cancel 0) nestedCancelSetup.1.2.2 = some .canceled) ∧
    (∀ horizon w, w ∈ nestedCancelWorlds horizon →
      w.propagated = true ∧
      (isDone w nestedCancelSetup.1.1 = true →
        isDone w nestedCancelSetup.1.2.1 = true ∧ isDone w nestedCancelSetup.1.2.2 = true)) ∧
    (∀ (pick : Nat → Nat) (fuel : Nat), 7 ≤ fuel →
      nestedCancelDemo pick fuel
        = some (List.replicate 3
            (List.replicate 6 .running ++ [.stopped (some .canceled), .wgDone]))) ∧
    (∀ ops : List WorldOp, (World.start.run ops).propagated = true) ∧
    (∀ (ops1 ops2 : List WorldOp) (parent : Ctx),
      (∀ p, cancelerOf parent = some p → p < (World.start.run ops1).nodes.length) →
      isDone ((WithCancel (World.start.run ops1) parent).2.run ops2) parent = true →
      isDone ((WithCancel (World.start.run ops1) parent).2.run ops2)
        (WithCancel (World.start.run ops1) parent).1.1 = true) := by
  have hctx : nestedCancelSetup.1 = (.cancelable .background 0,
      .cancelable (.cancelable .background 0) 1, .cancelable (.cancelable .background 0) 2) := by
    decide
  refine ⟨?_, ?_, by decide, ?_, ?_, propagation_general, child_follows_parent⟩
  · intro t ht
    rcases demo_world_cases t with ⟨_, hw⟩ | ⟨h, _⟩
    · rw [hw, hctx]
      exact ⟨rfl, rfl, rfl⟩
    · omega
  · intro t ht
    rcases demo_world_cases t with ⟨h, _⟩ | ⟨_, hw⟩
    · omega
    · rw [hw, hctx]
      exact ⟨rfl, rfl, rfl⟩
  · intro horizon w hw
    simp only [nestedCancelWorlds, List.mem_append, List.mem_cons, List.mem_map, List.mem_range,
      List.mem_singleton, List.not_mem_nil, or_false] at hw
    rcases hw with (hw | hw | hw | hw) | ⟨t, _, hw⟩
    · subst hw; exact ⟨by decide, by decide⟩
    · subst hw; exact ⟨by decide, by decide⟩
    · subst hw; exact ⟨by decide, by decide⟩
    · subst hw; exact ⟨by decide, by decide⟩
    · subst hw
      rw [hctx]
      rcases demo_world_cases t with ⟨_, hw⟩ | ⟨_, hw⟩
      · rw [hw]
        exact ⟨rfl, fun h => by simp [isDone, Err, demoPending] at h⟩
      · rw [hw]
        exact ⟨rfl, fun _ => ⟨rfl, rfl⟩⟩
  · intro pick fuel hfuel
    have hrun : ∀ ctx, (∀ t, isDone (demoPending t) ctx = false) →
        (∀ t, Err (demoFired t) ctx = some .canceled) →
        nestedWorker ctx pick fuel nestedCancelSetup.2
          = some (List.replicate 6 .running ++ [.stopped (some .canceled), .wgDone],
                  demoFired 2099) := by
      intro ctx hP hF
      have := nested_demo_loop ctx pick hP hF 6 0 fuel rfl (by omega)
      rw [nestedWorker, nestedSetup_world]
      simp only [demoPending] at this ⊢
      simp [this]
    simp only [nestedCancelDemo, hctx]
    rw [hrun (.cancelable .background 0) (fun _ => rfl) (fun _ => rfl),
      hrun (.cancelable (.cancelable .background 0) 1) (fun _ => rfl) (fun _ => rfl),
      hrun (.cancelable (.cancelable .background 0) 2) (fun _ => rfl) (fun _ => rfl)]
    rfl

/-- Witness of C7 with 9 iterations of fuel and every `select` pick equal to 1. -/
theorem cancel_propagation_witness :
    nestedCancelDemo (fun _ => 1) 9
      = some (List.replicate 3
          (List.replicate 6 .running ++ [.stopped (some .canceled), .wgDone])) ∧
    isDone ((WithCancel (World.start.run [.withCancel .background])
        (.cancelable .background 0)).2.run [.cancel 0])
      (WithCancel (World.start.run [.withCancel .background]) (.cancelable .background 0)).1.1
      = true :=
  ⟨cancel_propagation.2.2.2.2.1 (fun _ => 1) 9 (by decide),
   cancel_propagation.2.2.2.2.2.2 [.withCancel .background] [.cancel 0]
     (.cancelable .background 0) (fun p hp => by cases hp; decide) (by decide)⟩

/-- Witness of C8: sleeps that last 600 ms and 900 ms instead of 500 and 800. -/
theorem first_cause_wins_witness :
    (∃ n w, cancelContextDemo (fun _ => 600) (fun _ => 0) 9
        = some (List.replicate n .working ++ [.stopped (some .canceled), .wgDone], w)) ∧
    (∃ pre, (timeoutContextDemo (fun _ => 900) (fun _ => 900) (fun _ => 0)).task1
        = pre ++ [.stopped (some .deadlineExceeded)]) :=
  ⟨first_cause_wins.1 (fun _ => 600) (fun _ => 0) 9 (fun _ => by simp) (by decide),
   (first_cause_wins.2.1 (fun _ => 900) (fun _ => 900) (fun _ => 0) (fun _ => by simp)
      (fun _ => by simp)).1⟩

/-- Witness of C10 amended: a context already cancelled when `worker` and
`nestedWorker` start. -/
theorem prompt_exit_amended_witness :
    worker (.cancelable .background 0) (fun _ => 500) (fun _ => 0) 1
        ((WithCancel World.start .background).2.cancel 0)
      = some ([.stopped (Err ((WithCancel World.start .background).2.cancel 0)
                (.cancelable .background 0)), .wgDone],
              (WithCancel World.start .background).2.cancel 0) :=
  prompt_exit_amended.2.1 (.cancelable .background 0) (fun _ => 500) (fun _ => 0) 0
    ((WithCancel World.start .background).2.cancel 0) (by decide)

/-! ## Non-blocking send and receive on closed or empty channels -/

/-- Counterexample to C11 as stated: `trySend` on the closed channel of
`channelPanicCases` (`ch2 := make(chan int, 1); close(ch2)`) does not return
`false`: it panics, as the comment there says of `ch2 <- 1`. -/
theorem trySend_closed_counterexample :
    close (makeChan 1) = .done ⟨1, [], true, []⟩ ∧
    trySend ⟨1, [], true, []⟩ 1 = .panics ∧
    trySend ⟨1, [], true, []⟩ 1 ≠ .done (false, ⟨1, [], true, []⟩) := by
  decide

/-- C11, amended.  For every closed channel and value, `trySend` neither blocks
nor returns a value: it raises the "send on closed channel" panic at once, so
nothing is appended to the channel. -/
theorem trySend_closed_amended (ch : Chan) (v : Int) (h : ch.closed = true) :
    trySend ch v = .panics ∧ send ch v = .panics ∧
    (∀ r, trySend ch v ≠ .done r) ∧ trySend ch v ≠ .blocks := by
  have hs : send ch v = .panics := by simp [send, h]
  have ht : trySend ch v = .panics := by simp [trySend, hs]
  refine ⟨ht, hs, ?_, ?_⟩
  · intro r hr
    rw [ht] at hr
    cases hr
  · rw [ht]
    intro hb
    cases hb

/-- Witness of C11 amended: a full closed channel. -/
theorem trySend_closed_amended_witness :
    trySend ⟨2, [5, 6], true, []⟩ 9 = .panics ∧ send ⟨2, [5, 6], true, []⟩ 9 = .panics ∧
    (∀ r, trySend ⟨2, [5, 6], true, []⟩ 9 ≠ .done r) ∧ trySend ⟨2, [5, 6], true, []⟩ 9 ≠ .blocks :=
  trySend_closed_amended ⟨2, [5, 6], true, []⟩ 9 rfl

/-- Counterexample to C12 as stated: on the open empty channel and on the
closed empty channel of capacity 1, `tryRecv` returns the same `(0, false)`. -/
theorem tryRecv_distinguish_counterexample :
    tryRecv ⟨1, [], false, []⟩ = .done ((0, false), ⟨1, [], false, []⟩) ∧
    tryRecv ⟨1, [], true, []⟩ = .done ((0, false), ⟨1, [], true, []⟩) := by
  decide

/-- C12, amended.  `tryRecv` does not tell "open but empty" from "closed and
drained": for every capacity, on a channel with an empty buffer and no sender
parked on it, it returns `(0, false)` whether the channel is open (the `default`
branch) or closed (the receive case with `ok = false`), leaving the channel as
it was.  Its second result tells only whether a value was received: it is
`true` exactly when the buffer was not empty or the channel was open with a
sender parked on it. -/
theorem tryRecv_distinguish_amended :
    (∀ (c : Nat) (closed : Bool),
      tryRecv ⟨c, [], closed, []⟩ = .done ((0, false), ⟨c, [], closed, []⟩)) ∧
    (∀ (c : Nat),
      (tryRecv ⟨c, [], false, []⟩).bind (fun r => .done r.1)
        = (tryRecv ⟨c, [], true, []⟩).bind (fun r => .done r.1)) ∧
    (∀ (ch : Chan), ∃ v ok ch1, tryRecv ch = .done ((v, ok), ch1) ∧
      (ok = true ↔ ch.buf ≠ [] ∨ (ch.closed = false ∧ ch.sendq ≠ []))) := by
  have h1 : ∀ (c : Nat) (closed : Bool),
      tryRecv ⟨c, [], closed, []⟩ = .done ((0, false), ⟨c, [], closed, []⟩) := by
    intro c closed
    cases closed <;> simp [tryRecv, recv]
  refine ⟨h1, ?_, ?_⟩
  · intro c
    rw [h1, h1]
    rfl
  · intro ch
    obtain ⟨c, buf, closed, q⟩ := ch
    cases closed with
    | true =>
      cases buf with
      | nil => exact ⟨0, false, ⟨c, [], true, q⟩, by simp [tryRecv, recv], by simp⟩
      | cons v rest => exact ⟨v, true, ⟨c, rest, true, q⟩, by simp [tryRecv, recv], by simp⟩
    | false =>
      cases q with
      | nil =>
        cases buf with
        | nil => exact ⟨0, false, ⟨c, [], false, []⟩, by simp [tryRecv, recv], by simp⟩
        | cons v rest =>
          exact ⟨v, true, ⟨c, rest, false, []⟩, by simp [tryRecv, recv], by simp⟩
      | cons s more =>
        cases buf with
        | nil => exact ⟨s, true, ⟨c, [], false, more⟩, by simp [tryRecv, recv], by simp⟩
        | cons v rest =>
          exact ⟨v, true, ⟨c, rest ++ [s], false, more⟩, by simp [tryRecv, recv], by simp⟩

/-- Counterexample to C13 as stated: `ch2` of `selectLoopDemo` is unbuffered and
its producer parks in `ch2 <- 10`; the channel is then open with an empty
buffer, yet `tryRecv` does not take the `default` path: it receives from the
parked sender, returning `(10, true)` and releasing it. -/
theorem tryRecv_default_counterexample :
    send (makeChan 0) 10 = .blocks ∧
    ((makeChan 0).park 10).closed = false ∧ ((makeChan 0).park 10).buf = [] ∧
    tryRecv ((makeChan 0).park 10) = .done ((10, true), makeChan 0) ∧
    tryRecv ((makeChan 0).park 10) ≠ .done ((0, false), (makeChan 0).park 10) := by
  decide

/-- C13, amended.  `tryRecv` never blocks and never panics.  On a channel whose
buffer is not empty it returns `(head, true)` and removes exactly the head, the
rest staying in order; when the channel is open and a sender is parked on it,
the value of the oldest parked sender is put at the tail and that sender is
released.  On an open channel with an empty buffer it takes the `default`
branch, returning `(0, false)` and leaving the channel unchanged, when no sender
is parked on it; when a sender is parked in `ch <- v` it takes the receive case,
returning `(v, true)` and releasing that sender.  In `utilityFunctions`, after
`trySend(ch, 100)`, `tryRecv` returns `(100, true)`. -/
theorem tryRecv_nonblocking_amended :
    (∀ ch : Chan, tryRecv ch ≠ .blocks ∧ tryRecv ch ≠ .panics) ∧
    (∀ (ch : Chan) (v : Int) (rest : List Int), ch.buf = v :: rest →
      (ch.closed = true ∨ ch.sendq = [] →
        tryRecv ch = .done ((v, true), { ch with buf := rest })) ∧
      (∀ (s : Int) (more : List Int), ch.closed = false → ch.sendq = s :: more →
        tryRecv ch = .done ((v, true), { ch with buf := rest ++ [s], sendq := more }))) ∧
    (∀ (ch : Chan), ch.closed = false → ch.buf = [] → ch.sendq = [] →
      tryRecv ch = .done ((0, false), ch)) ∧
    (∀ (ch : Chan) (s : Int) (more : List Int), ch.closed = false → ch.buf = [] →
      ch.sendq = s :: more →
      tryRecv ch = .done ((s, true), { ch with sendq := more })) ∧
    utilityFunctions = .done ((true, (100, true)), ⟨1, [], true, []⟩) ∧
    tryRecv ⟨1, [100], false, []⟩ = .done ((100, true), ⟨1, [], false, []⟩) := by
  refine ⟨?_, ?_, ?_, ?_, by decide, by decide⟩
  · intro ch
    obtain ⟨c, buf, closed, q⟩ := ch
    cases closed <;> cases buf <;> cases q <;> simp [tryRecv, recv]
  · intro ch v rest h
    obtain ⟨c, buf, closed, q⟩ := ch
    simp only at h
    subst h
    refine ⟨?_, ?_⟩
    · intro hq
      cases closed with
      | true => simp [tryRecv, recv]
      | false =>
        simp only [Bool.false_eq_true, false_or] at hq
        subst hq
        simp [tryRecv, recv]
    · intro s more hc hq
      simp only at hc hq
      subst hc; subst hq
      simp [tryRecv, recv]
  · intro ch hc hb hq
    obtain ⟨c, buf, closed, q⟩ := ch
    simp only at hc hb hq
    subst hc; subst hb; subst hq
    simp [tryRecv, recv]
  · intro ch s more hc hb hq
    obtain ⟨c, buf, closed, q⟩ := ch
    simp only at hc hb hq
    subst hc; subst hb; subst hq
    simp [tryRecv, recv]

/-- Witness of C13 amended: a buffer holding 4, 5, 6 with no sender parked, a
full buffer with a sender of 7 parked, an open empty channel, and an unbuffered
channel with a sender of 7 parked. -/
theorem tryRecv_nonblocking_amended_witness :
    tryRecv ⟨3, [4, 5, 6], false, []⟩ = .done ((4, true), ⟨3, [5, 6], false, []⟩) ∧
    tryRecv ⟨3, [4, 5, 6], false, [7]⟩ = .done ((4, true), ⟨3, [5, 6, 7], false, []⟩) ∧
    tryRecv ⟨3, [], false, []⟩ = .done ((0, false), ⟨3, [], false, []⟩) ∧
    tryRecv ⟨0, [], false, [7]⟩ = .done ((7, true), ⟨0, [], false, []⟩) :=
  ⟨(tryRecv_nonblocking_amended.2.1 ⟨3, [4, 5, 6], false, []⟩ 4 [5, 6] rfl).1 (Or.inr rfl),
   (tryRecv_nonblocking_amended.2.1 ⟨3, [4, 5, 6], false, [7]⟩ 4 [5, 6] rfl).2 7 [] rfl rfl,
   tryRecv_nonblocking_amended.2.2.1 ⟨3, [], false, []⟩ rfl rfl rfl,
   tryRecv_nonblocking_amended.2.2.2.1 ⟨0, [], false, [7]⟩ 7 [] rfl rfl rfl⟩

/-! ## `condDemo` cannot get stuck -/

theorem wakeInv_init (capacity : Nat) : WakeInv capacity condInit := by
  intro g hg
  simp [condInit] at hg

/-- A step that leaves the queue alone and moves one goroutine keeps `WakeInv`,
provided the goroutine does not park while it could proceed and does not drop a
pending broadcast. -/
theorem wakeInv_move {capacity : Nat} {s s1 : CondState} (h : WakeInv capacity s) (g0 : Gor)
    (p : Pc) (hq : s1.queue = s.queue) (hpc : s1.pc = Function.update s.pc g0 p)
    (hp : p = .waiting → canProceed capacity s g0 = false)
    (hkeep : s.pc g0 = .unlock ∨ s.pc g0 = .bcast → p = .unlock ∨ p = .bcast) :
    WakeInv capacity s1 := by
  intro g hg hc
  have hc1 : canProceed capacity s g = true := by
    simpa [canProceed, hq] using hc
  rw [hpc] at hg
  have hgw : s.pc g = .waiting := by
    by_cases hgg : g = g0
    · subst hgg
      simp only [Function.update_same] at hg
      rw [hp hg] at hc1
      cases hc1
    · simpa [Function.update_apply, hgg] using hg
  obtain ⟨k, hk⟩ := h g hgw hc1
  refine ⟨k, ?_⟩
  rw [hpc]
  by_cases hkg : k = g0
  · subst hkg
    simpa using hkeep hk
  · simpa [Function.update_apply, hkg] using hk

theorem condStep_body {capacity : Nat} {s s1 : CondState} {g : Gor} (hb : s.pc g = .body)
    (hstep : condStep capacity s (.run g) = .done s1) : s1.pc g = .unlock := by
  simp only [condStep, condStepRun, hb] at hstep
  cases hg : g.isProducer with
  | true =>
    simp only [hg, if_true] at hstep
    cases hstep
    simp [CondState.goto]
  | false =>
    simp only [hg, Bool.false_eq_true, if_false] at hstep
    cases hq : s.queue with
    | nil => simp [hq] at hstep
    | cons item rest =>
      simp only [hq] at hstep
      cases hstep
      simp [CondState.goto]

theorem wakeInv_step {capacity : Nat} {s s1 : CondState} (h : WakeInv capacity s)
    (a : CondAct) (hstep : condStep capacity s a = .done s1) : WakeInv capacity s1 := by
  cases a with
  | spurious g =>
    simp only [condStep] at hstep
    by_cases hw : s.pc g = .waiting
    · simp only [hw, if_true] at hstep
      cases hstep
      exact wakeInv_move h g .woken rfl rfl (by simp) (by rw [hw]; simp)
    · simp [hw] at hstep
  | run g =>
    have hstep0 := hstep
    simp only [condStep, condStepRun] at hstep
    cases hpc : s.pc g with
    | idle =>
      simp only [hpc] at hstep
      by_cases hl : s.locked = true
      · simp [hl] at hstep
      · simp only [hl, if_false] at hstep
        cases hstep
        exact wakeInv_move h g .check rfl rfl (by simp) (by rw [hpc]; simp)
    | woken =>
      simp only [hpc] at hstep
      by_cases hl : s.locked = true
      · simp [hl] at hstep
      · simp only [hl, if_false] at hstep
        cases hstep
        exact wakeInv_move h g .check rfl rfl (by simp) (by rw [hpc]; simp)
    | waiting => simp [hpc] at hstep
    | finished => simp [hpc] at hstep
    | check =>
      simp only [hpc] at hstep
      by_cases hcond : (if g.isProducer = true then decide (capacity ≤ s.queue.length)
          else decide (s.queue.length = 0)) = true
      · simp only [hcond, if_true] at hstep
        cases hstep
        refine wakeInv_move h g .waiting rfl rfl ?_ (by rw [hpc]; simp)
        intro _
        unfold canProceed
        cases hg : g.isProducer with
        | true =>
          simp only [hg, if_true, decide_eq_true_eq] at hcond
          simp only [if_true, decide_eq_false_iff_not]
          omega
        | false =>
          simp only [hg, Bool.false_eq_true, if_false, decide_eq_true_eq] at hcond
          simp only [Bool.false_eq_true, if_false, decide_eq_false_iff_not, not_not]
          exact List.length_eq_zero.1 hcond
      · simp only [hcond, if_false] at hstep
        cases hstep
        exact wakeInv_move h g .body rfl rfl (by simp) (by rw [hpc]; simp)
    | body =>
      intro _ _ _
      exact ⟨g, Or.inl (condStep_body hpc hstep0)⟩
    | unlock =>
      simp only [hpc] at hstep
      by_cases hl : s.locked = true
      · simp only [hl, if_true] at hstep
        cases hstep
        exact wakeInv_move h g .bcast rfl rfl (by simp) (by simp)
      · simp [hl] at hstep
    | bcast =>
      simp only [hpc] at hstep
      cases hstep
      intro k hk
      exfalso
      simp only [Function.update_apply] at hk
      split at hk
      · split at hk <;> cases hk
      · unfold wakeAll at hk
        split at hk
        · cases hk
        · rename_i hne
          exact hne hk

theorem wakeInv_run {capacity : Nat} (sched : List CondAct) : ∀ (s s1 : CondState),
    WakeInv capacity s → condRun capacity s sched = .done s1 → WakeInv capacity s1 := by
  induction sched with
  | nil =>
    intro s s1 h hr
    simp only [condRun] at hr
    cases hr
    exact h
  | cons a rest ih =>
    intro s s1 h hr
    simp only [condRun] at hr
    cases hs : condStep capacity s a with
    | blocks => simp [hs] at hr
    | panics => simp [hs] at hr
    | done s2 =>
      simp only [hs, bind_done] at hr
      exact ih s2 s1 (wakeInv_step h a hs) hr

/-- With the invariant, a goroutine that is not parked in `Wait` and has not
returned can take its step, or the lock is held by one that can. -/
theorem cond_enabled {capacity : Nat} {s : CondState} (h : CondInv capacity s) (g : Gor)
    (hw : s.pc g ≠ .waiting) (hf : s.pc g ≠ .finished) :
    ∃ k s1, condStep capacity s (.run k) = .done s1 := by
  have holder : ∀ k, (s.pc k).holds = true → ∃ s1, condStep capacity s (.run k) = .done s1 := by
    intro k hk
    have hl : s.locked = true := h.lockedIff.2 ⟨k, hk⟩
    simp only [condStep, condStepRun]
    cases hpc : s.pc k with
    | idle => rw [hpc] at hk; cases hk
    | woken => rw [hpc] at hk; cases hk
    | waiting => rw [hpc] at hk; cases hk
    | finished => rw [hpc] at hk; cases hk
    | bcast => rw [hpc] at hk; cases hk
    | check =>
      simp only
      by_cases hcond : (if k.isProducer = true then decide (capacity ≤ s.queue.length)
          else decide (s.queue.length = 0)) = true
      · simp only [hcond, if_true]
        exact ⟨_, rfl⟩
      · simp only [hcond, if_false]
        exact ⟨_, rfl⟩
    | body =>
      simp only
      cases hg : k.isProducer with
      | true =>
        simp only [if_true]
        exact ⟨_, rfl⟩
      | false =>
        cases hq : s.queue with
        | nil => exact absurd hq (h.consBody k hg hpc)
        | cons item rest =>
          simp only [Bool.false_eq_true, if_false]
          exact ⟨_, rfl⟩
    | unlock =>
      simp only [hl, if_true]
      exact ⟨_, rfl⟩
  by_cases hl : s.locked = true
  · obtain ⟨k, hk⟩ := h.lockedIff.1 hl
    obtain ⟨s1, hs1⟩ := holder k hk
    exact ⟨k, s1, hs1⟩
  · cases hpc : s.pc g with
    | waiting => exact absurd hpc hw
    | finished => exact absurd hpc hf
    | idle =>
      refine ⟨g, ?_⟩
      simp only [condStep, condStepRun, hpc, hl, if_false]
      exact ⟨_, rfl⟩
    | woken =>
      refine ⟨g, ?_⟩
      simp only [condStep, condStepRun, hpc, hl, if_false]
      exact ⟨_, rfl⟩
    | bcast =>
      refine ⟨g, ?_⟩
      simp only [condStep, condStepRun, hpc]
      exact ⟨_, rfl⟩
    | check =>
      obtain ⟨s1, hs1⟩ := holder g (by rw [hpc]; rfl)
      exact ⟨g, s1, hs1⟩
    | body =>
      obtain ⟨s1, hs1⟩ := holder g (by rw [hpc]; rfl)
      exact ⟨g, s1, hs1⟩
    | unlock =>
      obtain ⟨s1, hs1⟩ := holder g (by rw [hpc]; rfl)
      exact ⟨g, s1, hs1⟩

/-- The totals match: with capacity 3 and five items per goroutine, the four
goroutines cannot all be parked in `Wait` or returned unless all have returned. -/
theorem cond_not_all_parked {s : CondState} (h : CondInv condCapacity s)
    (hwk : WakeInv condCapacity s)
    (hall : ∀ g, s.pc g = .waiting ∨ s.pc g = .finished) : s.allFinished = true := by
  have hex : ∀ g, (s.pc g).extra = 0 := by
    intro g
    rcases hall g with hg | hg <;> rw [hg] <;> rfl
  have hnob : ¬ ∃ k, s.pc k = .unlock ∨ s.pc k = .bcast := by
    rintro ⟨k, hk⟩
    rcases hall k with hg | hg <;> rw [hg] at hk <;> simp at hk
  have hp := (log_split s.produced).length_eq
  have hc := (log_split s.consumed).length_eq
  have hpl : ∀ g, ((s.produced.filter (fun e => decide (e.1 = g))).map Prod.snd).length
      = if g.isProducer then s.iter g else 0 := by
    intro g
    rw [h.prodLog g, hex g]
    cases g.isProducer <;> simp
  have hcl : ∀ g, ((s.consumed.filter (fun e => decide (e.1 = g))).map Prod.snd).length
      = if g.isProducer then 0 else s.iter g := by
    intro g
    rw [List.length_map, h.consLog g, hex g]
    rfl
  simp only [List.length_append, hpl, hcl, Gor.isProducer, if_true, Bool.false_eq_true,
    if_false, List.length_map] at hp hc
  have hf := congrArg List.length h.fifo
  simp only [List.length_map, List.length_append] at hf
  have hit : ∀ g, s.iter g ≤ 5 := fun g => by have := condInv_extra_le h g; omega
  have hwait : ∀ g, s.pc g = .waiting → s.iter g < 5 ∧ canProceed condCapacity s g = false := by
    intro g hg
    refine ⟨h.iterRun g (by rw [hg]; simp), ?_⟩
    cases hcp : canProceed condCapacity s g with
    | false => rfl
    | true => exact absurd (hwk g hg hcp) hnob
  have hfin : ∀ g, s.pc g = .finished → s.iter g = 5 := h.iterEnd
  have hprod : ∀ g, g.isProducer = true → s.pc g = .waiting → 3 ≤ s.queue.length := by
    intro g hg hw
    have := (hwait g hw).2
    simp only [canProceed, hg, if_true, decide_eq_false_iff_not, condCapacity] at this
    omega
  have hcons : ∀ g, g.isProducer = false → s.pc g = .waiting → s.queue.length = 0 := by
    intro g hg hw
    have := (hwait g hw).2
    simp only [canProceed, hg, Bool.false_eq_true, if_false, decide_eq_false_iff_not,
      not_not] at this
    rw [this]
    rfl
  have i1 := hit .producer1
  have i2 := hit .producer2
  have i3 := hit .consumer1
  have i4 := hit .consumer2
  simp only [CondState.allFinished, List.all_cons, List.all_nil, Bool.and_true, Bool.and_eq_true,
    decide_eq_true_eq]
  have k1 : (s.pc .producer1 = .finished ∧ s.iter .producer1 = 5) ∨
      (s.iter .producer1 < 5 ∧ 3 ≤ s.queue.length) := by
    rcases hall .producer1 with a | a
    · exact Or.inr ⟨(hwait .producer1 a).1, hprod .producer1 rfl a⟩
    · exact Or.inl ⟨a, hfin .producer1 a⟩
  have k2 : (s.pc .producer2 = .finished ∧ s.iter .producer2 = 5) ∨
      (s.iter .producer2 < 5 ∧ 3 ≤ s.queue.length) := by
    rcases hall .producer2 with a | a
    · exact Or.inr ⟨(hwait .producer2 a).1, hprod .producer2 rfl a⟩
    · exact Or.inl ⟨a, hfin .producer2 a⟩
  have k3 : (s.pc .consumer1 = .finished ∧ s.iter .consumer1 = 5) ∨
      (s.iter .consumer1 < 5 ∧ s.queue.length = 0) := by
    rcases hall .consumer1 with a | a
    · exact Or.inr ⟨(hwait .consumer1 a).1, hcons .consumer1 rfl a⟩
    · exact Or.inl ⟨a, hfin .consumer1 a⟩
  have k4 : (s.pc .consumer2 = .finished ∧ s.iter .consumer2 = 5) ∨
      (s.iter .consumer2 < 5 ∧ s.queue.length = 0) := by
    rcases hall .consumer2 with a | a
    · exact Or.inr ⟨(hwait .consumer2 a).1, hcons .consumer2 rfl a⟩
    · exact Or.inl ⟨a, hfin .consumer2 a⟩
  rcases k1 with ⟨a1, e1⟩ | ⟨e1, q1⟩ <;> rcases k2 with ⟨a2, e2⟩ | ⟨e2, q2⟩ <;>
    rcases k3 with ⟨a3, e3⟩ | ⟨e3, q3⟩ <;> rcases k4 with ⟨a4, e4⟩ | ⟨e4, q4⟩ <;>
    first
    | exact ⟨a1, a2, a3, a4⟩
    | (exfalso; omega)

/-- C19. `condDemo` cannot get stuck.  In every state `condDemo` can reach,
under every interleaving and with spurious wake-ups allowed: if not all four
goroutines have returned, some goroutine can take its next step; the four
goroutines are never all parked in `cond.Wait()` or returned unless all have
returned; a goroutine parked in `Wait` although the queue would let it proceed
has a `Broadcast` still coming, from a goroutine that appended or removed an
item; an append or removal takes its goroutine to the point before
`Unlock(); Broadcast()`; and when that `Broadcast` has run no goroutine is left
parked. -/
theorem cond_no_deadlock (sched : List CondAct) :
    match condRun condCapacity condInit sched with
    | .panics => False
    | .blocks => True
    | .done s =>
      (s.allFinished = false → ∃ g s1, condStep condCapacity s (.run g) = .done s1) ∧
      ((∀ g, s.pc g = .waiting ∨ s.pc g = .finished) → s.allFinished = true) ∧
      (∀ g, s.pc g = .waiting → canProceed condCapacity s g = true →
        ∃ h, s.pc h = .unlock ∨ s.pc h = .bcast) ∧
      (∀ g s1, s.pc g = .body → condStep condCapacity s (.run g) = .done s1 →
        s1.pc g = .unlock) ∧
      (∀ g s1, s.pc g = .unlock → condStep condCapacity s (.run g) = .done s1 →
        s1.pc g = .bcast) ∧
      (∀ g s1, s.pc g = .bcast → condStep condCapacity s (.run g) = .done s1 →
        ∀ k, s1.pc k ≠ .waiting) := by
  have h := condInv_run sched condInit (condInv_init condCapacity)
  cases hr : condRun condCapacity condInit sched with
  | panics => simp [hr] at h
  | blocks => trivial
  | done s =>
    simp only [hr] at h
    have hwk := wakeInv_run sched condInit s (wakeInv_init condCapacity) hr
    have hpark := cond_not_all_parked h hwk
    refine ⟨?_, hpark, hwk, ?_, ?_, ?_⟩
    · intro hnf
      by_cases hex : ∃ g, s.pc g ≠ .waiting ∧ s.pc g ≠ .finished
      · obtain ⟨g, hw, hf⟩ := hex
        exact cond_enabled h g hw hf
      · exfalso
        have : s.allFinished = true := by
          apply hpark
          intro g
          by_contra hg
          exact hex ⟨g, fun a => hg (Or.inl a), fun a => hg (Or.inr a)⟩
        rw [this] at hnf
        cases hnf
    · intro g s1 hb hstep
      exact condStep_body hb hstep
    · intro g s1 hu hstep
      simp only [condStep, condStepRun, hu] at hstep
      split at hstep
      · cases hstep
        simp [CondState.goto]
      · cases hstep
    · intro g s1 hb hstep k hk
      simp only [condStep, condStepRun, hb] at hstep
      cases hstep
      simp only [Function.update_apply] at hk
      split at hk
      · split at hk <;> cases hk
      · unfold wakeAll at hk
        split at hk
        · cases hk
        · rename_i hne
          exact hne hk

/-- Witness of C19 on a schedule that parks both consumers on the empty queue:
the run reaches a state with both parked, and there a producer can step. -/
theorem cond_no_deadlock_witness :
    (∃ s, condRun condCapacity condInit condBothWaitSchedule = .done s ∧
      s.pc .consumer1 = .waiting ∧ s.pc .consumer2 = .waiting ∧ s.allFinished = false ∧
      ∃ g s1, condStep condCapacity s (.run g) = .done s1) := by
  have h := cond_no_deadlock condBothWaitSchedule
  have hr : ∃ s, condRun condCapacity condInit condBothWaitSchedule = .done s ∧
      s.pc .consumer1 = .waiting ∧ s.pc .consumer2 = .waiting ∧ s.allFinished = false :=
    ⟨_, rfl, rfl, rfl, rfl⟩
  obtain ⟨s, hs, h1, h2, h3⟩ := hr
  rw [hs] at h
  exact ⟨s, hs, h1, h2, h3, h.1 h3⟩

/-! ## Timed `select` -/

theorem earliest_spec : ∀ (l : List Nat) (m : Nat), earliest l = some m →
    m ∈ l ∧ ∀ r ∈ l, m ≤ r := by
  intro l
  induction l with
  | nil => intro m h; simp [earliest] at h
  | cons t ts ih =>
    intro m h
    simp only [earliest] at h
    cases he : earliest ts with
    | none =>
      simp only [he] at h
      cases h
      cases ts with
      | nil => simp
      | cons u us =>
        simp only [earliest] at he
        split at he <;> cases he
    | some k =>
      simp only [he, Option.some.injEq] at h
      obtain ⟨hk, hall⟩ := ih k he
      subst h
      constructor
      · by_cases htk : t ≤ k
        · simp [Nat.min_eq_left htk]
        · have : min t k = k := Nat.min_eq_right (by omega)
          rw [this]
          exact List.mem_cons_of_mem _ hk
      · intro r hr
        rcases List.mem_cons.1 hr with rfl | hr
        · exact Nat.min_le_left _ _
        · exact le_trans (Nat.min_le_right _ _) (hall r hr)

theorem earliest_some (l : List Nat) (h : l ≠ []) : ∃ m, earliest l = some m := by
  cases l with
  | nil => exact absurd rfl h
  | cons t ts =>
    simp only [earliest]
    split
    · exact ⟨_, rfl⟩
    · exact ⟨_, rfl⟩

/-- A case chosen by `select` is one that can proceed. -/
theorem goSelect_case (ready : List Bool) (d : Bool) (pick i : Nat)
    (h : goSelect ready d pick = .case i) : i < ready.length ∧ ready.getD i false = true := by
  unfold goSelect at h
  cases hr : readyCases ready with
  | nil =>
    simp only [hr] at h
    split at h <;> cases h
  | cons c cs =>
    simp only [hr, Selected.case.injEq] at h
    have hmem : i ∈ readyCases ready := by
      rw [hr, ← h]
      have hlt : pick % (c :: cs).length < (c :: cs).length := Nat.mod_lt _ (by simp)
      rw [List.getD_eq_getElem _ _ hlt]
      exact List.getElem_mem _
    simp only [readyCases, List.mem_filter, List.mem_range] at hmem
    exact hmem

/-- When some case can proceed, `select` chooses a case. -/
theorem goSelect_some (ready : List Bool) (d : Bool) (pick j : Nat) (hj : j < ready.length)
    (hr : ready.getD j false = true) : ∃ i, goSelect ready d pick = .case i := by
  unfold goSelect
  have hmem : j ∈ readyCases ready := by
    simp only [readyCases, List.mem_filter, List.mem_range]
    exact ⟨hj, hr⟩
  cases hc : readyCases ready with
  | nil => rw [hc] at hmem; cases hmem
  | cons c cs => exact ⟨_, rfl⟩

/-- The case chosen by a timed `select` is one that is ready first. -/
theorem timedSelect_spec (l : List Nat) (pick t i : Nat) (h : timedSelect l pick = some (t, i)) :
    l[i]? = some t ∧ ∀ r ∈ l, t ≤ r := by
  unfold timedSelect at h
  cases he : earliest l with
  | none => simp [he] at h
  | some m =>
    simp only [he] at h
    obtain ⟨_, hall⟩ := earliest_spec l m he
    cases hg : goSelect (l.map (fun r => decide (r ≤ m))) false pick with
    | dflt => simp [hg] at h
    | parks => simp [hg] at h
    | case k =>
      simp only [hg, Option.some.injEq, Prod.mk.injEq] at h
      obtain ⟨rfl, rfl⟩ := h
      obtain ⟨hlt, hready⟩ := goSelect_case _ _ _ _ hg
      simp only [List.length_map] at hlt
      refine ⟨?_, hall⟩
      rw [List.getD_eq_getElem _ _ (by simpa using hlt)] at hready
      simp only [List.getElem_map, decide_eq_true_eq] at hready
      rw [List.getElem?_eq_getElem hlt]
      have := hall _ (List.getElem_mem hlt)
      exact congrArg some (by omega)

/-- A timed `select` with at least one case proceeds. -/
theorem timedSelect_some (l : List Nat) (pick : Nat) (h : l ≠ []) :
    ∃ t i, timedSelect l pick = some (t, i) := by
  obtain ⟨m, hm⟩ := earliest_some l h
  obtain ⟨hmem, _⟩ := earliest_spec l m hm
  obtain ⟨j, hj, hjm⟩ := List.getElem_of_mem hmem
  obtain ⟨i, hi⟩ := goSelect_some (l.map (fun r => decide (r ≤ m))) false pick j
    (by simpa using hj)
    (by rw [List.getD_eq_getElem _ _ (by simpa using hj)]; simp [hjm])
  exact ⟨m, i, by simp [timedSelect, hm, hi]⟩

/-- A case that is ready strictly before the others is the one chosen. -/
theorem timedSelect_first (d : Nat) (rest : List Nat) (pick : Nat) (h : ∀ r ∈ rest, d < r) :
    timedSelect (d :: rest) pick = some (d, 0) := by
  obtain ⟨t, i, hti⟩ := timedSelect_some (d :: rest) pick (by simp)
  obtain ⟨hi, hall⟩ := timedSelect_spec _ _ _ _ hti
  have htd : t ≤ d := hall d (by simp)
  cases i with
  | zero =>
    simp only [List.getElem?_cons_zero, Option.some.injEq] at hi
    rw [hti, hi]
  | succ k =>
    exfalso
    simp only [List.getElem?_cons_succ] at hi
    have hmem : t ∈ rest := List.getElem?_mem hi
    have := h t hmem
    omega

/-- C15. Each multiplexed wait resolves to exactly one outcome, a source that
becomes ready first.  A timed `select` with at least one case yields one instant
and one case, that case became ready at that instant and no case became ready
before.  For `selectBasicDemo` under exact timing (100, 200, 150, 300 ms) and
every pick, the `select` proceeds at 100 ms with the branch of `ch1` and the
value 100; the same holds whenever the send on `ch1` comes strictly before the
other sends and the timeout.  For `selectTimeoutDemo` under exact timing (send
at 2 s, timeout at 1 s), the first `select` proceeds at 1 s with the timeout
branch; the same holds whenever the timeout comes strictly before the send. -/
theorem select_first_ready :
    (∀ (l : List Nat) (pick : Nat), l ≠ [] →
      ∃ t i, timedSelect l pick = some (t, i) ∧ l[i]? = some t ∧ ∀ r ∈ l, t ≤ r) ∧
    (∀ pick, ∃ out, selectBasicDemo 100 200 150 300 pick = .done out ∧
      out.time = 100 ∧ out.branch = .ch1 100) ∧
    (∀ d1 d2 d3 dT pick, d1 < d2 → d1 < d3 → d1 < dT →
      ∃ out, selectBasicDemo d1 d2 d3 dT pick = .done out ∧
        out.time = d1 ∧ out.branch = .ch1 100) ∧
    (∀ pick, ∃ out, selectTimeoutDemo 2000 1000 pick = .done out ∧
      out.time = 1000 ∧ out.first = .timeout ∧ out.wrote = true ∧ out.read = some 1) ∧
    (∀ dSend dTimer pick, dTimer < dSend →
      ∃ out, selectTimeoutDemo dSend dTimer pick = .done out ∧
        out.time = dTimer ∧ out.first = .timeout) := by
  have hbasic : ∀ d1 d2 d3 dT pick, d1 < d2 → d1 < d3 → d1 < dT →
      ∃ out, selectBasicDemo d1 d2 d3 dT pick = .done out ∧
        out.time = d1 ∧ out.branch = .ch1 100 := by
    intro d1 d2 d3 dT pick h2 h3 hT
    have hsel : timedSelect [d1, d2, d3, dT] pick = some (d1, 0) :=
      timedSelect_first d1 [d2, d3, dT] pick (by
        intro r hr
        simp only [List.mem_cons, List.mem_singleton, List.not_mem_nil, or_false] at hr
        rcases hr with rfl | rfl | rfl <;> assumption)
    exact ⟨_, by simp only [selectBasicDemo, hsel]; rfl, rfl, rfl⟩
  have htime : ∀ dSend dTimer pick, dTimer < dSend →
      ∃ out, selectTimeoutDemo dSend dTimer pick = .done out ∧
        out.time = dTimer ∧ out.first = .timeout ∧ out.wrote = true ∧ out.read = some 1 := by
    intro dSend dTimer pick hlt
    obtain ⟨t, i, hti⟩ := timedSelect_some [dSend, dTimer] pick (by simp)
    obtain ⟨hi, hall⟩ := timedSelect_spec _ _ _ _ hti
    have h1 : t ≤ dTimer := hall dTimer (by simp)
    have hsel : timedSelect [dSend, dTimer] pick = some (dTimer, 1) := by
      rw [hti]
      match i, hi with
      | 0, hi =>
        simp only [List.getElem?_cons_zero, Option.some.injEq] at hi
        omega
      | 1, hi =>
        simp only [List.getElem?_cons_succ, List.getElem?_cons_zero, Option.some.injEq] at hi
        rw [hi]
      | k + 2, hi => simp at hi
    exact ⟨_, by simp only [selectTimeoutDemo, hsel]; rfl, rfl, rfl, rfl, rfl⟩
  refine ⟨?_, ?_, hbasic, ?_, ?_⟩
  · intro l pick hl
    obtain ⟨t, i, hti⟩ := timedSelect_some l pick hl
    exact ⟨t, i, hti, timedSelect_spec l pick t i hti⟩
  · intro pick
    exact hbasic 100 200 150 300 pick (by decide) (by decide) (by decide)
  · intro pick
    exact htime 2000 1000 pick (by decide)
  · intro dSend dTimer pick hlt
    obtain ⟨out, h1, h2, h3, _⟩ := htime dSend dTimer pick hlt
    exact ⟨out, h1, h2, h3⟩

/-- Witness of C15: with sends at 120, 260 and 170 ms and the timeout at 310 ms,
the `select` of `selectBasicDemo` proceeds at 120 ms with the branch of `ch1`. -/
theorem select_first_ready_witness :
    ∃ out, selectBasicDemo 120 260 170 310 7 = .done out ∧
      out.time = 120 ∧ out.branch = .ch1 100 :=
  select_first_ready.2.2.1 120 260 170 310 7 (by decide) (by decide) (by decide)

/-- C18. `selectBasicDemo` sends on closed channels.  Under exact timing (100,
200, 150, 300 ms) and every pick, the `select` takes the value of `ch1` at
100 ms, the deferred function closes each of the three channels once, and the
sends `ch2 <- "hello"` and `ch3 <- true` then run on closed channels and panic.
Whatever the timing and the pick, every goroutine whose case is not chosen
panics at its send, so at least two of the three do. -/
theorem select_basic_send_on_closed :
    (∀ pick, selectBasicDemo 100 200 150 300 pick = .done
      { time := 100, branch := .ch1 100,
        ch1 := ⟨0, [], true, []⟩, ch2 := ⟨0, [], true, []⟩, ch3 := ⟨0, [], true, []⟩,
        send1 := .done ⟨0, [], false, []⟩, send2 := .panics, send3 := .panics }) ∧
    (∀ d1 d2 d3 dT pick, ∃ out, selectBasicDemo d1 d2 d3 dT pick = .done out ∧
      out.ch1.closed = true ∧ out.ch2.closed = true ∧ out.ch3.closed = true ∧
      (out.send1 = .panics ∨ out.branch = .ch1 100) ∧
      (out.send2 = .panics ∨ out.branch = .ch2 "hello") ∧
      (out.send3 = .panics ∨ out.branch = .ch3 true)) ∧
    (∀ v, send ⟨0, [], true, []⟩ v = .panics) := by
  refine ⟨?_, ?_, fun v => rfl⟩
  · intro pick
    have hsel : timedSelect [100, 200, 150, 300] pick = some (100, 0) :=
      timedSelect_first 100 [200, 150, 300] pick (by decide)
    simp only [selectBasicDemo, hsel]
    rfl
  · intro d1 d2 d3 dT pick
    obtain ⟨t, i, hti⟩ := timedSelect_some [d1, d2, d3, dT] pick (by simp)
    refine ⟨_, by simp only [selectBasicDemo, hti]; rfl, rfl, rfl, rfl, ?_⟩
    by_cases h0 : i = 0
    · subst h0
      simp [send]
    · by_cases h1 : i = 1
      · subst h1
        simp [send]
      · by_cases h2 : i = 2
        · subst h2
          simp [send]
        · simp [send, h0, h1, h2]

/-! ## The consumer loop of `selectLoopDemo` -/

/-- One iteration of the consumer while `ch1` is closed and the second producer
is parked in `ch2 <- v`: the pick decides between the two receive cases. -/
theorem loop_iter (s : LoopState) (v : Int) (timer : Bool) (pick : Nat)
    (h1 : s.ch1 = .closed) (h2 : s.ch2 = .sender v) (hf : s.finished = false)
    (hc1 : s.ch1Closed = true) (hc2 : s.ch2Closed = false) :
    loopStep s (.consumer timer pick) = .done
      (if pick % 2 = 1 then { s with ch2 := .empty, log := s.log ++ [.ch2 v] }
       else { s with log := s.log ++ [.ch1Closed] }) := by
  obtain ⟨c1, c2, n1, n2, f1, f2, fin, log⟩ := s
  simp only at h1 h2 hf hc1 hc2
  subst h1 h2 hf hc1 hc2
  have hr : readyCases [true, true, false] = [0, 1] := by decide
  rcases Nat.mod_two_eq_zero_or_one pick with hp | hp
  · simp [loopStep, goSelect, Src.ready, hr, hp, LoopState.exitTest]
  · simp [loopStep, goSelect, Src.ready, hr, hp, LoopState.exitTest]

/-- While every pick falls on the case of `ch1`, the value on `ch2` is not
taken. -/
theorem loop_skips (v : Int) : ∀ (picks : List Nat) (s : LoopState),
    (∀ p ∈ picks, p % 2 = 0) → s.ch1 = .closed → s.ch2 = .sender v → s.finished = false →
    s.ch1Closed = true → s.ch2Closed = false →
    loopRun s (picks.map (.consumer false)) = .done
      { s with log := s.log ++ List.replicate picks.length .ch1Closed } := by
  intro picks
  induction picks with
  | nil => intro s _ _ _ _ _ _; simp [loopRun]
  | cons p rest ih =>
    intro s hp h1 h2 hf hc1 hc2
    have hp0 : p % 2 = 0 := hp p (by simp)
    simp only [List.map_cons, loopRun, loop_iter s v false p h1 h2 hf hc1 hc2, hp0,
      Nat.zero_ne_one, if_false, bind_done]
    rw [ih { s with log := s.log ++ [.ch1Closed] }
      (fun q hq => hp q (List.mem_cons_of_mem _ hq)) h1 h2 hf hc1 hc2]
    simp [List.replicate_succ]

/-- Counterexample to C17: `selectLoopDemo` reaches a state in which `ch1` is
closed and the second producer is parked in `ch2 <- 10`, so both receive cases
can proceed; from there no number of iterations is enough to guarantee that the
consumer takes the value 10. -/
theorem select_loop_bound_counterexample :
    loopRun loopInit loopStallSchedule = .done loopStalled ∧
    loopStalled.ch1.ready = true ∧ loopStalled.ch2.ready = true ∧
    ¬ ∃ B : Nat, ∀ picks : List Nat, picks.length = B →
      ∃ s, loopRun loopStalled (picks.map (.consumer false)) = .done s ∧
        LoopEvent.ch2 10 ∈ s.log := by
  refine ⟨by decide, rfl, rfl, ?_⟩
  rintro ⟨B, hB⟩
  obtain ⟨s, hs, hmem⟩ := hB (List.replicate B 0) (by simp)
  rw [loop_skips 10 (List.replicate B 0) loopStalled (by
    intro p hp
    rw [(List.mem_replicate.1 hp).2]) rfl rfl rfl rfl rfl] at hs
  cases hs
  simp [loopStalled, List.mem_replicate] at hmem

/-- C17, amended.  In the consumer loop of `selectLoopDemo`, while `ch1` is
closed and the second producer is parked in `ch2 <- v`, both receive cases can
proceed and every iteration chooses between them by the pick of `select`: the
value `v` is taken when the pick falls on the case of `ch2`, and "ch1已关闭" is
printed again, nothing else changing, otherwise.  So the value is skipped as long as the picks
fall on `ch1`, and it is taken at the first pick that falls on `ch2`.  No number
of iterations guarantees that it is taken: for every `k` there are picks with
which the consumer makes `k` iterations and the producer is still parked in
`ch2 <- v`. -/
theorem select_loop_random_choice (s : LoopState) (v : Int)
    (h1 : s.ch1 = .closed) (h2 : s.ch2 = .sender v) (hf : s.finished = false)
    (hc1 : s.ch1Closed = true) (hc2 : s.ch2Closed = false) :
    (s.ch1.ready = true ∧ s.ch2.ready = true) ∧
    (∀ timer pick, loopStep s (.consumer timer pick) = .done
      (if pick % 2 = 1 then { s with ch2 := .empty, log := s.log ++ [.ch2 v] }
       else { s with log := s.log ++ [.ch1Closed] })) ∧
    (∀ picks : List Nat, (∀ p ∈ picks, p % 2 = 0) →
      loopRun s (picks.map (.consumer false)) = .done
        { s with log := s.log ++ List.replicate picks.length .ch1Closed }) ∧
    (∀ (picks : List Nat) (p : Nat), (∀ q ∈ picks, q % 2 = 0) → p % 2 = 1 →
      loopRun s ((picks ++ [p]).map (.consumer false)) = .done
        { s with ch2 := .empty,
                 log := s.log ++ List.replicate picks.length .ch1Closed ++ [.ch2 v] }) ∧
    (∀ k : Nat, ∃ (picks : List Nat) (s1 : LoopState), picks.length = k ∧
      loopRun s (picks.map (.consumer false)) = .done s1 ∧ s1.ch2 = .sender v ∧
      s1.log = s.log ++ List.replicate k .ch1Closed) := by
  refine ⟨⟨by rw [h1]; rfl, by rw [h2]; rfl⟩,
    fun timer pick => loop_iter s v timer pick h1 h2 hf hc1 hc2,
    fun picks hp => loop_skips v picks s hp h1 h2 hf hc1 hc2, ?_, ?_⟩
  rotate_left
  · intro k
    refine ⟨List.replicate k 0, _, by simp,
      loop_skips v (List.replicate k 0) s (by
        intro p hp
        rw [(List.mem_replicate.1 hp).2]) h1 h2 hf hc1 hc2, h2, by simp⟩
  intro picks p hp hodd
  have hrun : ∀ (l1 l2 : List LoopActor) (a b : LoopState), loopRun a l1 = .done b →
      loopRun a (l1 ++ l2) = loopRun b l2 := by
    intro l1
    induction l1 with
    | nil => intro l2 a b h; simp only [loopRun] at h; cases h; rfl
    | cons x xs ih =>
      intro l2 a b h
      simp only [loopRun, List.cons_append] at h ⊢
      cases hx : loopStep a x with
      | blocks => simp [hx] at h
      | panics => simp [hx] at h
      | done c =>
        simp only [hx, bind_done] at h ⊢
        exact ih l2 c b h
  rw [List.map_append, hrun _ _ s _ (loop_skips v picks s hp h1 h2 hf hc1 hc2)]
  simp only [List.map_cons, List.map_nil, loopRun]
  rw [loop_iter { s with log := s.log ++ List.replicate picks.length .ch1Closed } v false p
    h1 h2 hf hc1 hc2]
  simp [hodd]

/-- Witness of C17: from the state reached by `loopStallSchedule`, three picks on
`ch1` followed by one on `ch2` print "ch1已关闭" three more times before the
value 10 is taken. -/
theorem select_loop_random_choice_witness :
    loopRun loopStalled (([0, 2, 4] ++ [1]).map (.consumer false)) = .done
      { loopStalled with
        ch2 := .empty,
        log := loopStalled.log ++ List.replicate [0, 2, 4].length .ch1Closed ++ [.ch2 10] } :=
  (select_loop_random_choice loopStalled 10 rfl rfl rfl rfl rfl).2.2.2.1 [0, 2, 4] 1
    (by decide) (by decide)

/-! ## `sync.WaitGroup` -/

theorem count_set (l : List WorkerPc) (i : Nat) (x y a : WorkerPc) (h : l[i]? = some x) :
    (l.set i y).count a + (if x = a then 1 else 0) = l.count a + (if y = a then 1 else 0) := by
  induction l generalizing i with
  | nil => simp at h
  | cons b bs ih =>
    cases i with
    | zero =>
      simp only [List.getElem?_cons_zero, Option.some.injEq] at h
      subst h
      simp only [List.set_cons_zero, List.count_cons, beq_iff_eq]
      omega
    | succ k =>
      simp only [List.getElem?_cons_succ] at h
      have := ih k h
      simp only [List.set_cons_succ, List.count_cons]
      omega

theorem wgInv_init (n : Nat) : WgInv n (wgInit n) := by
  constructor <;> simp [wgInit, List.count_replicate]
  intro i hi
  simp [List.getElem?_replicate, hi]

theorem count_running_pos (l : List WorkerPc) (i : Nat) (h : l[i]? = some .running) :
    1 ≤ l.count .running := by
  have := count_set l i .running .returned .running h
  simp at this
  omega

theorem wgInv_step {nested : Bool} {n : Nat} {s s1 : WgState} (h : WgInv n s) (a : WgActor)
    (hstep : wgStep nested n s a = .done s1) : WgInv n s1 := by
  obtain ⟨hlen, hpc, hlater, htotal, hunsp, hcnt, hwait⟩ := h
  cases a with
  | timer =>
    simp only [wgStep] at hstep
    split at hstep
    · cases hstep
      exact ⟨hlen, hpc, hlater, htotal, hunsp, hcnt, hwait⟩
    · cases hstep
  | main =>
    simp only [wgStep] at hstep
    by_cases h0 : s.mainPc = 0
    · simp only [h0, if_true] at hstep
      have hu : s.workers.count .unspawned = n := by rw [hunsp]; omega
      have hc0 : s.counter = 0 := by
        rw [hcnt]
        simp only [h0, if_true]
        omega
      have hadd : wgAdd s.counter n = .done (n : Int) := by
        simp only [wgAdd, hc0, zero_add]
        have : ¬ ((n : Int) < 0) := by omega
        simp [this]
      simp only [hadd, bind_done] at hstep
      cases hstep
      refine ⟨hlen, by simp, fun i hi _ => hlater i hi (by omega), htotal, ?_, ?_, ?_⟩
      · simpa using hu
      · simp only [Nat.one_ne_zero, if_false]
        omega
      · intro hh
        simp only at hh
        omega
    · simp only [h0, if_false] at hstep
      by_cases hle : s.mainPc ≤ n
      · simp only [hle, if_true] at hstep
        cases hstep
        have hold := hlater (s.mainPc - 1) (by omega) (by omega)
        have c1 := count_set s.workers _ .unspawned .running .unspawned hold
        have c2 := count_set s.workers _ .unspawned .running .running hold
        have c3 := count_set s.workers _ .unspawned .running .returned hold
        simp at c1 c2 c3
        refine ⟨by simpa using hlen, by simp; omega, ?_, ?_, ?_, ?_, ?_⟩
        · intro i hi hle2
          simp only at hle2 ⊢
          rw [List.getElem?_set_ne (by omega)]
          exact hlater i hi (by omega)
        · simp only
          omega
        · simp only
          omega
        · simp only [c3]
          rw [hcnt]
          simp [h0]
        · intro hh
          simp only at hh
          omega
      · simp only [hle, if_false] at hstep
        by_cases h1 : s.mainPc = n + 1
        · simp only [h1, if_true] at hstep
          cases hstep
          refine ⟨hlen, by simp, ?_, htotal, ?_, ?_, ?_⟩
          · intro i hi hle2
            simp only at hle2
            omega
          · simp only
            omega
          · simp only
            rw [hcnt]
            simp [h0]
          · intro hh
            simp at hh
        · simp only [h1, if_false] at hstep
          by_cases h2 : s.mainPc = n + 2
          · simp only [h2, if_true] at hstep
            by_cases hz : s.counter = 0
            · simp only [wgWait, hz, if_true, bind_done] at hstep
              cases hstep
              refine ⟨hlen, by simp, ?_, htotal, ?_, ?_, ?_⟩
              · intro i hi hle2
                simp only at hle2
                omega
              · simp only
                omega
              · have hn3 : ¬ (n + 3 = 0) := by omega
                simp only [hn3, if_false]
                rw [hcnt] at hz
                simp only [h0, if_false] at hz
                omega
              · intro _
                simp only
                rw [hcnt] at hz
                simp only [h0, if_false] at hz
                omega
            · simp [wgWait, hz] at hstep
          · simp [h2] at hstep
  | worker i tick pick =>
    simp only [wgStep] at hstep
    cases hw : s.workers[i]? with
    | none => simp [hw] at hstep
    | some p =>
      cases p with
      | unspawned => simp [hw] at hstep
      | returned => simp [hw] at hstep
      | running =>
        simp only [hw] at hstep
        have hrun := count_running_pos s.workers i hw
        have c1 := count_set s.workers i .running .returned .unspawned hw
        have c2 := count_set s.workers i .running .returned .running hw
        have c3 := count_set s.workers i .running .returned .returned hw
        simp at c1 c2 c3
        have hpc0 : s.mainPc ≠ 0 := by
          intro h0
          rw [h0] at hunsp
          simp at hunsp
          omega
        have hcpos : 1 ≤ s.counter := by
          rw [hcnt]
          simp only [hpc0, if_false]
          omega
        have hdone : wgDone s.counter = .done (s.counter - 1) := by
          simp only [wgDone, wgAdd]
          have : ¬ (s.counter + -1 < 0) := by omega
          simp only [this, if_false]
          rfl
        have hret : WgInv n
            { s with counter := s.counter - 1, workers := s.workers.set i .returned } := by
          refine ⟨by simpa using hlen, hpc, ?_, ?_, ?_, ?_, ?_⟩
          · intro j hj hle2
            simp only at hle2 ⊢
            have hj2 := hlater j hj hle2
            have hij : i ≠ j := by
              rintro rfl
              rw [hw] at hj2
              cases hj2
            rw [List.getElem?_set_ne hij]
            exact hj2
          · simp only
            omega
          · simp only
            omega
          · simp only
            rw [hcnt]
            simp only [hpc0, if_false]
            omega
          · intro hh
            simp only at hh
            have := hwait hh
            omega
        have hsame : WgInv n s := ⟨hlen, hpc, hlater, htotal, hunsp, hcnt, hwait⟩
        cases hsel : (if nested = true then nestedWorkerSelect s.cancelled tick pick
            else workerSelect s.cancelled pick) with
        | parks => simp [hsel] at hstep
        | dflt =>
          simp only [hsel] at hstep
          cases hstep
          exact hsame
        | case k =>
          cases k with
          | zero =>
            simp only [hsel, hdone, bind_done] at hstep
            cases hstep
            exact hret
          | succ k =>
            simp only [hsel] at hstep
            cases hstep
            exact hsame

theorem wgInv_run {nested : Bool} {n : Nat} (sched : List WgActor) : ∀ (s s1 : WgState),
    WgInv n s → wgRun nested n s sched = .done s1 → WgInv n s1 := by
  induction sched with
  | nil =>
    intro s s1 h hr
    simp only [wgRun] at hr
    cases hr
    exact h
  | cons a rest ih =>
    intro s s1 h hr
    simp only [wgRun] at hr
    cases hs : wgStep nested n s a with
    | blocks => simp [hs] at hr
    | panics => simp [hs] at hr
    | done s2 =>
      simp only [hs, bind_done] at hr
      exact ih s2 s1 (wgInv_step h a hs) hr

/-- With the invariant, no step panics: `wg.Add` and `wg.Done` never make the
counter negative. -/
theorem wgStep_no_panic {nested : Bool} {n : Nat} {s : WgState} (h : WgInv n s) (a : WgActor) :
    wgStep nested n s a ≠ .panics := by
  obtain ⟨hlen, hpc, hlater, htotal, hunsp, hcnt, hwait⟩ := h
  cases a with
  | timer =>
    simp only [wgStep]
    split <;> simp
  | main =>
    simp only [wgStep]
    by_cases h0 : s.mainPc = 0
    · have hc0 : 0 ≤ s.counter := by
        rw [hcnt]
        simp only [h0, if_true]
        rw [h0] at hunsp
        omega
      have : ¬ (s.counter + (n : Int) < 0) := by omega
      simp [h0, wgAdd, this]
    · simp only [h0, if_false]
      split
      · simp
      · split
        · simp
        · split
          · simp only [wgWait]
            split <;> simp
          · simp
  | worker i tick pick =>
    simp only [wgStep]
    cases hw : s.workers[i]? with
    | none => simp
    | some p =>
      cases p with
      | unspawned => simp
      | returned => simp
      | running =>
        simp only
        have hrun := count_running_pos s.workers i hw
        have hpc0 : s.mainPc ≠ 0 := by
          intro h0
          rw [h0] at hunsp
          simp at hunsp
          omega
        have hdone : wgDone s.counter = .done (s.counter - 1) := by
          simp only [wgDone, wgAdd]
          have : ¬ (s.counter + -1 < 0) := by
            rw [hcnt]
            simp only [hpc0, if_false]
            omega
          simp only [this, if_false]
          rfl
        split
        · simp [hdone]
        · simp
        · simp

theorem wgRun_no_panic {nested : Bool} {n : Nat} (sched : List WgActor) : ∀ (s : WgState),
    WgInv n s → wgRun nested n s sched ≠ .panics := by
  induction sched with
  | nil => intro s _; simp [wgRun]
  | cons a rest ih =>
    intro s h
    simp only [wgRun]
    cases hs : wgStep nested n s a with
    | blocks => simp
    | panics => exact absurd hs (wgStep_no_panic h a)
    | done s2 =>
      simp only [bind_done]
      exact ih s2 (wgInv_step h a hs)

theorem wgSafe_of_inv {nested : Bool} {n : Nat} {s : WgState} (h : WgInv n s) :
    WgSafe nested n s := by
  obtain ⟨hlen, hpc, hlater, htotal, hunsp, hcnt, hwait⟩ := h
  have hnonneg : 0 ≤ s.counter := by
    rw [hcnt]
    by_cases h0 : s.mainPc = 0
    · simp only [h0, if_true]
      rw [h0] at hunsp
      omega
    · simp only [h0, if_false]
      omega
  refine ⟨hnonneg, hcnt, ?_, ?_, ?_, ?_⟩
  · intro hge
    rw [hcnt]
    have h0 : s.mainPc ≠ 0 := by omega
    simp only [h0, if_false]
    omega
  · intro hw
    have hr := hwait hw
    refine ⟨?_, ?_⟩
    · rw [hcnt]
      have h0 : s.mainPc ≠ 0 := by omega
      simp only [h0, if_false]
      omega
    · intro p hp
      have hall : s.workers.count .returned = s.workers.length := by rw [hr, hlen]
      exact ((List.count_eq_length.1 hall) p hp).symm
  · intro i tick pick s1 hstep
    simp only [wgStep] at hstep
    cases hw : s.workers[i]? with
    | none => simp [hw] at hstep
    | some p =>
      cases p with
      | unspawned => simp [hw] at hstep
      | returned => simp [hw] at hstep
      | running =>
        refine ⟨rfl, ?_⟩
        simp only [hw] at hstep
        have hrun := count_running_pos s.workers i hw
        have hpc0 : s.mainPc ≠ 0 := by
          intro h0
          rw [h0] at hunsp
          simp at hunsp
          omega
        have hdone : wgDone s.counter = .done (s.counter - 1) := by
          simp only [wgDone, wgAdd]
          have : ¬ (s.counter + -1 < 0) := by
            rw [hcnt]
            simp only [hpc0, if_false]
            omega
          simp only [this, if_false]
          rfl
        have hi : i < s.workers.length := by
          by_contra hge
          rw [List.getElem?_eq_none (by omega)] at hw
          cases hw
        cases hsel : (if nested = true then nestedWorkerSelect s.cancelled tick pick
            else workerSelect s.cancelled pick) with
        | parks => simp [hsel] at hstep
        | dflt =>
          simp only [hsel] at hstep
          cases hstep
          exact Or.inr rfl
        | case k =>
          cases k with
          | zero =>
            simp only [hsel, hdone, bind_done] at hstep
            cases hstep
            exact Or.inl ⟨by simp [hi], rfl⟩
          | succ k =>
            simp only [hsel] at hstep
            cases hstep
            exact Or.inr rfl
  · intro i tick pick hw
    simp [wgStep, hw]

/-- Every trace of `worker` holds the deferred `wg.Done()` exactly once, as its
last event. -/
theorem worker_done_once (ctx : Ctx) (sleeps pick : Nat → Nat) (fuel : Nat) (w : World)
    (r : List WEvent × World) (h : worker ctx sleeps pick fuel w = some r) :
    r.1.count .wgDone = 1 ∧ r.1.getLast? = some .wgDone := by
  unfold worker at h
  cases hl : workerLoop ctx sleeps pick fuel 0 w with
  | none => simp [hl] at h
  | some q =>
    simp only [hl, Option.map_some', Option.some.injEq] at h
    obtain ⟨m, hm, _⟩ := workerLoop_trace ctx sleeps pick fuel 0 w q hl
    subst h
    simp [hm, List.count_replicate]

/-- Every trace of `nestedWorker` holds the deferred `wg.Done()` exactly once,
as its last event. -/
theorem nestedWorker_done_once (ctx : Ctx) (pick : Nat → Nat) (fuel : Nat) (w : World)
    (r : List WEvent × World) (h : nestedWorker ctx pick fuel w = some r) :
    r.1.count .wgDone = 1 ∧ r.1.getLast? = some .wgDone := by
  unfold nestedWorker at h
  cases hl : nestedWorkerLoop ctx w.now pick fuel 0 w with
  | none => simp [hl] at h
  | some q =>
    simp only [hl, Option.map_some', Option.some.injEq] at h
    obtain ⟨m, hm, _⟩ := nestedWorkerLoop_trace ctx w.now pick fuel 0 w q hl
    subst h
    simp [hm, List.count_replicate]

/-- Counterexample to C14: right after `wg.Add(3)` in `nestedCancelDemo`, and
after `wg.Add(1)` in `cancelContextDemo`, the counter is 3, resp. 1, while no
worker has been spawned yet. -/
theorem waitgroup_counter_counterexample :
    wgRun true 3 (wgInit 3) [.main]
      = .done ⟨3, 1, [.unspawned, .unspawned, .unspawned], false⟩ ∧
    (3 : Int) ≠ (List.count WorkerPc.running [.unspawned, .unspawned, .unspawned] : Nat) ∧
    wgRun false 1 (wgInit 1) [.main] = .done ⟨1, 1, [.unspawned], false⟩ ∧
    (1 : Int) ≠ (List.count WorkerPc.running [.unspawned] : Nat) := by
  decide

/-- C14, amended.  In `cancelContextDemo` (one `worker`) and `nestedCancelDemo`
(three `nestedWorker`), and for any number of workers, under every interleaving
nothing panics and in every reachable state: the `WaitGroup` counter is the
number of workers announced by `wg.Add` minus the number of workers that have
returned, and is never negative; from the moment every `go` statement has run it
equals the number of spawned workers that have not returned; a step of a worker
changes the counter only when the worker returns, by exactly one, and a returned
worker takes no further step; and `wg.Wait()` has returned only if the counter
is zero and every worker has returned.  Every trace of `worker` and of
`nestedWorker` holds the deferred `wg.Done()` exactly once, as its last event. -/
theorem waitgroup_counter :
    (∀ (nested : Bool) (n : Nat) (sched : List WgActor),
      match wgRun nested n (wgInit n) sched with
      | .panics => False
      | .blocks => True
      | .done s => WgSafe nested n s) ∧
    (∀ sched, ∀ s, wgRun false 1 (wgInit 1) sched = .done s → WgSafe false 1 s) ∧
    (∀ sched, ∀ s, wgRun true 3 (wgInit 3) sched = .done s → WgSafe true 3 s) ∧
    (∀ ctx sleeps pick fuel w r, worker ctx sleeps pick fuel w = some r →
      r.1.count .wgDone = 1 ∧ r.1.getLast? = some .wgDone) ∧
    (∀ ctx pick fuel w r, nestedWorker ctx pick fuel w = some r →
      r.1.count .wgDone = 1 ∧ r.1.getLast? = some .wgDone) := by
  refine ⟨?_, ?_, ?_, worker_done_once, nestedWorker_done_once⟩
  · intro nested n sched
    cases hr : wgRun nested n (wgInit n) sched with
    | panics => exact absurd hr (wgRun_no_panic sched _ (wgInv_init n))
    | blocks => trivial
    | done s => exact wgSafe_of_inv (wgInv_run sched _ s (wgInv_init n) hr)
  · intro sched s hr
    exact wgSafe_of_inv (wgInv_run sched _ s (wgInv_init 1) hr)
  · intro sched s hr
    exact wgSafe_of_inv (wgInv_run sched _ s (wgInv_init 3) hr)

/-- Witness of C14: a schedule of `nestedCancelDemo` that runs to the end;
`wg.Wait()` returns with the counter at zero and the three workers returned. -/
theorem waitgroup_counter_witness :
    wgRun true 3 (wgInit 3) wgNestedSchedule
      = .done ⟨0, 6, [.returned, .returned, .returned], true⟩ ∧
    WgSafe true 3 ⟨0, 6, [.returned, .returned, .returned], true⟩ :=
  ⟨by decide, waitgroup_counter.2.2.1 wgNestedSchedule _ (by decide)⟩

/-! ## `Err()` never changes once set -/

theorem errKept_refl (ns : List CNode) : ErrKept ns ns :=
  fun _ n _ hj he => ⟨n, hj, he⟩

theorem errKept_trans {a b c : List CNode} (h1 : ErrKept a b) (h2 : ErrKept b c) :
    ErrKept a c := by
  intro j n e hj he
  obtain ⟨m, hm, hme⟩ := h1 j n e hj he
  exact h2 j m e hm hme

theorem removeChild_errKept (ns : List CNode) (id : Nat) : ErrKept ns (removeChild ns id) := by
  intro j n e hj he
  have hlt : j < (removeChild ns id).length := by
    rw [removeChild_length]; exact getElem?_some_lt hj
  obtain ⟨m, hm⟩ : ∃ m, (removeChild ns id)[j]? = some m := ⟨_, List.getElem?_eq_getElem hlt⟩
  obtain ⟨n1, hn1, herr, _⟩ := removeChild_node ns id j m hm
  rw [hj] at hn1
  cases hn1
  exact ⟨m, hm, by rw [herr]; exact he⟩

theorem cancelTop_errKept (ns : List CNode) (id : Nat) (c : CtxErr) (hok : NodesOk ns) :
    ErrKept ns (cancelTop ns id c) := by
  cases hid : ns[id]? with
  | none =>
    have h : cancelTop ns id c = ns := by simp [cancelTop, hid]
    rw [h]
    exact errKept_refl ns
  | some n =>
    by_cases hdone : n.err.isSome = true
    · rw [cancelTop_finished ns id c n hid hdone]
      exact errKept_refl ns
    · have h : cancelTop ns id c = removeChild (cancelAux ns.length ns id c) id := by
        simp [cancelTop, hid, hdone]
      rw [h]
      obtain ⟨hF, _, _⟩ := cancelAux_spec c ns.length ns id hok (by omega)
      refine errKept_trans ?_ (removeChild_errKept _ id)
      intro j m e hj he
      rcases hF.node j m hj with h1 | ⟨h0, _⟩
      · exact ⟨m, h1, he⟩
      · rw [h0] at he
        cases he

theorem fire_errKept (now : Nat) : ∀ (tms : List Timer) (ns : List CNode), NodesOk ns →
    Propagated ns → ErrKept ns (fire now tms ns).2 := by
  intro tms
  induction tms with
  | nil => intro ns _ _; exact errKept_refl ns
  | cons tm rest ih =>
    intro ns hok hp
    simp only [fire]
    split
    · obtain ⟨h1, h2, _⟩ := cancelTop_ok ns tm.id tm.cause hok hp
      exact errKept_trans (cancelTop_errKept ns tm.id tm.cause hok) (ih _ h1 h2)
    · exact errKept_refl ns

theorem newChild_errKept (w : World) (parent : Ctx) (dl : Option Nat) :
    ErrKept w.nodes (newChild w parent dl).2.nodes := by
  intro j n e hj he
  have hlt := getElem?_some_lt hj
  unfold newChild
  simp only
  split
  · exact ⟨n, by rw [List.getElem?_append_left hlt]; exact hj, he⟩
  · rename_i p _
    split
    · exact ⟨n, by rw [List.getElem?_append_left hlt]; exact hj, he⟩
    · rename_i pn hpn
      split
      · exact ⟨n, by rw [List.getElem?_append_left hlt]; exact hj, he⟩
      · rw [List.getElem?_append_left (by simpa using hlt)]
        by_cases hjp : p = j
        · subst hjp
          rw [hpn] at hj
          cases hj
          exact ⟨{ n with children := n.children ++ [w.nodes.length] },
            by simp [List.getElem?_set, hlt], he⟩
        · exact ⟨n, by simp [List.getElem?_set, hjp, hj], he⟩

theorem newTimerCtx_errKept (w : World) (parent : Ctx) (d : Nat) (h : WorldOk w) :
    ErrKept w.nodes (newTimerCtx w parent d).2.nodes := by
  have hc := newChild_ok w parent (some d) h.1 h.2
  have hs := newChild_errKept w parent (some d)
  unfold newTimerCtx
  simp only
  split
  · exact errKept_trans hs (cancelTop_errKept _ _ _ hc.1)
  · split
    · exact hs
    · exact hs

theorem apply_errKept (w : World) (op : WorldOp) (h : WorldOk w) :
    ErrKept w.nodes (w.apply op).nodes := by
  cases op with
  | withCancel parent => exact newChild_errKept w parent none
  | withDeadline parent d =>
    simp only [World.apply, WithDeadline]
    split
    · split
      · exact newChild_errKept w parent none
      · exact newTimerCtx_errKept w parent d h
    · exact newTimerCtx_errKept w parent d h
  | withTimeout parent d =>
    simp only [World.apply, WithTimeout, WithDeadline]
    split
    · split
      · exact newChild_errKept w parent none
      · exact newTimerCtx_errKept w parent _ h
    · exact newTimerCtx_errKept w parent _ h
  | cancel id => exact cancelTop_errKept w.nodes id .canceled h.1
  | afterFuncCancel d id => exact errKept_refl _
  | advance t => exact fire_errKept _ w.timers w.nodes h.1 h.2

theorem run_errKept (ops : List WorldOp) : ∀ (w : World), WorldOk w →
    ErrKept w.nodes (w.run ops).nodes := by
  induction ops with
  | nil => intro w _; exact errKept_refl _
  | cons op rest ih =>
    intro w h
    exact errKept_trans (apply_errKept w op h) (ih _ (apply_ok w op h))

theorem err_kept_of (w w1 : World) (h : ErrKept w.nodes w1.nodes) (ctx : Ctx) (e : CtxErr)
    (he : Err w ctx = some e) : Err w1 ctx = some e := by
  rw [err_canceler] at he ⊢
  cases hc : cancelerOf ctx with
  | none => simp [hc] at he
  | some p =>
    simp only [hc, Option.some_bind] at he ⊢
    cases hn : w.nodes[p]? with
    | none => simp [hn] at he
    | some n =>
      simp only [hn, Option.some_bind] at he
      obtain ⟨m, hm, hme⟩ := h p n e hn he
      simp [hm, hme]

/-- A second call of a cancel function changes nothing. -/
theorem cancel_twice (w : World) (id : Nat) (h : WorldOk w) :
    (w.cancel id).cancel id = w.cancel id := by
  cases hid : w.nodes[id]? with
  | none =>
    have h1 : cancelTop w.nodes id .canceled = w.nodes := by simp [cancelTop, hid]
    simp [World.cancel, h1]
  | some n =>
    cases he : n.err with
    | some e =>
      have h1 : cancelTop w.nodes id .canceled = w.nodes :=
        cancelTop_finished _ _ _ n hid (by rw [he]; rfl)
      simp [World.cancel, h1]
    | none =>
      have hdone : ¬ (n.err.isSome = true) := by rw [he]; simp
      have h1 : cancelTop w.nodes id .canceled
          = removeChild (cancelAux w.nodes.length w.nodes id .canceled) id := by
        simp [cancelTop, hid, hdone]
      obtain ⟨_, hD, _⟩ := cancelAux_spec .canceled w.nodes.length w.nodes id h.1 (by omega)
      obtain ⟨m, hm, hmd⟩ := hD n hid
      cases hme : m.err with
      | none => rw [hme] at hmd; simp at hmd
      | some e =>
        obtain ⟨m2, hm2, hm2e⟩ := removeChild_errKept _ id id m e hm hme
        have h2 : cancelTop (cancelTop w.nodes id .canceled) id .canceled
            = cancelTop w.nodes id .canceled := by
          rw [h1]
          exact cancelTop_finished _ _ _ m2 hm2 (by rw [hm2e]; rfl)
        simp [World.cancel, h2]

/-- C16. `Err()` is monotonic.  For every context of every program built from
`WithCancel`, `WithDeadline`, `WithTimeout`, `cancel()`, `AfterFunc(cancel)` and
the passing of time, once `Err()` is non-nil it keeps that value whatever
happens next; calling a cancel function a second time leaves the whole world as
it was.  In `timeoutContextDemo` the deferred `cancel2()` and `cancel()` leave
both `Err()` at `DeadlineExceeded`.  In `practicalExample` under exact timing,
`authCtx` has expired when `authCancel()` runs and stays `DeadlineExceeded`,
`dbCtx` and `ctx` become `Canceled` by their deferred cancel functions, and
calling these again or letting the 3 s and 5 s deadlines pass changes nothing. -/
theorem err_monotonic :
    (∀ (ops1 ops2 : List WorldOp) (ctx : Ctx) (e : CtxErr),
      Err (World.start.run ops1) ctx = some e →
      Err ((World.start.run ops1).run ops2) ctx = some e) ∧
    (∀ (ops : List WorldOp) (id : Nat),
      ((World.start.run ops).cancel id).cancel id = (World.start.run ops).cancel id) ∧
    (Err (timeoutContextDemo (fun _ => 800) (fun _ => 800) (fun _ => 0)).beforeDefers
        (timeoutContextDemo (fun _ => 800) (fun _ => 800) (fun _ => 0)).timeoutCtx
        = some .deadlineExceeded ∧
     Err (timeoutContextDemo (fun _ => 800) (fun _ => 800) (fun _ => 0)).final
        (timeoutContextDemo (fun _ => 800) (fun _ => 800) (fun _ => 0)).timeoutCtx
        = some .deadlineExceeded ∧
     Err (timeoutContextDemo (fun _ => 800) (fun _ => 800) (fun _ => 0)).beforeDefers
        (timeoutContextDemo (fun _ => 800) (fun _ => 800) (fun _ => 0)).deadlineCtx
        = some .deadlineExceeded ∧
     Err (timeoutContextDemo (fun _ => 800) (fun _ => 800) (fun _ => 0)).final
        (timeoutContextDemo (fun _ => 800) (fun _ => 800) (fun _ => 0)).deadlineCtx
        = some .deadlineExceeded) ∧
    (Err (World.start.run (practicalExampleOps.take 4)) (.cancelable (.cancelable .background 0) 1)
        = some .deadlineExceeded ∧
     Err (World.start.run practicalExampleOps) (.cancelable (.cancelable .background 0) 1)
        = some .deadlineExceeded ∧
     Err (World.start.run practicalExampleOps) (.cancelable (.cancelable .background 0) 2)
        = some .canceled ∧
     Err (World.start.run practicalExampleOps) (.cancelable .background 0) = some .canceled ∧
     Err ((World.start.run practicalExampleOps).run
          [.cancel 2, .cancel 1, .cancel 0, .advance 3000, .advance 5000])
        (.cancelable (.cancelable .background 0) 1) = some .deadlineExceeded ∧
     Err ((World.start.run practicalExampleOps).run
          [.cancel 2, .cancel 1, .cancel 0, .advance 3000, .advance 5000])
        (.cancelable (.cancelable .background 0) 2) = some .canceled ∧
     Err ((World.start.run practicalExampleOps).run
          [.cancel 2, .cancel 1, .cancel 0, .advance 3000, .advance 5000])
        (.cancelable .background 0) = some .canceled) := by
  refine ⟨?_, ?_, by decide, by decide⟩
  · intro ops1 ops2 ctx e he
    have hok := run_ok ops1 World.start worldOk_start
    exact err_kept_of _ _ (run_errKept ops2 _ hok) ctx e he
  · intro ops id
    exact cancel_twice _ id (run_ok ops World.start worldOk_start)

/-- Witness of C16: a context cancelled before its 2 s deadline keeps `Canceled`
when the deadline passes and when it is cancelled again. -/
theorem err_monotonic_witness :
    Err ((World.start.run [.withTimeout .background 2000, .advance 500, .cancel 0]).run
        [.advance 2000, .cancel 0]) (.cancelable .background 0) = some .canceled :=
  err_monotonic.1 [.withTimeout .background 2000, .advance 500, .cancel 0]
    [.advance 2000, .cancel 0] (.cancelable .background 0) .canceled (by decide)

/-! ## `processWithTimeout` with exact sleeps -/

theorem processLoop_exact (pick : Nat → Nat) (p : Ctx) (id D : Nat) (e : CtxErr) :
    ∀ (rem i : Nat) (w : World), Pending w id D e →
      (processWithTimeoutLoop (.cancelable p id) (fun _ => 800) pick rem i w).1
        = (List.range (min rem ((D - w.now + 799) / 800))).map (fun j => WEvent.step (i + j))
          ++ [if (D - w.now + 799) / 800 < rem then .stopped (some e) else .completed] := by
  intro rem
  induction rem with
  | zero =>
    intro i w _
    simp [processWithTimeoutLoop]
  | succ rem ih =>
    intro i w hp
    have hd : isDone w (.cancelable p id) = false := by simp [isDone, err_pending hp p]
    have hnow := hp.early
    rw [processLoop_step _ _ pick rem i w hd]
    simp only
    by_cases hl : D ≤ w.now + 800
    · obtain ⟨hF, _, _, _⟩ := fired_of_late hp (w.now + 800) (by omega)
      have hn : (D - w.now + 799) / 800 = 1 := by omega
      rw [hn]
      cases rem with
      | zero => simp [processWithTimeoutLoop, List.range_succ]
      | succ r =>
        rw [processLoop_fired _ pick p hF r (i + 1)]
        have h1 : min (r + 1 + 1) 1 = 1 := by omega
        simp [h1, List.range_succ]
    · obtain ⟨hP, hnw, _⟩ := pending_of_early hp (w.now + 800) (by omega)
      have hmax : max w.now (w.now + 800) = w.now + 800 := by omega
      rw [hmax] at hnw
      rw [ih (i + 1) _ hP, hnw]
      have hn : (D - w.now + 799) / 800 = (D - (w.now + 800) + 799) / 800 + 1 := by omega
      rw [hn]
      have hmin : min (rem + 1) ((D - (w.now + 800) + 799) / 800 + 1)
          = min rem ((D - (w.now + 800) + 799) / 800) + 1 := by omega
      rw [hmin, List.range_succ_eq_map, List.map_cons, List.map_map]
      have hcond : ((D - (w.now + 800) + 799) / 800 + 1 < rem + 1)
          = ((D - (w.now + 800) + 799) / 800 < rem) := by
        apply propext; omega
      simp only [hcond, Nat.add_zero, List.cons_append]
      congr 2
      apply List.map_congr_left
      intro j _
      simp only [Function.comp]
      congr 1
      omega

theorem withTimeout_start (T : Nat) (hT : 0 < T) :
    WithTimeout World.start .background T
      = ((.cancelable .background 0, 0),
          ⟨0, [⟨none, [], none, some T⟩], [⟨T, 0, .deadlineExceeded⟩]⟩) := by
  have hnd : ¬ (T ≤ 0) := by omega
  simp [WithTimeout, WithDeadline, Deadline, newTimerCtx, newChild, cancelerOf, World.start,
    addTimer, hnd]

/-- C20. `processWithTimeout` checks cancellation only at the step boundaries.
With every sleep lasting exactly 800 ms and a timeout `T` that is not a
multiple of 800 ms, it starts exactly `min(5, ⌈T / 800⌉)` steps, numbered from
1, and then prints "任务取消" (with `DeadlineExceeded`) if `T < 3200` and
"任务完成" otherwise; for `T` between 3200 and 4000 the context is done when the
function returns, yet no check follows the fifth step.  For the 2 s timeout it
starts 3 steps and for the 3 s deadline 4 steps, both ending cancelled. -/
theorem step_boundary_checks :
    (∀ (T : Nat) (pick : Nat → Nat), T % 800 ≠ 0 →
      (processWithTimeout (WithTimeout World.start .background T).1.1 (fun _ => 800) pick
          (WithTimeout World.start .background T).2).1
        = (List.range (min 5 ((T + 799) / 800))).map (fun j => WEvent.step (1 + j))
          ++ [if T < 3200 then .stopped (some .deadlineExceeded) else .completed]) ∧
    (∀ T : Nat, min 5 ((T + 799) / 800) ≤ 5) ∧
    (timeoutContextDemo (fun _ => 800) (fun _ => 800) (fun _ => 0)).task1
      = [.step 1, .step 2, .step 3, .stopped (some .deadlineExceeded)] ∧
    (timeoutContextDemo (fun _ => 800) (fun _ => 800) (fun _ => 0)).task2
      = [.step 1, .step 2, .step 3, .step 4, .stopped (some .deadlineExceeded)] ∧
    ((processWithTimeout (WithTimeout World.start .background 3500).1.1 (fun _ => 800)
          (fun _ => 0) (WithTimeout World.start .background 3500).2).1
        = [.step 1, .step 2, .step 3, .step 4, .step 5, .completed] ∧
     isDone (processWithTimeout (WithTimeout World.start .background 3500).1.1 (fun _ => 800)
          (fun _ => 0) (WithTimeout World.start .background 3500).2).2
        (WithTimeout World.start .background 3500).1.1 = true) := by
  refine ⟨?_, fun T => Nat.min_le_left _ _, by decide, by decide, by decide, by decide⟩
  intro T pick hT
  have hpos : 0 < T := by
    rcases Nat.eq_zero_or_pos T with h | h
    · subst h; simp at hT
    · exact h
  rw [withTimeout_start T hpos]
  have hP : Pending (⟨0, [⟨none, [], none, some T⟩], [⟨T, 0, .deadlineExceeded⟩]⟩ : World) 0 T
      .deadlineExceeded := ⟨rfl, ⟨_, rfl⟩, hpos⟩
  have h := processLoop_exact pick .background 0 T .deadlineExceeded 5 1 _ hP
  simp only [processWithTimeout, Nat.sub_zero] at h ⊢
  rw [h]
  have hc : ((T + 799) / 800 < 5) = (T < 3200) := by
    apply propext; omega
  simp only [hc]

/-- Witness of C20 at `T = 1000`: two steps, then cancelled. -/
theorem step_boundary_checks_witness :
    (processWithTimeout (WithTimeout World.start .background 1000).1.1 (fun _ => 800)
        (fun _ => 0) (WithTimeout World.start .background 1000).2).1
      = (List.range (min 5 ((1000 + 799) / 800))).map (fun j => WEvent.step (1 + j))
        ++ [if 1000 < 3200 then .stopped (some .deadlineExceeded) else .completed] :=
  step_boundary_checks.1 1000 (fun _ => 0) (by decide)

/-! ## Errors -/

theorem utf8ByteSize_eq_zero (s : String) : s.utf8ByteSize = 0 ↔ s = "" := by
  obtain ⟨l⟩ := s
  cases l with
  | nil => simp [String.utf8ByteSize, String.utf8ByteSize.go]
  | cons c cs =>
    have hpos := Char.utf8Size_pos c
    simp only [String.utf8ByteSize, String.utf8ByteSize.go]
    constructor
    · intro h
      omega
    · intro h
      have := congrArg String.data h
      simp at this

/-- The error `fmt.Errorf("打开文件失败", err)` makes: the operand is reported as
left over and nothing is wrapped. -/
theorem errorf_no_verb (e : GoError) :
    Errorf "打开文件失败" [e]
      = some (.errorString ("打开文件失败%!(EXTRA " ++ e.typeName ++ "=" ++ e.Error ++ ")")) := by
  simp [Errorf, doPrintf, extraOperands, String.singleton]
  rfl

/-- C21. `fileProcessor` does not wrap the failure of `os.Open`.  For every
non-empty file name for which `os.Open` fails with an error `e`, the error
returned is a plain `errors.New` value whose text is the format followed by the
left-over operand, `打开文件失败%!(EXTRA type=text of e)`: `errors.Unwrap` of it is
nil, not `e`, and `errors.Is(result, e)` is false.  With the verb `%w` in the
format the result would wrap `e`, as it does in `demoError`.  For the empty
file name the error `文件名不能为空` is returned and `os.Open` is not called. -/
theorem fileProcessor_drops_cause :
    (∀ (osOpen : String → Option GoError) (filename : String) (e : GoError),
      filename ≠ "" → osOpen filename = some e →
      (fileProcessor osOpen filename).err
        = some (.errorString ("打开文件失败%!(EXTRA " ++ e.typeName ++ "=" ++ e.Error ++ ")")) ∧
      (fileProcessor osOpen filename).opened = [filename] ∧
      ∀ r, (fileProcessor osOpen filename).err = some r →
        Unwrap r = none ∧ Unwrap r ≠ some e ∧ Is r e = false) ∧
    (∀ e : GoError, ∃ r, Errorf "打开文件失败: %w" [e] = some r ∧ Unwrap r = some e ∧
      Is r e = true) ∧
    (∃ r, demoError = some r ∧ Unwrap r = some (.errorString "原始错误")) ∧
    (∀ (osOpen : String → Option GoError),
      fileProcessor osOpen "" = ⟨some (.errorString "文件名不能为空"), [], false⟩) ∧
    fileProcessor noSuchFile "data.txt"
      = ⟨some (.errorString
          "打开文件失败%!(EXTRA *fs.PathError=open data.txt: no such file or directory)"),
         ["data.txt"], false⟩ := by
  refine ⟨?_, ?_, ⟨.wrapError "外层错误，原始错误" (.errorString "原始错误"), by decide, rfl⟩,
    fun osOpen => rfl, by decide⟩
  · intro osOpen filename e hne hopen
    have hsize : ¬ filename.utf8ByteSize = 0 := fun h => hne ((utf8ByteSize_eq_zero _).1 h)
    have herr : (fileProcessor osOpen filename).err
        = some (.errorString ("打开文件失败%!(EXTRA " ++ e.typeName ++ "=" ++ e.Error ++ ")")) := by
      simp only [fileProcessor, hsize, if_false, hopen]
      exact errorf_no_verb e
    refine ⟨herr, by simp [fileProcessor, hsize, hopen], ?_⟩
    intro r hr
    rw [herr] at hr
    cases hr
    refine ⟨rfl, by simp [Unwrap], ?_⟩
    simp only [Is, GoError.chain, List.contains_cons, List.contains_nil, Bool.or_false,
      beq_eq_false_iff_ne, ne_eq]
    intro heq
    have hlen := congrArg (fun x => x.Error.length) heq
    simp only [GoError.Error, String.length_append] at hlen
    have h1 : "=".length = 1 := rfl
    have h2 : ")".length = 1 := rfl
    omega
  · intro e
    have h : Errorf "打开文件失败: %w" [e] = some (.wrapError ("打开文件失败: " ++ e.Error) e) := by
      simp [Errorf, doPrintf, String.singleton]
      rfl
    refine ⟨_, h, rfl, ?_⟩
    cases e <;> simp [Is, GoError.chain]

/-- Witness of C21: a missing file in a file system where every `os.Open`
fails. -/
theorem fileProcessor_drops_cause_witness :
    (fileProcessor noSuchFile "data.txt").err
      = some (.errorString ("打开文件失败%!(EXTRA "
          ++ (GoError.pathError "open" "data.txt" (.errno "no such file or directory")).typeName
          ++ "="
          ++ (GoError.pathError "open" "data.txt" (.errno "no such file or directory")).Error
          ++ ")")) ∧
    (fileProcessor noSuchFile "data.txt").opened = ["data.txt"] ∧
    ∀ r, (fileProcessor noSuchFile "data.txt").err = some r →
      Unwrap r = none ∧
      Unwrap r ≠ some (.pathError "open" "data.txt" (.errno "no such file or directory")) ∧
      Is r (.pathError "open" "data.txt" (.errno "no such file or directory")) = false :=
  fileProcessor_drops_cause.1 noSuchFile "data.txt"
    (.pathError "open" "data.txt" (.errno "no such file or directory")) (by decide) rfl

/-! ## Generic queue and `FindMax` -/

theorem enqueueAll_items {α : Type} (xs : List α) : ∀ (q : Queue α),
    (q.enqueueAll xs).items = q.items ++ xs := by
  induction xs with
  | nil => intro q; simp [Queue.enqueueAll]
  | cons x xs ih =>
    intro q
    simp [Queue.enqueueAll, ih, Queue.Enqueue]

theorem dequeueN_items {α : Type} [Inhabited α] (xs : List α) : ∀ (rest : List α),
    (Queue.mk (xs ++ rest)).dequeueN xs.length = (xs, ⟨rest⟩) := by
  induction xs with
  | nil => intro rest; simp [Queue.dequeueN]
  | cons x xs ih =>
    intro rest
    simp [Queue.dequeueN, Queue.Dequeue, ih]

/-- C22. The generic `Queue` is first-in first-out.  For every list `xs`, after
enqueuing its elements in order onto an empty queue, `len(xs)` calls of
`Dequeue` return the elements of `xs` in the same order and leave the queue
empty; on queues that already hold items the items come out before the new
ones; `Dequeue` on an empty queue returns the zero value and leaves the queue
empty.  In `main`, after `Enqueue(1)` and `Enqueue(2)`, `Dequeue()` is 1. -/
theorem queue_fifo :
    (∀ (α : Type) [Inhabited α] (xs : List α),
      ((Queue.mk ([] : List α)).enqueueAll xs).dequeueN xs.length = (xs, ⟨[]⟩)) ∧
    (∀ (α : Type) [Inhabited α] (q : Queue α) (xs : List α),
      (q.enqueueAll xs).dequeueN (q.items.length + xs.length) = (q.items ++ xs, ⟨[]⟩)) ∧
    (∀ (α : Type) [Inhabited α], (Queue.mk ([] : List α)).Dequeue = (default, ⟨[]⟩)) ∧
    (∀ (α : Type) [Inhabited α] (n : Nat),
      (Queue.mk ([] : List α)).dequeueN n = (List.replicate n default, ⟨[]⟩)) ∧
    (((Queue.mk ([] : List Int)).Enqueue 1).Enqueue 2).Dequeue = (1, ⟨[2]⟩) := by
  have h2 : ∀ (α : Type) [Inhabited α] (q : Queue α) (xs : List α),
      (q.enqueueAll xs).dequeueN (q.items.length + xs.length) = (q.items ++ xs, ⟨[]⟩) := by
    intro α _ q xs
    have h := dequeueN_items (q.items ++ xs) []
    simp only [List.append_nil, List.length_append] at h
    have hq : q.enqueueAll xs = ⟨q.items ++ xs⟩ := by
      have := enqueueAll_items xs q
      cases hq : q.enqueueAll xs
      simp_all
    rw [hq]
    exact h
  refine ⟨?_, h2, ?_, ?_, by decide⟩
  · intro α _ xs
    simpa using h2 α ⟨[]⟩ xs
  · intro α _
    rfl
  · intro α _ n
    induction n with
    | zero => rfl
    | succ n ih => simp [Queue.dequeueN, Queue.Dequeue, ih, List.replicate_succ]

/-- Witness of C22 on a queue of strings. -/
theorem queue_fifo_witness :
    ((Queue.mk ([] : List String)).enqueueAll ["a", "b", "c"]).dequeueN 3
      = (["a", "b", "c"], ⟨[]⟩) :=
  queue_fifo.1 String ["a", "b", "c"]

theorem preorder_refl {α : Type} {compare : Comparator α} (h : TotalPreorder compare) (a : α) :
    compare a a ≤ 0 := by
  rcases h.total a a with h1 | h1 <;> exact h1

/-- `cmp.Compare` on a linearly ordered type is a total preorder. -/
theorem cmpCompare_preorder {α : Type} [LinearOrder α]
    [inst : DecidableRel (fun (a b : α) => a < b)] :
    TotalPreorder (fun (a b : α) => @cmpCompare α _ inst a b) := by
  constructor
  · intro a b
    simp only [cmpCompare]
    split_ifs <;> simp
  · intro a b c
    simp only [cmpCompare]
    intro hab hbc
    have h1 : a ≤ b := by
      by_contra hn
      have hlt : b < a := not_le.1 hn
      have hna : ¬ a < b := lt_asymm hlt
      simp [hlt, hna] at hab
    have h2 : b ≤ c := by
      by_contra hn
      have hlt : c < b := not_le.1 hn
      have hna : ¬ b < c := lt_asymm hlt
      simp [hlt, hna] at hbc
    have h3 : ¬ c < a := not_lt.2 (le_trans h1 h2)
    split_ifs <;> simp

/-- The loop of `FindMax` over `rest`, started with `max` equal to the element
of index `i` of `pre ++ rest`, where `pre` holds the elements already seen. -/
theorem findMaxLoop_spec {α : Type} {compare : Comparator α} (h : TotalPreorder compare) :
    ∀ (rest pre : List α) (max : α) (i : Nat),
      pre[i]? = some max →
      (∀ x ∈ pre, compare x max ≤ 0) →
      (∀ (j : Nat) (y : α), j < i → pre[j]? = some y → ¬ compare max y ≤ 0) →
      ∃ k, (pre ++ rest)[k]? = some (findMaxLoop compare rest max) ∧
        (∀ x ∈ pre ++ rest, compare x (findMaxLoop compare rest max) ≤ 0) ∧
        (∀ (j : Nat) (y : α), j < k → (pre ++ rest)[j]? = some y →
          ¬ compare (findMaxLoop compare rest max) y ≤ 0) := by
  intro rest
  induction rest with
  | nil =>
    intro pre max i hi hall hfirst
    exact ⟨i, by simpa [findMaxLoop] using hi, by simpa [findMaxLoop] using hall,
      by simpa [findMaxLoop] using hfirst⟩
  | cons item rest ih =>
    intro pre max i hi hall hfirst
    have hilt : i < pre.length := by
      by_contra hge
      rw [List.getElem?_eq_none (by omega)] at hi
      cases hi
    have happ : pre ++ item :: rest = (pre ++ [item]) ++ rest := by simp
    simp only [findMaxLoop]
    rw [happ]
    by_cases hgt : compare item max > 0
    · simp only [hgt, if_true]
      have hmi : compare max item ≤ 0 := by
        rcases h.total item max with h1 | h1
        · omega
        · exact h1
      apply ih (pre ++ [item]) item pre.length
      · simp
      · intro x hx
        rcases List.mem_append.1 hx with hx | hx
        · exact h.trans x max item (hall x hx) hmi
        · simp only [List.mem_singleton] at hx
          rw [hx]
          exact preorder_refl h item
      · intro j y hj hy hle
        rw [List.getElem?_append_left hj] at hy
        have hymem : y ∈ pre := List.getElem?_mem hy
        have := h.trans item y max hle (hall y hymem)
        omega
    · simp only [hgt, if_false]
      apply ih (pre ++ [item]) max i
      · rw [List.getElem?_append_left hilt]
        exact hi
      · intro x hx
        rcases List.mem_append.1 hx with hx | hx
        · exact hall x hx
        · simp only [List.mem_singleton] at hx
          rw [hx]
          omega
      · intro j y hj hy
        rw [List.getElem?_append_left (by omega)] at hy
        exact hfirst j y hj hy

/-- C23. `FindMax` returns a maximum.  For every comparator that is a total
preorder and every non-empty slice, the result is the element of some index `k`
of the slice, every element compares not greater than it, and no element of a
smaller index is a maximum, the result comparing strictly greater than each of
them: among several maximal elements the one of smallest index is returned.
For an empty slice the zero value is returned.  `cmp.Compare` on integers and
on strings is a total preorder; `[3,1,4,1,5,9]` gives 9 and
`[apple, banana, cherry]` gives `cherry`. -/
theorem findMax_maximum :
    (∀ (α : Type) [Inhabited α] (compare : Comparator α) (items : List α),
      TotalPreorder compare → items ≠ [] →
      ∃ k, items[k]? = some (FindMax items compare) ∧
        (∀ x ∈ items, compare x (FindMax items compare) ≤ 0) ∧
        (∀ (j : Nat) (y : α), j < k → items[j]? = some y →
          ¬ compare (FindMax items compare) y ≤ 0 ∧
          ¬ (∀ x ∈ items, compare x y ≤ 0))) ∧
    (∀ (α : Type) [Inhabited α] (compare : Comparator α),
      FindMax ([] : List α) compare = default) ∧
    TotalPreorder (fun (a b : Int) => cmpCompare a b) ∧
    TotalPreorder (fun (a b : String) => cmpCompare a b) ∧
    FindMax [3, 1, 4, 1, 5, 9] (fun (a b : Int) => cmpCompare a b) = 9 ∧
    FindMax ["apple", "banana", "cherry"] (fun (a b : String) => cmpCompare a b) = "cherry" := by
  have ha : ¬ (("banana" : String) < "apple") :=
    fun h => absurd (String.lt_iff_toList_lt.1 h) (by decide)
  have hb : ("apple" : String) < "banana" := String.lt_iff_toList_lt.2 (by decide)
  have hc : ¬ (("cherry" : String) < "banana") :=
    fun h => absurd (String.lt_iff_toList_lt.1 h) (by decide)
  have hd : ("banana" : String) < "cherry" := String.lt_iff_toList_lt.2 (by decide)
  refine ⟨?_, fun α _ compare => rfl, ?_, ?_, by decide,
    by simp [FindMax, findMaxLoop, cmpCompare, ha, hb, hc, hd]⟩
  · intro α _ compare items h hne
    cases items with
    | nil => exact absurd rfl hne
    | cons first rest =>
      obtain ⟨k, hk, hall, hfirst⟩ := findMaxLoop_spec h rest [first] first 0 (by simp)
        (by
          intro x hx
          simp only [List.mem_singleton] at hx
          rw [hx]
          exact preorder_refl h first)
        (by intro j y hj; omega)
      simp only [List.singleton_append] at hk hall hfirst
      refine ⟨k, hk, hall, ?_⟩
      intro j y hj hy
      refine ⟨hfirst j y hj hy, ?_⟩
      intro hmax
      exact hfirst j y hj hy (hmax _ (List.getElem?_mem hk))
  · exact cmpCompare_preorder
  · exact cmpCompare_preorder

/-- Witness of C23: two maximal elements under the comparator that compares
lengths; the first of them, `banana`, is returned. -/
theorem findMax_maximum_witness :
    FindMax ["kiwi", "banana", "cherry"] (fun a b => cmpCompare a.length b.length) = "banana" ∧
    ∃ k : Nat, ["kiwi", "banana", "cherry"][k]? = some (FindMax ["kiwi", "banana", "cherry"]
        (fun a b => cmpCompare a.length b.length)) ∧
      ∀ x ∈ ["kiwi", "banana", "cherry"],
        cmpCompare x.length (FindMax ["kiwi", "banana", "cherry"]
          (fun a b => cmpCompare a.length b.length)).length ≤ 0 := by
  refine ⟨by decide, ?_⟩
  obtain ⟨k, hk, hall, _⟩ := findMax_maximum.1 String
    (fun a b => cmpCompare a.length b.length) ["kiwi", "banana", "cherry"]
    ⟨fun a b => (@cmpCompare_preorder Nat _ _).total a.length b.length,
     fun a b c => (@cmpCompare_preorder Nat _ _).trans a.length b.length c.length⟩
    (by simp)
  exact ⟨k, hk, hall⟩

/-! ## Push iterators and closures -/

theorem wrap64_add (x y : Int) : wrap64 (wrap64 x + wrap64 y) = wrap64 (x + y) := by
  unfold wrap64
  omega

theorem wrap64_add_right (x y : Int) : wrap64 (x + wrap64 y) = wrap64 (x + y) := by
  unfold wrap64
  omega

theorem wrap64_small (x : Int) (h1 : -9223372036854775808 ≤ x) (h2 : x < 9223372036854775808) :
    wrap64 x = x := by
  unfold wrap64
  omega

theorem wrap64_mul (x y : Int) : wrap64 (wrap64 x * y) = wrap64 (x * y) := by
  have h : ∃ k : Int, wrap64 x = x + 18446744073709551616 * k := by
    refine ⟨-((x + 9223372036854775808) / 18446744073709551616), ?_⟩
    unfold wrap64
    omega
  obtain ⟨k, hk⟩ := h
  rw [hk]
  have e : (x + 18446744073709551616 * k) * y = x * y + (k * y) * 18446744073709551616 := by ring
  rw [e]
  unfold wrap64
  have e2 : x * y + k * y * 18446744073709551616 + 9223372036854775808
      = x * y + 9223372036854775808 + (k * y) * 18446744073709551616 := by ring
  rw [e2, Int.add_mul_emod_self]

/-- The values passed to `yield` are an initial segment of the list, all of it
unless `yield` returned false. -/
theorem seqLoop_segment {σ α : Type} (yield : σ → α → σ × Bool) : ∀ (xs : List α) (c : σ),
    (∃ rest, xs = (seqLoop yield xs c).passed ++ rest) ∧
    ((seqLoop yield xs c).stopped = false → (seqLoop yield xs c).passed = xs) ∧
    ((seqLoop yield xs c).stopped = true → (seqLoop yield xs c).passed ≠ []) := by
  intro xs
  induction xs with
  | nil => intro c; simp [seqLoop]
  | cons x xs ih =>
    intro c
    simp only [seqLoop]
    by_cases hy : (yield c x).2 = true
    · obtain ⟨⟨rest, hrest⟩, h2, h3⟩ := ih (yield c x).1
      simp only [hy, if_true, Pushed.cons]
      refine ⟨⟨rest, ?_⟩, ?_, ?_⟩
      · simp only [List.cons_append]
        rw [← hrest]
      · intro hs
        rw [h2 hs]
      · intro _
        simp
    · simp only [hy, if_false]
      exact ⟨⟨xs, rfl⟩, by simp, by simp⟩

/-- With a consumer that never stops, every value is passed. -/
theorem seqLoop_collect {α : Type} : ∀ (xs acc : List α),
    seqLoop collect xs acc = ⟨acc ++ xs, xs, false⟩ := by
  intro xs
  induction xs with
  | nil => intro acc; simp [seqLoop]
  | cons x xs ih =>
    intro acc
    simp [seqLoop, collect, ih, Pushed.cons]

/-- `Filter` passes to `yield` what `Seq` passes for the filtered slice. -/
theorem filterLoop_eq {σ α : Type} (predicate : α → Bool) (yield : σ → α → σ × Bool) :
    ∀ (xs : List α) (c : σ),
      filterLoop predicate yield xs c = seqLoop yield (xs.filter predicate) c := by
  intro xs
  induction xs with
  | nil => intro c; rfl
  | cons x xs ih =>
    intro c
    by_cases hp : predicate x = true
    · simp only [filterLoop, hp, if_true, List.filter_cons_of_pos, seqLoop]
      by_cases hy : (yield c x).2 = true
      · simp only [hy, if_true, ih]
      · simp [hy]
    · simp only [filterLoop, hp, if_false, Bool.false_eq_true]
      rw [List.filter_cons_of_neg hp]
      exact ih c

/-! ## `Fibonacci`, `Fibonaccii` and `Exp` -/

theorem wrap64_fib_succ (i : Nat) :
    wrap64 (wrap64 (Nat.fib i) + wrap64 (Nat.fib (i + 1))) = wrap64 (Nat.fib (i + 2)) := by
  rw [wrap64_add, Nat.fib_add_two]
  push_cast
  rfl

theorem fib_exact (i : Nat) (h : i ≤ 92) : wrap64 (Nat.fib i) = Nat.fib i := by
  have h92 : Nat.fib 92 < 9223372036854775808 := by norm_num
  have hle : Nat.fib i ≤ Nat.fib 92 := Nat.fib_mono h
  apply wrap64_small <;> omega

theorem range_map_succ {α : Type} (f : Nat → α) (k : Nat) :
    (List.range (k + 1)).map f = f 0 :: (List.range k).map (fun j => f (j + 1)) := by
  rw [List.range_succ_eq_map, List.map_cons, List.map_map]
  rfl

/-- The loop of `Fibonacci` for any sequence `W` that satisfies the recurrence
of the loop body: started with `a = W i0` and `b = W (i0 + 1)`, it passes to
`yield` what the loop of `Seq` passes for the list `W i0, ..., W (i0 + k - 1)`,
and leaves the variables at `W (i0 + m)` and `W (i0 + m + 1)`, where `m` is the
number of values for which `yield` returned true. -/
theorem fibLoop_generic {σ : Type} (yield : σ → Int → σ × Bool) (W : Nat → Int)
    (hW : ∀ i, wrap64 (W i + W (i + 1)) = W (i + 2)) :
    ∀ (k : Nat) (s : FibSeq) (c : σ) (i0 : Nat),
      s.a = W i0 → s.b = W (i0 + 1) →
      (FibSeq.loop yield k s c).2
        = seqLoop yield ((List.range k).map (fun j => W (i0 + j))) c ∧
      (FibSeq.loop yield k s c).1.n = s.n ∧
      ∃ m, (FibSeq.loop yield k s c).2.passed.length
          = m + (if (FibSeq.loop yield k s c).2.stopped then 1 else 0) ∧
        (FibSeq.loop yield k s c).1.a = W (i0 + m) ∧
        (FibSeq.loop yield k s c).1.b = W (i0 + m + 1) := by
  intro k
  induction k with
  | zero =>
    intro s c i0 ha hb
    refine ⟨rfl, rfl, 0, rfl, ha, hb⟩
  | succ k ih =>
    intro s c i0 ha hb
    have hfun : (fun j => W (i0 + (j + 1))) = (fun j => W (i0 + 1 + j)) := by
      funext j
      rw [show i0 + (j + 1) = i0 + 1 + j by omega]
    have hlist : (List.range (k + 1)).map (fun j => W (i0 + j))
        = s.a :: (List.range k).map (fun j => W (i0 + 1 + j)) := by
      rw [range_map_succ (fun j => W (i0 + j)) k, hfun, ha]
      rfl
    rw [hlist]
    by_cases hy : (yield c s.a).2 = true
    · have hb2 : wrap64 (s.a + s.b) = W (i0 + 1 + 1) := by
        rw [ha, hb]
        exact hW i0
      obtain ⟨h1, h2, m, h3, h4, h5⟩ :=
        ih { s with a := s.b, b := wrap64 (s.a + s.b) } (yield c s.a).1 (i0 + 1) hb hb2
      simp only [FibSeq.loop, hy, if_true, seqLoop]
      refine ⟨by rw [h1], h2, m + 1, ?_, ?_, ?_⟩
      · simp only [Pushed.cons, List.length_cons, h3]
        omega
      · rw [h4, show i0 + 1 + m = i0 + (m + 1) by omega]
      · rw [h5, show i0 + 1 + m + 1 = i0 + (m + 1) + 1 by omega]
    · simp only [FibSeq.loop, hy, if_false, seqLoop, Bool.false_eq_true]
      exact ⟨trivial, trivial, 0, by simp, ha, hb⟩

/-- What one call of the iterator of `Fibonacci` does when its variables hold
the Fibonacci numbers of index `i0` and `i0 + 1`, wrapped to 64 bits. -/
theorem fibLoop_spec {σ : Type} (yield : σ → Int → σ × Bool)
    (k : Nat) (s : FibSeq) (c : σ) (i0 : Nat)
    (ha : s.a = wrap64 (Nat.fib i0)) (hb : s.b = wrap64 (Nat.fib (i0 + 1))) :
    (FibSeq.loop yield k s c).2
      = seqLoop yield ((List.range k).map (fun j => wrap64 (Nat.fib (i0 + j)))) c ∧
    (FibSeq.loop yield k s c).1.n = s.n ∧
    ∃ m, (FibSeq.loop yield k s c).2.passed.length
        = m + (if (FibSeq.loop yield k s c).2.stopped then 1 else 0) ∧
      (FibSeq.loop yield k s c).1.a = wrap64 (Nat.fib (i0 + m)) ∧
      (FibSeq.loop yield k s c).1.b = wrap64 (Nat.fib (i0 + m + 1)) :=
  fibLoop_generic yield (fun i => wrap64 (Nat.fib i)) wrap64_fib_succ k s c i0 ha hb

/-- The first value passed by a call with at least one iteration is `a`. -/
theorem fibLoop_head {σ : Type} (yield : σ → Int → σ × Bool) (k : Nat) (s : FibSeq) (c : σ) :
    (FibSeq.loop yield (k + 1) s c).2.passed.head? = some s.a := by
  simp only [FibSeq.loop]
  split <;> simp [Pushed.cons]

theorem fib_run_spec {σ : Type} (n : Int) (yield : σ → Int → σ × Bool) (c : σ) :
    ((Fibonacci n).run yield c).2
      = seqLoop yield ((List.range n.toNat).map (fun i => wrap64 (Nat.fib i))) c := by
  have h0 : (0 : Int) = wrap64 (Nat.fib 0) := by decide
  have h1 : (1 : Int) = wrap64 (Nat.fib (0 + 1)) := by decide
  have h := (fibLoop_spec yield n.toNat (Fibonacci n) c 0 h0 h1).1
  simpa [FibSeq.run, Fibonacci] using h

/-- C24. `Fibonacci(n)` is the Fibonacci sequence.  For every `n`, a fresh
`Fibonacci(n)` driven by a consumer that never stops passes exactly `max(n, 0)`
values, the `i`-th (from 0) being the Fibonacci number `F_i` wrapped to 64 bits,
where `F_0 = 0`, `F_1 = 1` and `F_(i+2) = F_i + F_(i+1)`; the wrapped value is
`F_i` itself for `i ≤ 92` and no longer for `i = 93`.  For every consumer the
call passes what the loop `for _, v := range` over that list passes: an initial
segment of it, ending with the first value for which `yield` returns false.
`Fibonacci(8)` yields 0, 1, 1, 2, 3, 5, 8, 13. -/
theorem fibonacci_sequence :
    (∀ n : Int,
      ((Fibonacci n).run collect []).2.passed
        = (List.range n.toNat).map (fun i => wrap64 (Nat.fib i)) ∧
      ((Fibonacci n).run collect []).2.passed.length = n.toNat ∧
      ((Fibonacci n).run collect []).2.stopped = false) ∧
    (Nat.fib 0 = 0 ∧ Nat.fib 1 = 1 ∧ ∀ i, Nat.fib (i + 2) = Nat.fib i + Nat.fib (i + 1)) ∧
    (∀ i, i ≤ 92 → wrap64 (Nat.fib i) = Nat.fib i) ∧
    wrap64 (Nat.fib 93) = (Nat.fib 93 : Int) - 18446744073709551616 ∧
    (∀ (σ : Type) (n : Int) (yield : σ → Int → σ × Bool) (c : σ),
      ((Fibonacci n).run yield c).2
        = seqLoop yield ((List.range n.toNat).map (fun i => wrap64 (Nat.fib i))) c ∧
      (∃ rest, (List.range n.toNat).map (fun i => wrap64 (Nat.fib i))
        = ((Fibonacci n).run yield c).2.passed ++ rest) ∧
      (((Fibonacci n).run yield c).2.stopped = false →
        ((Fibonacci n).run yield c).2.passed
          = (List.range n.toNat).map (fun i => wrap64 (Nat.fib i)))) ∧
    (∀ (σ : Type) (x : Int) (xs : List Int) (yield : σ → Int → σ × Bool) (c : σ),
      (yield c x).2 = false → seqLoop yield (x :: xs) c = ⟨(yield c x).1, [x], true⟩) ∧
    ((Fibonacci 8).run collect []).2.passed = [0, 1, 1, 2, 3, 5, 8, 13] := by
  refine ⟨?_, ⟨rfl, rfl, fun i => Nat.fib_add_two⟩, fib_exact, ?_, ?_, ?_, by decide⟩
  · intro n
    rw [fib_run_spec, seqLoop_collect]
    simp
  · have h93 : Nat.fib 93 = 12200160415121876738 := by norm_num
    rw [h93]
    decide
  · intro σ n yield c
    rw [fib_run_spec]
    exact ⟨rfl, (seqLoop_segment yield _ c).1, (seqLoop_segment yield _ c).2.1⟩
  · intro σ x xs yield c h
    simp [seqLoop, h]

/-- Witness of C24: a consumer that stops at the first value above 4 sees
0, 1, 1, 2, 3, 5 of `Fibonacci(8)` and nothing after the 5. -/
theorem fibonacci_sequence_witness :
    ((Fibonacci 8).run (fun (c : Nat) (v : Int) => (c + 1, decide (v ≤ 4))) 0).2
      = ⟨6, [0, 1, 1, 2, 3, 5], true⟩ ∧
    wrap64 (Nat.fib 10) = Nat.fib 10 :=
  ⟨by decide, fibonacci_sequence.2.2.1 10 (by decide)⟩

/-- The loops of `Fibonaccii` and of `Fibonacci` in step: same `a` and `b`, and
`c = a + b`. -/
theorem fibLoop3_eq {σ : Type} (yield : σ → Int → σ × Bool) :
    ∀ (k : Nat) (t : FibSeq3) (s : FibSeq) (c : σ),
      t.a = s.a → t.b = s.b → t.c = wrap64 (s.a + s.b) →
      (FibSeq3.loop yield k t c).2 = (FibSeq.loop yield k s c).2 ∧
      (FibSeq3.loop yield k t c).1.a = (FibSeq.loop yield k s c).1.a ∧
      (FibSeq3.loop yield k t c).1.b = (FibSeq.loop yield k s c).1.b ∧
      (FibSeq3.loop yield k t c).1.c
        = wrap64 ((FibSeq.loop yield k s c).1.a + (FibSeq.loop yield k s c).1.b) := by
  intro k
  induction k with
  | zero =>
    intro t s c ha hb hc
    exact ⟨rfl, ha, hb, hc⟩
  | succ k ih =>
    intro t s c ha hb hc
    simp only [FibSeq3.loop, FibSeq.loop, ha]
    by_cases hy : (yield c s.a).2 = true
    · simp only [hy, if_true]
      obtain ⟨h1, h2, h3, h4⟩ := ih { t with a := t.b, b := t.c, c := wrap64 (t.b + t.c) }
        { s with a := s.b, b := wrap64 (s.a + s.b) } (yield c s.a).1 hb hc (by simp only [hb, hc])
      exact ⟨by rw [h1], h2, h3, h4⟩
    · simp only [hy, if_false, Bool.false_eq_true]
      exact ⟨trivial, ha, hb, hc⟩

/-- C25. The two Fibonacci implementations agree.  For every `n`, every
consumer and every state of the consumer, one call of a fresh `Fibonaccii(n)`
passes to `yield` exactly the values that one call of a fresh `Fibonacci(n)`
passes, ends in the same way and leaves the consumer in the same state; the
variables `a` and `b` of the two are equal afterwards, so the same holds of
every later call of the same two iterator values. -/
theorem fibonacci_implementations_agree :
    (∀ (σ : Type) (n : Int) (yield : σ → Int → σ × Bool) (c : σ),
      ((Fibonaccii n).run yield c).2 = ((Fibonacci n).run yield c).2 ∧
      ((Fibonaccii n).run yield c).1.a = ((Fibonacci n).run yield c).1.a ∧
      ((Fibonaccii n).run yield c).1.b = ((Fibonacci n).run yield c).1.b) ∧
    (∀ (σ τ : Type) (n : Int) (yield : σ → Int → σ × Bool) (c : σ)
        (yield2 : τ → Int → τ × Bool) (c2 : τ),
      (((Fibonaccii n).run yield c).1.run yield2 c2).2
        = (((Fibonacci n).run yield c).1.run yield2 c2).2) ∧
    ((Fibonaccii 8).run collect []).2.passed = [0, 1, 1, 2, 3, 5, 8, 13] := by
  have hfirst : ∀ (σ : Type) (n : Int) (yield : σ → Int → σ × Bool) (c : σ),
      (FibSeq3.loop yield n.toNat (Fibonaccii n) c).2
        = (FibSeq.loop yield n.toNat (Fibonacci n) c).2 ∧
      (FibSeq3.loop yield n.toNat (Fibonaccii n) c).1.a
        = (FibSeq.loop yield n.toNat (Fibonacci n) c).1.a ∧
      (FibSeq3.loop yield n.toNat (Fibonaccii n) c).1.b
        = (FibSeq.loop yield n.toNat (Fibonacci n) c).1.b ∧
      (FibSeq3.loop yield n.toNat (Fibonaccii n) c).1.c
        = wrap64 ((FibSeq.loop yield n.toNat (Fibonacci n) c).1.a
          + (FibSeq.loop yield n.toNat (Fibonacci n) c).1.b) :=
    fun σ n yield c => fibLoop3_eq yield n.toNat (Fibonaccii n) (Fibonacci n) c rfl rfl
      (show (1 : Int) = wrap64 (0 + 1) by decide)
  have hn3 : ∀ {σ : Type} (yield : σ → Int → σ × Bool) (k : Nat) (t : FibSeq3) (c : σ),
      (FibSeq3.loop yield k t c).1.n = t.n := by
    intro σ yield k
    induction k with
    | zero => intro t c; rfl
    | succ k ih =>
      intro t c
      simp only [FibSeq3.loop]
      split
      · exact ih _ _
      · rfl
  have hn2 : ∀ {σ : Type} (yield : σ → Int → σ × Bool) (k : Nat) (s : FibSeq) (c : σ),
      (FibSeq.loop yield k s c).1.n = s.n := by
    intro σ yield k
    induction k with
    | zero => intro s c; rfl
    | succ k ih =>
      intro s c
      simp only [FibSeq.loop]
      split
      · exact ih _ _
      · rfl
  refine ⟨?_, ?_, by decide⟩
  · intro σ n yield c
    obtain ⟨h1, h2, h3, _⟩ := hfirst σ n yield c
    exact ⟨h1, h2, h3⟩
  · intro σ τ n yield c yield2 c2
    obtain ⟨_, h2, h3, h4⟩ := hfirst σ n yield c
    simp only [FibSeq3.run, FibSeq.run, Fibonaccii, Fibonacci] at *
    rw [hn3, hn2]
    exact (fibLoop3_eq yield2 n.toNat _ _ c2 h2 h3 h4).1

/-- Witness of C25: with a consumer that stops at the first value above 4, both
implementations pass 0, 1, 1, 2, 3, 5. -/
theorem fibonacci_implementations_agree_witness :
    ((Fibonaccii 8).run (fun (c : Nat) (v : Int) => (c + 1, decide (v ≤ 4))) 0).2
      = ((Fibonacci 8).run (fun (c : Nat) (v : Int) => (c + 1, decide (v ≤ 4))) 0).2 ∧
    ((Fibonaccii 8).run (fun (c : Nat) (v : Int) => (c + 1, decide (v ≤ 4))) 0).2.passed
      = [0, 1, 1, 2, 3, 5] :=
  ⟨(fibonacci_implementations_agree.1 Nat 8
      (fun (c : Nat) (v : Int) => (c + 1, decide (v ≤ 4))) 0).1, by decide⟩

theorem fibLoop_n {σ : Type} (yield : σ → Int → σ × Bool) : ∀ (k : Nat) (s : FibSeq) (c : σ),
    (FibSeq.loop yield k s c).1.n = s.n := by
  intro k
  induction k with
  | zero => intro s c; rfl
  | succ k ih =>
    intro s c
    simp only [FibSeq.loop]
    split
    · exact ih _ _
    · rfl

/-- An even Fibonacci number has an index divisible by 3. -/
theorem fib_even_three_dvd (n : Nat) (h : 2 ∣ Nat.fib n) : 3 ∣ n := by
  have hg : Nat.fib (Nat.gcd 3 n) = Nat.gcd (Nat.fib 3) (Nat.fib n) := Nat.fib_gcd 3 n
  have h3 : Nat.fib 3 = 2 := rfl
  rw [h3, Nat.gcd_eq_left h] at hg
  have hd : Nat.gcd 3 n ∣ 3 := Nat.gcd_dvd_left 3 n
  have hle : Nat.gcd 3 n ≤ 3 := Nat.le_of_dvd (by decide) hd
  have hr : Nat.gcd 3 n ∣ n := Nat.gcd_dvd_right 3 n
  generalize Nat.gcd 3 n = g at hg hd hle hr
  interval_cases g
  · exact absurd hg (by decide)
  · exact absurd hg (by decide)
  · exact absurd hg (by decide)
  · exact hr

/-- The Fibonacci number of index `6 * 2 ^ k` is `2 ^ (k + 3)` times an odd
number. -/
theorem fib_six_mul_two_pow (k : Nat) :
    ∃ q, q % 2 = 1 ∧ Nat.fib (6 * 2 ^ k) = 2 ^ (k + 3) * q := by
  induction k with
  | zero => exact ⟨1, rfl, rfl⟩
  | succ k ih =>
    obtain ⟨q, hq, hf⟩ := ih
    have h2 : 6 * 2 ^ (k + 1) = 2 * (6 * 2 ^ k) := by rw [pow_succ]; ring
    rw [h2]
    generalize 6 * 2 ^ k = m at hf
    rw [Nat.fib_two_mul, hf]
    have hco : Nat.gcd (Nat.fib m) (Nat.fib (m + 1)) = 1 := Nat.fib_coprime_fib_succ m
    have he2 : 2 ∣ Nat.fib m := by
      rw [hf]
      exact Dvd.dvd.mul_right (dvd_pow_self 2 (by omega)) q
    have hodd : Nat.fib (m + 1) % 2 = 1 := by
      by_contra hne
      have he : 2 ∣ Nat.fib (m + 1) := by omega
      have h2 := Nat.dvd_gcd he2 he
      rw [hco] at h2
      omega
    have hle : Nat.fib m ≤ Nat.fib (m + 1) := Nat.fib_le_fib_succ
    rw [hf] at hle
    have e3 : 2 ^ (k + 3) = 4 * 2 ^ (k + 1) := by ring
    have e2 : 2 ^ (k + 2) = 2 * 2 ^ (k + 1) := by ring
    have e4 : 2 ^ (k + 1 + 3) = 8 * 2 ^ (k + 1) := by ring
    rw [e3] at hle ⊢
    rw [e4]
    generalize ht : 2 ^ (k + 1) * q = t
    have hle2 : 4 * t ≤ Nat.fib (m + 1) := by rw [← ht]; linarith
    obtain ⟨r, hr⟩ := Nat.exists_eq_add_of_le hle2
    have hrodd : r % 2 = 1 := by omega
    refine ⟨q * (2 * t + r), ?_, ?_⟩
    · rw [Nat.mul_mod, hq]
      omega
    · have h1 : 4 * 2 ^ (k + 1) * q = 4 * t := by rw [← ht]; ring
      rw [h1, hr]
      have h3 : 2 * (4 * t + r) - 4 * t = 2 * (2 * t + r) := by omega
      rw [h3, ← ht]
      ring

/-- No Fibonacci number of index between 1 and `3 * 2 ^ 62 - 1` is a multiple of
`2 ^ 64`. -/
theorem fib_not_dvd (n : Nat) (hn : 0 < n) (hlt : n < 13835058055282163712) :
    ¬ (18446744073709551616 ∣ Nat.fib n) := by
  intro h
  obtain ⟨q, hq, hf⟩ := fib_six_mul_two_pow 61
  have hN2 : 6 * 2 ^ 61 = 3 * 2 ^ 62 := by norm_num
  rw [hN2] at hf
  generalize hN : 3 * 2 ^ 62 = N at hf
  have hdN : 18446744073709551616 ∣ Nat.fib N := by
    rw [hf]
    exact Dvd.intro q (by norm_num)
  have hg : 18446744073709551616 ∣ Nat.fib (Nat.gcd n N) := by
    rw [Nat.fib_gcd]
    exact Nat.dvd_gcd h hdN
  have hdvd : Nat.gcd n N ∣ N := Nat.gcd_dvd_right n N
  have hdn : Nat.gcd n N ∣ n := Nat.gcd_dvd_left n N
  generalize Nat.gcd n N = d at hg hdvd hdn
  have h3 : 3 ∣ d :=
    fib_even_three_dvd d (Dvd.dvd.trans (Dvd.intro 9223372036854775808 rfl) hg)
  obtain ⟨e, he⟩ := h3
  subst he
  rw [← hN] at hdvd
  have he2 : e ∣ 2 ^ 62 := Nat.dvd_of_mul_dvd_mul_left (by decide) hdvd
  obtain ⟨a, ha, rfl⟩ := (Nat.dvd_prime_pow Nat.prime_two).1 he2
  rcases Nat.lt_or_ge a 62 with hlt62 | hge
  · cases a with
    | zero =>
      have h2 : Nat.fib (3 * 2 ^ 0) = 2 := rfl
      rw [h2] at hg
      exact absurd (Nat.le_of_dvd (by decide) hg) (by decide)
    | succ b =>
      obtain ⟨q2, hq2, hf2⟩ := fib_six_mul_two_pow b
      have h6 : 3 * 2 ^ (b + 1) = 6 * 2 ^ b := by rw [pow_succ]; ring
      rw [h6, hf2] at hg
      have hp : 18446744073709551616 = 2 ^ (b + 3) * 2 ^ (61 - b) := by
        rw [← pow_add, show b + 3 + (61 - b) = 64 by omega]
        norm_num
      rw [hp] at hg
      have hq3 : 2 ^ (61 - b) ∣ q2 := Nat.dvd_of_mul_dvd_mul_left (by positivity) hg
      have h2q : 2 ∣ q2 := Dvd.dvd.trans (dvd_pow_self 2 (by omega)) hq3
      omega
  · have h62 : a = 62 := by omega
    subst h62
    have hle := Nat.le_of_dvd hn hdn
    have : 3 * 2 ^ 62 = 13835058055282163712 := by norm_num
    omega

/-- In 64-bit arithmetic no Fibonacci number of index between 1 and
`3 * 2 ^ 62 - 1` is 0. -/
theorem wrap64_fib_ne_zero (n : Nat) (hn : 0 < n) (hlt : n < 13835058055282163712) :
    wrap64 (Nat.fib n) ≠ 0 := by
  intro h
  unfold wrap64 at h
  have h0 : (Nat.fib n : Int) % 18446744073709551616 = 0 := by omega
  have hd : ((18446744073709551616 : Nat) : Int) ∣ (Nat.fib n : Int) :=
    Int.dvd_of_emod_eq_zero h0
  exact fib_not_dvd n hn hlt (Int.natCast_dvd_natCast.1 hd)

/-- C26. A `Fibonacci` iterator value is single-use.  Its variables `a` and `b`
outlive a call, so for every `n ≥ 1` a second complete traversal of the same
value `Fibonacci(n)` passes the Fibonacci numbers of index `n`, `n + 1`, ...,
`2n - 1`, in the 64-bit arithmetic of the iterator (hence the numbers themselves
while `2n - 1 ≤ 92`).  It does not restart at 0: its first value is the
Fibonacci number of index `n`, which for every `n` of Go's `int`
(`n ≤ 2^63 - 1`) is not 0 in 64-bit arithmetic.  After a traversal that ended
because `yield` returned false on a value, the variable `a` still holds that
value and every next traversal starts with it. -/
theorem fibonacci_single_use :
    (∀ n : Int, 1 ≤ n →
      (((Fibonacci n).run collect []).1.run collect []).2.passed
        = (List.range n.toNat).map (fun i => wrap64 (Nat.fib (n.toNat + i))) ∧
      (((Fibonacci n).run collect []).1.run collect []).2.passed.head?
        = some (wrap64 (Nat.fib n.toNat)) ∧
      (n ≤ 9223372036854775807 → wrap64 (Nat.fib n.toNat) ≠ 0) ∧
      (2 * n - 1 ≤ 92 →
        (((Fibonacci n).run collect []).1.run collect []).2.passed
          = (List.range n.toNat).map (fun i => (Nat.fib (n.toNat + i) : Int)) ∧
        0 < Nat.fib n.toNat)) ∧
    (∀ (σ τ : Type) (n : Int) (yield : σ → Int → σ × Bool) (c : σ),
      ((Fibonacci n).run yield c).2.stopped = true →
      ∃ v, ((Fibonacci n).run yield c).2.passed.getLast? = some v ∧
        ((Fibonacci n).run yield c).1.a = v ∧
        ∀ (yield2 : τ → Int → τ × Bool) (c2 : τ),
          (((Fibonacci n).run yield c).1.run yield2 c2).2.passed.head? = some v) := by
  have h0 : (0 : Int) = wrap64 (Nat.fib 0) := by decide
  have h1 : (1 : Int) = wrap64 (Nat.fib (0 + 1)) := by decide
  constructor
  · intro n hn
    obtain ⟨hp, hnn, m, hm, ha, hb⟩ := fibLoop_spec collect n.toNat (Fibonacci n) [] 0 h0 h1
    rw [seqLoop_collect] at hp
    have hst : (FibSeq.loop collect n.toNat (Fibonacci n) []).2.stopped = false := by rw [hp]
    have hlen : (FibSeq.loop collect n.toNat (Fibonacci n) []).2.passed.length = n.toNat := by
      rw [hp]
      simp
    rw [hst, hlen] at hm
    simp only [Bool.false_eq_true, if_false, Nat.add_zero] at hm
    subst hm
    simp only [Nat.zero_add] at ha hb
    obtain ⟨hp2, _, _⟩ := fibLoop_spec collect n.toNat
      (FibSeq.loop collect n.toNat (Fibonacci n) []).1 [] n.toNat ha hb
    rw [seqLoop_collect] at hp2
    have hrun : (((Fibonacci n).run collect []).1.run collect []).2
        = ⟨[] ++ (List.range n.toNat).map (fun j => wrap64 (Nat.fib (n.toNat + j))),
           (List.range n.toNat).map (fun j => wrap64 (Nat.fib (n.toNat + j))), false⟩ := by
      have hnn2 : (FibSeq.loop collect n.toNat (Fibonacci n) []).1.n = n := hnn
      show (FibSeq.loop collect (FibSeq.loop collect n.toNat (Fibonacci n) []).1.n.toNat
        (FibSeq.loop collect n.toNat (Fibonacci n) []).1 []).2 = _
      rw [hnn2]
      exact hp2
    have hpos : 0 < n.toNat := by omega
    rw [hrun]
    refine ⟨rfl, ?_, ?_, ?_⟩
    · obtain ⟨k, hk⟩ : ∃ k, n.toNat = k + 1 := ⟨n.toNat - 1, by omega⟩
      simp [hk, List.range_succ_eq_map]
    · intro hmax
      exact wrap64_fib_ne_zero n.toNat hpos (by omega)
    · intro h92
      refine ⟨?_, Nat.fib_pos.2 hpos⟩
      apply List.map_congr_left
      intro i hi
      simp only [List.mem_range] at hi
      exact fib_exact _ (by omega)
  · intro σ τ n yield c hst
    obtain ⟨hp, hnn, m, hm, ha, hb⟩ := fibLoop_spec yield n.toNat (Fibonacci n) c 0 h0 h1
    have hst2 : (FibSeq.loop yield n.toNat (Fibonacci n) c).2.stopped = true := hst
    rw [hst2] at hm
    simp only [if_true] at hm
    obtain ⟨⟨rest, hrest⟩, _, _⟩ := seqLoop_segment yield
      ((List.range n.toNat).map (fun j => wrap64 (Nat.fib (0 + j)))) c
    rw [← hp] at hrest
    simp only [Nat.zero_add] at ha hrest
    have hlast : (FibSeq.loop yield n.toNat (Fibonacci n) c).2.passed.getLast?
        = some (wrap64 (Nat.fib m)) := by
      have hmlt : m < (FibSeq.loop yield n.toNat (Fibonacci n) c).2.passed.length := by omega
      have hget : (FibSeq.loop yield n.toNat (Fibonacci n) c).2.passed[m]?
          = some (wrap64 (Nat.fib m)) := by
        have h2 := congrArg (fun l => l[m]?) hrest
        simp only at h2
        rw [List.getElem?_append_left hmlt] at h2
        rw [← h2]
        have hmn : m < n.toNat := by
          have := congrArg List.length hrest
          simp only [List.length_map, List.length_range, List.length_append] at this
          omega
        simp [hmn]
      rw [List.getLast?_eq_getElem?, hm]
      simpa using hget
    have hpos : ∃ k, n.toNat = k + 1 := by
      have := congrArg List.length hrest
      simp only [List.length_map, List.length_range, List.length_append] at this
      exact ⟨n.toNat - 1, by omega⟩
    obtain ⟨k, hk⟩ := hpos
    refine ⟨wrap64 (Nat.fib m), hlast, ha, ?_⟩
    intro yield2 c2
    have hnn2 : (FibSeq.loop yield n.toNat (Fibonacci n) c).1.n = n := hnn
    show (FibSeq.loop yield2 (FibSeq.loop yield n.toNat (Fibonacci n) c).1.n.toNat
      (FibSeq.loop yield n.toNat (Fibonacci n) c).1 c2).2.passed.head? = _
    have hhead := fibLoop_head yield2 k (FibSeq.loop yield n.toNat (Fibonacci n) c).1 c2
    rw [← hk] at hhead
    rw [hnn2, hhead]
    exact congrArg some ha

/-- Witness of C26: the second traversal of `Fibonacci(4)` passes 3, 5, 8, 13,
the first value of the second traversal of `Fibonacci(47)`, whose last values
wrap, is not 0, and after a traversal of `Fibonacci(8)` stopped on the value 5
the next traversal starts with 5. -/
theorem fibonacci_single_use_witness :
    (((Fibonacci 4).run collect []).1.run collect []).2.passed = [3, 5, 8, 13] ∧
    (((Fibonacci 4).run collect []).1.run collect []).2.passed
      = (List.range (4 : Int).toNat).map (fun i => wrap64 (Nat.fib ((4 : Int).toNat + i))) ∧
    wrap64 (Nat.fib (47 : Int).toNat) ≠ 0 ∧
    ((Fibonacci 8).run (fun (c : Nat) (v : Int) => (c + 1, decide (v ≤ 4))) 0).2.passed
      = [0, 1, 1, 2, 3, 5] ∧
    (((Fibonacci 8).run (fun (c : Nat) (v : Int) => (c + 1, decide (v ≤ 4))) 0).1.run
      collect []).2.passed = [5, 8, 13, 21, 34, 55, 89, 144] :=
  ⟨by decide, (fibonacci_single_use.1 4 (by decide)).1,
   (fibonacci_single_use.1 47 (by decide)).2.2.1 (by decide), by decide, by decide⟩

theorem exp_call (n : Int) (i : Nat) (pre post : List Int) :
    (ExpClosure.mk n pre.length).call (pre ++ wrap64 (n ^ i) :: post)
      = (wrap64 (n ^ i), pre ++ wrap64 (n ^ (i + 1)) :: post) := by
  have hget : (pre ++ wrap64 (n ^ i) :: post).getD pre.length 0 = wrap64 (n ^ i) := by
    rw [List.getD_eq_getElem?_getD, List.getElem?_append_right (le_refl _)]
    simp
  have hset : ∀ y : Int, (pre ++ wrap64 (n ^ i) :: post).set pre.length y = pre ++ y :: post := by
    intro y
    rw [List.set_append_right _ _ (le_refl _)]
    simp
  simp only [ExpClosure.call]
  rw [hget, hset, wrap64_mul, ← pow_succ]

theorem exp_callN (n : Int) (pre post : List Int) : ∀ (k i : Nat),
    (ExpClosure.mk n pre.length).callN k (pre ++ wrap64 (n ^ i) :: post)
      = ((List.range k).map (fun j => wrap64 (n ^ (i + j))),
         pre ++ wrap64 (n ^ (i + k)) :: post) := by
  intro k
  induction k with
  | zero => intro i; rfl
  | succ k ih =>
    intro i
    have hfun : (fun j => wrap64 (n ^ (i + (j + 1)))) = (fun j => wrap64 (n ^ (i + 1 + j))) := by
      funext j
      rw [show i + (j + 1) = i + 1 + j by omega]
    simp only [ExpClosure.callN, exp_call, ih]
    rw [range_map_succ (fun j => wrap64 (n ^ (i + j))) k, hfun,
      show i + 1 + k = i + (k + 1) by omega]
    rfl

theorem expTwoLoop_spec (n1 n2 : Int) : ∀ (sched : List Bool) (i j : Nat),
    expTwoLoop ⟨n1, 0⟩ ⟨n2, 1⟩ sched [wrap64 (n1 ^ i), wrap64 (n2 ^ j)]
      = ((List.range (sched.count true)).map (fun k => wrap64 (n1 ^ (i + k))),
         (List.range (sched.count false)).map (fun k => wrap64 (n2 ^ (j + k)))) := by
  intro sched
  induction sched with
  | nil => intro i j; rfl
  | cons b rest ih =>
    intro i j
    cases b with
    | true =>
      have hc := exp_call n1 i [] [wrap64 (n2 ^ j)]
      simp only [List.length_nil, List.nil_append] at hc
      have ct : (true :: rest).count true = rest.count true + 1 := by simp
      have cf : (true :: rest).count false = rest.count false := by simp
      have hfun : (fun k => wrap64 (n1 ^ (i + (k + 1))))
          = (fun k => wrap64 (n1 ^ (i + 1 + k))) := by
        funext k
        rw [show i + (k + 1) = i + 1 + k by omega]
      simp only [expTwoLoop, hc, ih, ct, cf]
      rw [range_map_succ (fun k => wrap64 (n1 ^ (i + k))) (rest.count true), hfun]
      rfl
    | false =>
      have hc := exp_call n2 j [wrap64 (n1 ^ i)] []
      simp only [List.length_singleton, List.singleton_append] at hc
      have ct : (false :: rest).count true = rest.count true := by simp
      have cf : (false :: rest).count false = rest.count false + 1 := by simp
      have hfun : (fun k => wrap64 (n2 ^ (j + (k + 1))))
          = (fun k => wrap64 (n2 ^ (j + 1 + k))) := by
        funext k
        rw [show j + (k + 1) = j + 1 + k by omega]
      simp only [expTwoLoop, hc, ih, ct, cf]
      rw [range_map_succ (fun k => wrap64 (n2 ^ (j + k))) (rest.count false), hfun]
      rfl

/-- C27. `Exp(n)` returns a counter of powers.  For every integer `n` and every
`k`, the first `k` calls of the closure returned by one call of `Exp(n)` return
`n^0`, `n^1`, ..., `n^(k-1)` wrapped to 64 bits, so the `(k+1)`-th call returns
`n^k`.  Closures from separate calls of `Exp` have separate variables: however
the calls of `f := Exp(n1)` and `g := Exp(n2)` are interleaved, the calls of
`f` return the powers of `n1` in order and the calls of `g` those of `n2`.
`Exp(2)` returns 1, 2, 4, ..., 512 over ten calls. -/
theorem exp_powers :
    (∀ (n : Int) (k : Nat),
      ((Exp [] n).1.callN k (Exp [] n).2).1 = (List.range k).map (fun j => wrap64 (n ^ j)) ∧
      ((Exp [] n).1.callN (k + 1) (Exp [] n).2).1.getLast? = some (wrap64 (n ^ k))) ∧
    (∀ (n1 n2 : Int) (sched : List Bool),
      expTwo n1 n2 sched
        = ((List.range (sched.count true)).map (fun k => wrap64 (n1 ^ k)),
           (List.range (sched.count false)).map (fun k => wrap64 (n2 ^ k)))) ∧
    (∀ (n : Int) (k : Nat), -9223372036854775808 ≤ n ^ k → n ^ k < 9223372036854775808 →
      wrap64 (n ^ k) = n ^ k) ∧
    ((Exp [] 2).1.callN 10 (Exp [] 2).2).1 = [1, 2, 4, 8, 16, 32, 64, 128, 256, 512] := by
  have hone : ∀ n : Int, wrap64 (n ^ 0) = 1 := fun n => by
    rw [pow_zero]
    decide
  have hN : ∀ (n : Int) (k : Nat),
      ((Exp [] n).1.callN k (Exp [] n).2).1 = (List.range k).map (fun j => wrap64 (n ^ j)) := by
    intro n k
    have h := exp_callN n [] [] k 0
    simp only [List.length_nil, List.nil_append, Nat.zero_add, hone] at h
    simp only [Exp, List.length_nil, List.nil_append]
    rw [h]
  refine ⟨?_, ?_, fun n k h1 h2 => wrap64_small _ h1 h2, by decide⟩
  · intro n k
    refine ⟨hN n k, ?_⟩
    rw [hN n (k + 1), List.range_succ]
    simp
  · intro n1 n2 sched
    have h := expTwoLoop_spec n1 n2 sched 0 0
    simp only [Nat.zero_add, hone] at h
    simp only [expTwo, Exp, List.length_nil, List.nil_append, List.length_singleton,
      List.singleton_append]
    exact h

/-- Witness of C27: calls of `Exp(2)` and `Exp(3)` interleaved, and a power that
fits in 64 bits. -/
theorem exp_powers_witness :
    expTwo 2 3 [true, false, false, true, true, false] = ([1, 2, 4], [1, 3, 9]) ∧
    wrap64 ((2 : Int) ^ 9) = 2 ^ 9 :=
  ⟨by decide, exp_powers.2.2.1 2 9 (by decide) (by decide)⟩

/-! ## `CustomIterator` -/

/-- C28. `CustomIterator.Filter` is list filtering.  For every slice and
predicate, collecting `Filter(p)` gives exactly the elements that satisfy the
predicate, in their order and with multiplicity, and collecting `Seq()` gives
the whole slice.  For every consumer, `Filter(p)` passes to `yield` what `Seq()`
of the filtered slice passes, `Filter` with the predicate that is always true
is `Seq()`, the values passed are an initial segment of the (filtered) slice,
and the call ends with the first value for which `yield` returns false.
`[apple, banana, cherry, date]` with `len > 5` gives `[banana, cherry]`. -/
theorem customIterator_filter :
    (∀ (α : Type) (data : List α) (p : α → Bool),
      ((NewCustomIterator data).Filter p collect []).passed = data.filter p ∧
      ((NewCustomIterator data).Filter p collect []).consumer = data.filter p ∧
      ((NewCustomIterator data).Seq collect []).passed = data ∧
      ((NewCustomIterator data).Seq collect []).consumer = data) ∧
    (∀ (σ α : Type) (data : List α) (p : α → Bool) (yield : σ → α → σ × Bool) (c : σ),
      (NewCustomIterator data).Filter p yield c
        = (NewCustomIterator (data.filter p)).Seq yield c ∧
      (NewCustomIterator data).Filter (fun _ => true) yield c
        = (NewCustomIterator data).Seq yield c ∧
      (∃ rest, data.filter p = ((NewCustomIterator data).Filter p yield c).passed ++ rest) ∧
      (∃ rest, data = ((NewCustomIterator data).Seq yield c).passed ++ rest)) ∧
    (∀ (σ α : Type) (x : α) (xs : List α) (yield : σ → α → σ × Bool) (c : σ),
      (yield c x).2 = false →
      (NewCustomIterator (x :: xs)).Seq yield c = ⟨(yield c x).1, [x], true⟩) ∧
    (∀ (σ α : Type) (x : α) (xs : List α) (yield : σ → α → σ × Bool) (c : σ),
      (yield c x).2 = true →
      (NewCustomIterator (x :: xs)).Seq yield c
        = ((NewCustomIterator xs).Seq yield (yield c x).1).cons x) ∧
    ((NewCustomIterator ["apple", "banana", "cherry", "date"]).Filter
        (fun s => decide (s.utf8ByteSize > 5)) collect []).passed = ["banana", "cherry"] := by
  refine ⟨?_, ?_, ?_, ?_, by decide⟩
  · intro α data p
    simp [CustomIterator.Filter, CustomIterator.Seq, NewCustomIterator, filterLoop_eq,
      seqLoop_collect]
  · intro σ α data p yield c
    refine ⟨?_, ?_, ?_, ?_⟩
    · simp [CustomIterator.Filter, CustomIterator.Seq, NewCustomIterator, filterLoop_eq]
    · simp [CustomIterator.Filter, CustomIterator.Seq, NewCustomIterator, filterLoop_eq]
    · simp only [CustomIterator.Filter, NewCustomIterator, filterLoop_eq]
      exact (seqLoop_segment yield _ c).1
    · exact (seqLoop_segment yield _ c).1
  · intro σ α x xs yield c h
    simp [CustomIterator.Seq, NewCustomIterator, seqLoop, h]
  · intro σ α x xs yield c h
    simp [CustomIterator.Seq, NewCustomIterator, seqLoop, h]

/-- Witness of C28: a consumer that stops at the first value longer than five
bytes sees `apple` and `banana` from `Seq()` and only `banana` from the filter. -/
theorem customIterator_filter_witness :
    (NewCustomIterator ["apple", "banana", "cherry", "date"]).Seq
        (fun (c : Nat) (s : String) => (c + 1, decide (s.utf8ByteSize ≤ 5))) 0
      = ⟨2, ["apple", "banana"], true⟩ ∧
    (NewCustomIterator ["banana", "cherry"]).Seq
        (fun (c : Nat) (s : String) => (c + 1, decide (s.utf8ByteSize ≤ 5))) 0
      = ⟨1, ["banana"], true⟩ :=
  ⟨by decide,
   customIterator_filter.2.2.1 Nat String "banana" ["cherry"]
     (fun (c : Nat) (s : String) => (c + 1, decide (s.utf8ByteSize ≤ 5))) 0 (by decide)⟩

/-! ## A channel as a lock -/

theorem countP_set (p : LockPc → Bool) (l : List LockPc) (i : Nat) (x y : LockPc)
    (h : l[i]? = some x) :
    (l.set i y).countP p + (if p x then 1 else 0) = l.countP p + (if p y then 1 else 0) := by
  induction l generalizing i with
  | nil => simp at h
  | cons b bs ih =>
    cases i with
    | zero =>
      simp only [List.getElem?_cons_zero, Option.some.injEq] at h
      subst h
      simp only [List.set_cons_zero, List.countP_cons]
      omega
    | succ k =>
      simp only [List.getElem?_cons_succ] at h
      have := ih k h
      simp only [List.set_cons_succ, List.countP_cons]
      omega

/-- While one goroutine holds the lock, no other one is at a point that holds
it. -/
theorem lock_exclusive {s : LockState} (h : LockInv s) (i j : Nat) (x y : LockPc)
    (hi : s.pcs[i]? = some x) (hj : s.pcs[j]? = some y) (hx : x.holds = true)
    (hy : y.holds = true) : i = j := by
  by_contra hne
  have c1 := countP_set LockPc.holds s.pcs i x .start hi
  have hj2 : (s.pcs.set i .start)[j]? = some y := by
    rw [List.getElem?_set_ne hne]
    exact hj
  have c2 := countP_set LockPc.holds (s.pcs.set i .start) j y .start hj2
  have h1 := h.holders
  have h2 := h.atMostOne
  have hs : LockPc.holds .start = false := rfl
  simp only [hx, hy, hs, if_true, Bool.false_eq_true, if_false] at c1 c2
  omega

theorem lockInv_init : LockInv lockInit := by
  refine ⟨rfl, rfl, rfl, by decide, by decide, by decide, ?_, rfl⟩
  intro i old h
  have := List.eq_of_mem_replicate (List.getElem?_mem h)
  cases this

theorem lockInv_step {s s1 : LockState} (h : LockInv s) (i : Nat)
    (hstep : lockStep s i = .done s1) : LockInv s1 := by
  have hex := lock_exclusive h
  obtain ⟨hlen, hcap, hopen, hhold, hone, hcount, hfresh, hq⟩ := h
  simp only [lockStep] at hstep
  cases hpc : s.pcs[i]? with
  | none => simp [hpc] at hstep
  | some p =>
    have cH := fun y => countP_set LockPc.holds s.pcs i p y hpc
    have cI := fun y => countP_set LockPc.incremented s.pcs i p y hpc
    cases p with
    | finished => simp [hpc] at hstep
    | start =>
      simp only [hpc] at hstep
      by_cases hroom : s.lock.buf.length < s.lock.cap
      · have hsend : send s.lock 0 = .done { s.lock with buf := s.lock.buf ++ [0] } := by
          simp [send, hopen, hroom]
        simp only [hsend, bind_done] at hstep
        cases hstep
        have c1 := cH .locked
        have c2 := cI .locked
        simp [LockPc.holds, LockPc.incremented] at c1 c2
        refine ⟨by simpa using hlen, hcap, hopen, ?_, ?_, ?_, ?_, hq⟩
        · simp only [List.length_append, List.length_singleton]
          omega
        · simp only [List.length_append, List.length_singleton]
          omega
        · simp only [c2]
          exact hcount
        · intro j old hj
          simp only at hj ⊢
          by_cases hij : i = j
          · subst hij
            rw [List.getElem?_set_self (by
              by_contra hge
              rw [List.getElem?_eq_none (by omega)] at hpc
              cases hpc)] at hj
            cases hj
          · rw [List.getElem?_set_ne hij] at hj
            exact hfresh j old hj
      · have hsend : send s.lock 0 = .blocks := by
          simp [send, hopen, hroom]
        simp [hsend] at hstep
    | locked =>
      simp only [hpc] at hstep
      cases hstep
      have c1 := cH (.read s.counter)
      have c2 := cI (.read s.counter)
      simp [LockPc.holds, LockPc.incremented] at c1 c2
      refine ⟨by simpa using hlen, hcap, hopen, ?_, hone, ?_, ?_, hq⟩
      · simp only
        omega
      · simp only [c2]
        exact hcount
      · intro j old hj
        simp only at hj ⊢
        by_cases hij : i = j
        · subst hij
          rw [List.getElem?_set_self (by
            by_contra hge
            rw [List.getElem?_eq_none (by omega)] at hpc
            cases hpc)] at hj
          cases hj
          rfl
        · rw [List.getElem?_set_ne hij] at hj
          exact hfresh j old hj
    | read old =>
      simp only [hpc] at hstep
      cases hstep
      have c1 := cH .written
      have c2 := cI .written
      simp [LockPc.holds, LockPc.incremented] at c1 c2
      have hold : old = s.counter := hfresh i old hpc
      have hcnt5 : s.pcs.countP LockPc.incremented ≤ 5 := by
        rw [← hlen]
        exact List.countP_le_length _
      refine ⟨by simpa using hlen, hcap, hopen, ?_, hone, ?_, ?_, hq⟩
      · simp only
        omega
      · simp only [c2, hold, hcount]
        rw [wrap64_small _ (by omega) (by omega)]
        push_cast
        rfl
      · intro j old2 hj
        simp only at hj ⊢
        exfalso
        by_cases hij : i = j
        · subst hij
          rw [List.getElem?_set_self (by
            by_contra hge
            rw [List.getElem?_eq_none (by omega)] at hpc
            cases hpc)] at hj
          cases hj
        · rw [List.getElem?_set_ne hij] at hj
          exact hij (hex i j _ _ hpc hj rfl rfl)
    | written =>
      simp only [hpc] at hstep
      have c1 := cH .finished
      have c2 := cI .finished
      simp [LockPc.holds, LockPc.incremented] at c1 c2
      cases hbuf : s.lock.buf with
      | nil =>
        rw [hbuf] at hhold
        simp only [List.length_nil] at hhold
        omega
      | cons v rest =>
        have hrecv : recv s.lock = .done ((v, true), { s.lock with buf := rest }) := by
          rw [recv_unparked s.lock hq, hbuf]
        simp only [hrecv, bind_done] at hstep
        cases hstep
        rw [hbuf] at hhold hone
        simp only [List.length_cons] at hhold hone
        refine ⟨by simpa using hlen, hcap, hopen, ?_, ?_, ?_, ?_, hq⟩
        · simp only
          omega
        · simp only
          omega
        · simp only [c2]
          exact hcount
        · intro j old hj
          simp only at hj ⊢
          by_cases hij : i = j
          · subst hij
            rw [List.getElem?_set_self (by
              by_contra hge
              rw [List.getElem?_eq_none (by omega)] at hpc
              cases hpc)] at hj
            cases hj
          · rw [List.getElem?_set_ne hij] at hj
            exact hfresh j old hj

theorem lockStep_no_panic {s : LockState} (h : LockInv s) (i : Nat) :
    lockStep s i ≠ .panics := by
  simp only [lockStep]
  cases hpc : s.pcs[i]? with
  | none => simp
  | some p =>
    cases p with
    | finished => simp
    | locked => simp
    | read old => simp
    | start =>
      simp only [send, h.isOpen, Bool.false_eq_true, if_false]
      split <;> simp
    | written =>
      simp only [recv_unparked s.lock h.nosend, h.isOpen, Bool.false_eq_true, if_false]
      split <;> simp

theorem lockInv_run (sched : List Nat) : ∀ (s : LockState), LockInv s →
    match lockRun s sched with
    | .panics => False
    | .blocks => True
    | .done s1 => LockInv s1 := by
  induction sched with
  | nil => intro s h; simpa [lockRun] using h
  | cons i rest ih =>
    intro s h
    simp only [lockRun]
    cases hs : lockStep s i with
    | blocks => simp
    | panics => exact absurd hs (lockStep_no_panic h i)
    | done s2 =>
      simp only [bind_done]
      exact ih s2 (lockInv_step h i hs)

/-- C29. A channel of capacity 1 used as a lock gives mutual exclusion.  In the
mutex part of `channelAsSyncTool`, under every interleaving of the five
goroutines nothing panics and in every reachable state: the number of
goroutines between `lock <- struct{}{}` and `<-lock` equals `len(lock)`, which
is at most 1, so two goroutines at such points are the same goroutine; `counter`
equals the number of goroutines that have run `counter = old + 1`; a goroutine
about to run it has `old` equal to the current `counter`, so its step adds
exactly one; and when all five goroutines have finished, `counter` is 5. -/
theorem channel_lock_mutex (sched : List Nat) :
    match lockRun lockInit sched with
    | .panics => False
    | .blocks => True
    | .done s =>
      s.pcs.countP LockPc.holds = s.lock.len ∧ s.lock.len ≤ 1 ∧
      (∀ (i j : Nat) (x y : LockPc), s.pcs[i]? = some x → s.pcs[j]? = some y →
        x.holds = true → y.holds = true → i = j) ∧
      s.counter = s.pcs.countP LockPc.incremented ∧
      (∀ (i : Nat) (old : Int), s.pcs[i]? = some (.read old) →
        old = s.counter ∧
        ∃ s1, lockStep s i = .done s1 ∧ s1.counter = s.counter + 1) ∧
      ((∀ p ∈ s.pcs, p = .finished) → s.counter = 5) := by
  have h := lockInv_run sched lockInit lockInv_init
  cases hr : lockRun lockInit sched with
  | panics => simp [hr] at h
  | blocks => trivial
  | done s =>
    simp only [hr] at h
    refine ⟨h.holders, h.atMostOne, lock_exclusive h, h.count, ?_, ?_⟩
    · intro i old hi
      have hold := h.fresh i old hi
      refine ⟨hold, { s with counter := wrap64 (old + 1), pcs := s.pcs.set i .written },
        by simp only [lockStep, hi], ?_⟩
      have hcnt5 : s.pcs.countP LockPc.incremented ≤ 5 := by
        rw [← h.len]
        exact List.countP_le_length _
      have hc := h.count
      simp only
      rw [hold]
      exact wrap64_small _ (by omega) (by omega)
    · intro hall
      have hc : s.pcs.countP LockPc.incremented = s.pcs.length := by
        rw [List.countP_eq_length]
        intro p hp
        rw [hall p hp]
        rfl
      rw [h.count, hc, h.len]
      rfl

/-- Witness of C29: when the goroutines run one after the other all five finish
with `counter` at 5, and a goroutine that tries to take the lock while another
holds it has to wait. -/
theorem channel_lock_mutex_witness :
    lockRun lockInit lockContendedSchedule = .blocks ∧
    ∃ s, lockRun lockInit lockSequentialSchedule = .done s ∧
      (∀ p ∈ s.pcs, p = .finished) ∧ s.counter = 5 := by
  refine ⟨by decide, ?_⟩
  have hr : ∃ s, lockRun lockInit lockSequentialSchedule = .done s ∧
      (∀ p ∈ s.pcs, p = .finished) :=
    ⟨⟨5, ⟨1, [], false, []⟩, List.replicate 5 .finished⟩, by decide, by decide⟩
  obtain ⟨s, hs, hall⟩ := hr
  have h := channel_lock_mutex lockSequentialSchedule
  rw [hs] at h
  exact ⟨s, hs, hall, h.2.2.2.2.2 hall⟩

end Gobase
